import Mathlib

/-!
# Viewport windowing of `src/collection/store/viewport.helpers.js`

A shallow embedding of the viewport helpers of revogrid and the properties
proved about them.

Conventions of the embedding.

* Pixels, item indexes and counts are integers (`Int`); the JavaScript numbers
  of the source are used as integers on every path modelled here.  Division by
  an `originItemSize` of zero (which gives `Infinity` or `NaN` in JavaScript)
  is outside the model.
* A JavaScript array of items is a list of optional items: `none` is a hole or
  `undefined`.  Reading a slot past the end gives `none`, writing a slot past
  the end pads the array with holes, as in JavaScript.
* A function that can throw a `TypeError` (a property read on `undefined`)
  returns an `Option`; `none` is the thrown error.
* `recombineByOffset` mutates its `state` argument in place, so the embedding
  returns the state after the call next to the returned value.
-/

namespace Viewport

/-- Entry of the dimension store: the resolved span of one item. -/
structure PositionItem where
  itemIndex : Int
  start : Int
  end_ : Int
deriving DecidableEq, Repr

/-- Item of a viewport window: a span together with its size. -/
structure VirtualPositionItem where
  itemIndex : Int
  start : Int
  end_ : Int
  size : Int
deriving DecidableEq, Repr

/-- Window of rendered items: `items` is addressed by slot, `itemIndexes` lists
the slots in visual order. -/
structure ViewportStateItems where
  items : List (Option VirtualPositionItem)
  itemIndexes : List Nat
deriving DecidableEq, Repr

/-- Dimension of one axis, as read by the viewport helpers.  `sizes` is the
sparse object of size overrides (`none` where the key is absent). -/
structure DimensionSettingsState where
  sizes : Int → Option Int
  originItemSize : Int
  indexes : List Int
  positionIndexes : List Int
  positionIndexToCoordinate : List PositionItem
  realSize : Int

/-- Options object of `getItems`. -/
structure GetItemsOpt where
  sizes : Int → Option Int
  start : Int
  startIndex : Int
  origSize : Int
  maxSize : Int
  maxCount : Int

/-- Data object of `recombineByOffset`.  The fields `newItem` and `prevItem` of
the source are never read by the function and are left out. -/
structure RecombineData where
  dimension : DimensionSettingsState
  positiveDirection : Bool
  offset : Nat

/-- Read of `items[k]`: `none` for a hole and for a slot past the end. -/
def slotAt (items : List (Option VirtualPositionItem)) (k : Nat) : Option VirtualPositionItem :=
  items.getD k none

/-- Assignment `items[k] = v`: in range it replaces the slot, past the end it pads
the array with holes up to `k`. -/
def setSlot (items : List (Option VirtualPositionItem)) (k : Nat) (v : VirtualPositionItem) :
    List (Option VirtualPositionItem) :=
  if k < items.length then items.set k (some v)
  else items ++ List.replicate (k - items.length) none ++ [some v]

/-- Source `getItemSize`: the override when it is present and truthy (non-zero),
the default size otherwise. -/
def getItemSize (index : Int) (sizes : Int → Option Int) (origSize : Int) : Int :=
  match sizes index with
  | some s => if s ≠ 0 then s else origSize
  | none => origSize

/-- Source `isActiveRange` for a present item. -/
def isActiveRange (pos : Int) (item : Option VirtualPositionItem) : Bool :=
  match item with
  | none => false
  | some it => decide (pos ≥ it.start) && decide (pos ≤ it.end_)

/-- Source `getFirstItem`: `s.items[s.itemIndexes[0]]`. -/
def getFirstItem (s : ViewportStateItems) : Option VirtualPositionItem :=
  match s.itemIndexes.head? with
  | none => none
  | some k => slotAt s.items k

/-- Source `getLastItem`: `s.items[s.itemIndexes[s.itemIndexes.length - 1]]`. -/
def getLastItem (s : ViewportStateItems) : Option VirtualPositionItem :=
  match s.itemIndexes.getLast? with
  | none => none
  | some k => slotAt s.items k

/-- Binary search of lodash `sortedIndex` (`baseSortedIndex` with
`retHighest = false`): `fuel` bounds the number of halvings. -/
def sortedIndexLoop (array : List Int) (value : Int) : Nat → Nat → Nat → Nat
  | 0, _, high => high
  | fuel + 1, low, high =>
    if low < high then
      let mid := (low + high) / 2
      if array.getD mid 0 < value then sortedIndexLoop array value fuel (mid + 1) high
      else sortedIndexLoop array value fuel low mid
    else high

/-- Library function `sortedIndex` of lodash, imported by the source: the lowest
index at which `value` can be inserted into the sorted `array`, found by binary
search with the test `computed < value`. -/
def sortedIndex (array : List Int) (value : Int) : Nat :=
  sortedIndexLoop array value array.length 0 array.length

/-- Modelled from the spec: `range` of `../utils/utils`, which is not among the
sources.  `range size startAt` is the list of `size` consecutive slot indexes
`startAt, startAt + 1, ...`, the slots appended after the highest used one. -/
def range (size startAt : Nat) : List Nat :=
  (List.range size).map (fun i => startAt + i)

/-- Source `getOffset`: the span of the item at pixel `pos`. -/
def getOffset (dimension : DimensionSettingsState) (pos origSize : Int) : Option PositionItem :=
  let currentPlace :=
    if dimension.indexes.length ≠ 0 then sortedIndex dimension.positionIndexes pos else 0
  if currentPlace = 0 then
    let itemIndex := Int.fdiv pos origSize
    let start := itemIndex * origSize
    some { itemIndex := itemIndex, start := start, end_ := start + origSize }
  else
    match dimension.positionIndexToCoordinate[currentPlace - 1]? with
    | none => none
    | some positionItem =>
      if positionItem.end_ > pos then some positionItem
      else
        let relativePos := pos - positionItem.end_
        let relativeIndex := Int.fdiv relativePos origSize
        let start := positionItem.end_ + relativeIndex * origSize
        some { itemIndex := positionItem.itemIndex + 1 + relativeIndex
               start := start
               end_ := start + origSize }

/-- Loop of `getItems`.  The first argument is the number of iterations the guard
`i < opt.maxCount` still allows (`opt.maxCount - i`), `index`, `size` and `i` are
the loop variables. -/
def getItemsLoop (opt : GetItemsOpt) : Nat → Int → Int → Nat → ViewportStateItems
  | 0, _, _, _ => { items := [], itemIndexes := [] }
  | left + 1, index, size, i =>
    if size ≤ opt.maxSize then
      let newSize := getItemSize index opt.sizes opt.origSize
      let rest := getItemsLoop opt left (index + 1) (size + newSize) (i + 1)
      { items := some { start := opt.start + size
                        end_ := opt.start + size + newSize
                        itemIndex := index
                        size := newSize } :: rest.items
        itemIndexes := i :: rest.itemIndexes }
    else { items := [], itemIndexes := [] }

/-- Source `getItems`: the items from `opt.startIndex` on, while the accumulated
size is at most `opt.maxSize` and fewer than `opt.maxCount` items were made. -/
def getItems (opt : GetItemsOpt) (currentSize : Int) : ViewportStateItems :=
  getItemsLoop opt opt.maxCount.toNat opt.startIndex currentSize 0

/-- Forward loop of `recombineByOffset`, `for (i = 0; i < offset; i++)`: the first
argument is `offset - i`.  It returns the items array after the loop, `none` when
`lastItem` is `undefined` where it is read. -/
def forwardLoop (dimension : DimensionSettingsState) (itemIndexes : List Nat) :
    Nat → Nat → Option VirtualPositionItem → List (Option VirtualPositionItem) →
    Option (List (Option VirtualPositionItem))
  | 0, _, _, items => some items
  | _ + 1, _, none, _ => none
  | left + 1, i, some lastItem, items =>
    let newIndex := lastItem.itemIndex + 1
    let size := getItemSize newIndex dimension.sizes dimension.originItemSize
    if lastItem.end_ + size > dimension.realSize then some items
    else
      let item : VirtualPositionItem :=
        { itemIndex := newIndex, start := lastItem.end_, end_ := lastItem.end_ + size, size := size }
      forwardLoop dimension itemIndexes left (i + 1) (some item)
        (setSlot items (itemIndexes.getD i 0) item)

/-- Backward loop of `recombineByOffset`, `for (i = indexSize - 1; i >= changed; i--)`:
the first argument is `i - changed + 1`. -/
def backwardLoop (dimension : DimensionSettingsState) (itemIndexes : List Nat) (changed : Nat) :
    Nat → Option VirtualPositionItem → List (Option VirtualPositionItem) →
    Option (List (Option VirtualPositionItem))
  | 0, _, items => some items
  | _ + 1, none, _ => none
  | left + 1, some firstItem, items =>
    let i := changed + left
    let newIndex := firstItem.itemIndex - 1
    let size := getItemSize newIndex dimension.sizes dimension.originItemSize
    let item : VirtualPositionItem :=
      { itemIndex := newIndex, start := firstItem.start - size, end_ := firstItem.start, size := size }
    backwardLoop dimension itemIndexes changed left (some item)
      (setSlot items (itemIndexes.getD i 0) item)

/-- Source `recombineByOffset`.  The result is `none` for a thrown `TypeError`;
otherwise it is the returned value (`none` for `null`, else the copied window)
paired with `state` as the call leaves it. -/
def recombineByOffset (data : RecombineData) (state : ViewportStateItems) :
    Option (Option ViewportStateItems × ViewportStateItems) :=
  let indexSize := state.itemIndexes.length
  if data.offset > indexSize then some (none, state)
  else if data.positiveDirection then
    match forwardLoop data.dimension state.itemIndexes data.offset 0 (getLastItem state) state.items with
    | none => none
    | some items =>
      let itemIndexes := state.itemIndexes.drop data.offset ++ state.itemIndexes.take data.offset
      some (some { items := items, itemIndexes := itemIndexes },
            { items := items, itemIndexes := itemIndexes })
  else
    let changed := indexSize - data.offset
    match backwardLoop data.dimension state.itemIndexes changed data.offset (getFirstItem state)
        state.items with
    | none => none
    | some items =>
      let removed := (state.itemIndexes.drop changed).take (indexSize - 1)
      let kept := state.itemIndexes.take changed ++ (state.itemIndexes.drop changed).drop (indexSize - 1)
      let itemIndexes := removed ++ kept
      some (some { items := items, itemIndexes := itemIndexes },
            { items := items, itemIndexes := itemIndexes })

/-- Source `addMissingItems`: the items that fill the space left after the last
visible item, with the slots they are appended to. -/
def addMissingItems (firstItem : PositionItem) (realCount virtualSize : Int)
    (existingCollection : ViewportStateItems) (dimension : DimensionSettingsState) :
    Option ViewportStateItems :=
  match getLastItem existingCollection with
  | none => none
  | some lastItem =>
    let data := getItems
      { sizes := dimension.sizes
        start := lastItem.end_
        startIndex := lastItem.itemIndex + 1
        origSize := dimension.originItemSize
        maxSize := virtualSize - (lastItem.end_ - firstItem.start)
        maxCount := realCount - lastItem.itemIndex } 0
    some { items := data.items
           itemIndexes := range data.items.length existingCollection.items.length }

/-- Full rebuild of `getUpdatedItemsByPosition`: `getItems` at the located item. -/
def rebuild (activeItem : PositionItem) (realCount virtualSize : Int)
    (dimension : DimensionSettingsState) : ViewportStateItems :=
  getItems
    { sizes := dimension.sizes
      start := activeItem.start
      startIndex := activeItem.itemIndex
      origSize := dimension.originItemSize
      maxSize := virtualSize
      maxCount := realCount } 0

/-- Source `getUpdatedItemsByPosition`.  The result is `none` for a thrown
`TypeError`; otherwise the returned window paired with the previous window
`items` as the call leaves it. -/
def getUpdatedItemsByPosition (pos : Int) (items : ViewportStateItems) (realCount virtualSize : Int)
    (dimension : DimensionSettingsState) : Option (ViewportStateItems × ViewportStateItems) :=
  match getOffset dimension pos dimension.originItemSize with
  | none => none
  | some activeItem =>
    match getFirstItem items with
    | none => some (rebuild activeItem realCount virtualSize dimension, items)
    | some firstItem =>
      let changedOffsetStart := activeItem.itemIndex - firstItem.itemIndex
      if changedOffsetStart ≠ 0 then
        match recombineByOffset
            { dimension := dimension
              positiveDirection := decide (changedOffsetStart > -1)
              offset := changedOffsetStart.natAbs } items with
        | none => none
        | some (none, state) => some (rebuild activeItem realCount virtualSize dimension, state)
        | some (some toUpdate, state) =>
          match addMissingItems activeItem realCount virtualSize toUpdate dimension with
          | none => none
          | some extra =>
            if extra.items.length ≠ 0 then
              some ({ items := toUpdate.items ++ extra.items
                      itemIndexes := toUpdate.itemIndexes ++ extra.itemIndexes }, state)
            else some (toUpdate, state)
      else some (rebuild activeItem realCount virtualSize dimension, items)

/-- Items of a window read in visual order, `items[itemIndexes[i]]`. -/
def visual (w : ViewportStateItems) : List (Option VirtualPositionItem) :=
  w.itemIndexes.map (slotAt w.items)

/-- Dimension with no size overrides. -/
def uniformDimension (originItemSize realSize : Int) : DimensionSettingsState :=
  { sizes := fun _ => none
    originItemSize := originItemSize
    indexes := []
    positionIndexes := []
    positionIndexToCoordinate := []
    realSize := realSize }

/-- Window with no items. -/
def emptyWindow : ViewportStateItems := { items := [], itemIndexes := [] }

/-- Sum of the sizes of the `m` items from `index` on. -/
def sizeSum (sizes : Int → Option Int) (origSize index : Int) : Nat → Int
  | 0 => 0
  | m + 1 => sizeSum sizes origSize index m + getItemSize (index + m) sizes origSize

/-- Item number `j` of the run of items that starts with item `index` at pixel
`start`, each item with its size of the dimension and laid out without a gap. -/
def spanAt (sizes : Int → Option Int) (origSize index start : Int) (j : Nat) : VirtualPositionItem :=
  { itemIndex := index + j
    start := start + sizeSum sizes origSize index j
    end_ := start + sizeSum sizes origSize index j + getItemSize (index + j) sizes origSize
    size := getItemSize (index + j) sizes origSize }

/-- Run of `n` items from item `index` at pixel `start`, as array slots. -/
def spanList (sizes : Int → Option Int) (origSize index start : Int) (n : Nat) :
    List (Option VirtualPositionItem) :=
  (List.range n).map (fun j => some (spanAt sizes origSize index start j))

/-- The window reads, in visual order, as the run of `n` items that starts with
item `index` at pixel `start`. -/
def IsRun (sizes : Int → Option Int) (origSize : Int) (w : ViewportStateItems)
    (index start : Int) (n : Nat) : Prop :=
  visual w = spanList sizes origSize index start n

instance (sizes : Int → Option Int) (origSize : Int) (w : ViewportStateItems)
    (index start : Int) (n : Nat) : Decidable (IsRun sizes origSize w index start n) :=
  inferInstanceAs (Decidable (visual w = spanList sizes origSize index start n))

/-- Start of item `target` on the axis that has item `index` at pixel `start` and
every item at its size of the dimension. -/
def startOf (sizes : Int → Option Int) (origSize index start target : Int) : Int :=
  if index ≤ target then start + sizeSum sizes origSize index (target - index).toNat
  else start - sizeSum sizes origSize target (index - target).toNat

/-- Two neighbours of a window in visual order: both present, the second starts
where the first ends and has the next item index. -/
def Adjacent : Option VirtualPositionItem → Option VirtualPositionItem → Prop
  | some a, some b => a.end_ = b.start ∧ b.itemIndex = a.itemIndex + 1
  | _, _ => False

instance : (a b : Option VirtualPositionItem) → Decidable (Adjacent a b)
  | some a, some b => inferInstanceAs (Decidable (a.end_ = b.start ∧ b.itemIndex = a.itemIndex + 1))
  | some _, none => isFalse (fun h => h)
  | none, some _ => isFalse (fun h => h)
  | none, none => isFalse (fun h => h)

/-- Contiguity of a window: for all visual positions `i` and `i + 1` the items
`items[itemIndexes[i]]` and `items[itemIndexes[i + 1]]` are adjacent. -/
def Contiguous (w : ViewportStateItems) : Prop :=
  ∀ i < (visual w).length - 1, Adjacent ((visual w).getD i none) ((visual w).getD (i + 1) none)

instance (w : ViewportStateItems) : Decidable (Contiguous w) :=
  inferInstanceAs (Decidable (∀ i < (visual w).length - 1,
    Adjacent ((visual w).getD i none) ((visual w).getD (i + 1) none)))

/-- Bounds of a window: no item in a slot ends beyond `realSize`. -/
def WithinRealSize (realSize : Int) (w : ViewportStateItems) : Prop :=
  ∀ it, some it ∈ w.items → it.end_ ≤ realSize

instance (realSize : Int) (w : ViewportStateItems) : Decidable (WithinRealSize realSize w) :=
  decidable_of_iff (∀ o ∈ w.items, ∀ it ∈ o, it.end_ ≤ realSize)
    ⟨fun h it hit => h _ hit it rfl, fun h _ ho it e => h it (e ▸ ho)⟩

/-- Number of items `getItems` makes. -/
def itemCount (opt : GetItemsOpt) : Nat := (getItems opt 0).items.length

/-- Window of the six uniform items `first, ..., first + 5` of size 20 in the
slots `0, ..., 5`, in the identity order. -/
def sixItems (first : Int) : ViewportStateItems :=
  { items := (List.range 6).map (fun j => some (spanAt (fun _ => none) 20 first (first * 20) j))
    itemIndexes := [0, 1, 2, 3, 4, 5] }

/-- Options of `getItems` with a negative count budget. -/
def negativeCountOpt : GetItemsOpt :=
  { sizes := fun _ => none
    start := 0
    startIndex := 0
    origSize := 20
    maxSize := 100
    maxCount := -1 }

/-- Dimension of 1000 items of default size 20 whose item 3 has the size 50: the
override item spans `[60, 110)`. -/
def overrideDimension : DimensionSettingsState :=
  { sizes := fun i => if i = 3 then some 50 else none
    originItemSize := 20
    indexes := [3]
    positionIndexes := [60]
    positionIndexToCoordinate := [{ itemIndex := 3, start := 60, end_ := 110 }]
    realSize := 20030 }

/-- Dimension of 8 items of default size 20 whose item 4 has the size 100: the
override item spans `[80, 180)` and the axis ends at 240. -/
def wideItemDimension : DimensionSettingsState :=
  { sizes := fun i => if i = 4 then some 100 else none
    originItemSize := 20
    indexes := [4]
    positionIndexes := [80]
    positionIndexToCoordinate := [{ itemIndex := 4, start := 80, end_ := 180 }]
    realSize := 240 }

/-- Dimension of 1000 items of default size 20 whose item 0 has the size 100. -/
def leadingWideDimension : DimensionSettingsState :=
  { sizes := fun i => if i = 0 then some 100 else none
    originItemSize := 20
    indexes := [0]
    positionIndexes := [0]
    positionIndexToCoordinate := [{ itemIndex := 0, start := 0, end_ := 100 }]
    realSize := 20080 }

/-- Dimension of 1000 items of default size 20 whose item 6 has the size 100: the
override item spans `[120, 220)`. -/
def lateWideDimension : DimensionSettingsState :=
  { sizes := fun i => if i = 6 then some 100 else none
    originItemSize := 20
    indexes := [6]
    positionIndexes := [120]
    positionIndexToCoordinate := [{ itemIndex := 6, start := 120, end_ := 220 }]
    realSize := 20080 }

/-- Window of the items 4 and 5 of `wideItemDimension`, in the identity order. -/
def wideItemWindow : ViewportStateItems :=
  { items := [some { itemIndex := 4, start := 80, end_ := 180, size := 100 },
              some { itemIndex := 5, start := 180, end_ := 200, size := 20 }]
    itemIndexes := [0, 1] }

/-- Window returned at position 25 from `sixItems 0` by recombination: item 6 in
the slot of item 0, which moves to the back of the order. -/
def rotatedWindow : ViewportStateItems :=
  { items := [some { itemIndex := 6, start := 120, end_ := 140, size := 20 },
              some { itemIndex := 1, start := 20, end_ := 40, size := 20 },
              some { itemIndex := 2, start := 40, end_ := 60, size := 20 },
              some { itemIndex := 3, start := 60, end_ := 80, size := 20 },
              some { itemIndex := 4, start := 80, end_ := 100, size := 20 },
              some { itemIndex := 5, start := 100, end_ := 120, size := 20 }]
    itemIndexes := [1, 2, 3, 4, 5, 0] }

/-- Window returned at position 5 from `sixItems 1` by recombination: item 0 in
the slot of item 6, which moves to the front of the order. -/
def backwardWindow : ViewportStateItems :=
  { items := [some { itemIndex := 1, start := 20, end_ := 40, size := 20 },
              some { itemIndex := 2, start := 40, end_ := 60, size := 20 },
              some { itemIndex := 3, start := 60, end_ := 80, size := 20 },
              some { itemIndex := 4, start := 80, end_ := 100, size := 20 },
              some { itemIndex := 5, start := 100, end_ := 120, size := 20 },
              some { itemIndex := 0, start := 0, end_ := 20, size := 20 }]
    itemIndexes := [5, 0, 1, 2, 3, 4] }

/-- Window returned at position 20 from `sixItems 0` when the axis ends at 120:
the six old slots, then the six items 1 to 6 appended by `addMissingItems`. -/
def axisEndWindow : ViewportStateItems :=
  { items := (sixItems 0).items ++
      (List.range 6).map (fun j => some (spanAt (fun _ => none) 20 1 20 j))
    itemIndexes := [1, 2, 3, 4, 5, 0, 6, 7, 8, 9, 10, 11] }

/-- Window returned at position 180 from `wideItemWindow`: item 6 in the slot of
item 4, then the items 7 and 8 appended by `addMissingItems`. -/
def wideItemResult : ViewportStateItems :=
  { items := [some { itemIndex := 6, start := 200, end_ := 220, size := 20 },
              some { itemIndex := 5, start := 180, end_ := 200, size := 20 },
              some { itemIndex := 7, start := 220, end_ := 240, size := 20 },
              some { itemIndex := 8, start := 240, end_ := 260, size := 20 }]
    itemIndexes := [1, 0, 2, 3] }

end Viewport

namespace Viewport

/-! ## The builder `getItems` -/

theorem sizeSum_succ (sizes : Int → Option Int) (origSize index : Int) (m : Nat) :
    sizeSum sizes origSize index (m + 1)
      = sizeSum sizes origSize index m + getItemSize (index + m) sizes origSize := rfl

/-- What the loop of `getItems` returns when it is entered at iteration `i` with
the accumulated size of the first `i` items: the items from number `i` on, as long
as the size accumulated before each of them is within `maxSize`. -/
theorem getItemsLoop_spec (opt : GetItemsOpt) (left i : Nat) :
    ∃ k : Nat,
      getItemsLoop opt left (opt.startIndex + i) (sizeSum opt.sizes opt.origSize opt.startIndex i) i
        = { items := (List.range' i k).map
              (fun j => some (spanAt opt.sizes opt.origSize opt.startIndex opt.start j))
            itemIndexes := List.range' i k } ∧
      k ≤ left ∧
      (∀ j, i ≤ j → j < i + k → sizeSum opt.sizes opt.origSize opt.startIndex j ≤ opt.maxSize) ∧
      (k < left → opt.maxSize < sizeSum opt.sizes opt.origSize opt.startIndex (i + k)) := by
  induction left generalizing i with
  | zero => exact ⟨0, by simp [getItemsLoop], le_refl _, by intro j h1 h2; omega, by intro h; omega⟩
  | succ left ih =>
    by_cases hs : sizeSum opt.sizes opt.origSize opt.startIndex i ≤ opt.maxSize
    · obtain ⟨k, hk, hle, hin, hout⟩ := ih (i + 1)
      have e1 : opt.startIndex + (i : Int) + 1 = opt.startIndex + ((i + 1 : Nat) : Int) := by
        push_cast; ring
      refine ⟨k + 1, ?_, by omega, ?_, ?_⟩
      · rw [getItemsLoop, if_pos hs]
        simp only []
        rw [e1, ← sizeSum_succ, hk]
        simp [List.range'_succ, spanAt]
      · intro j h1 h2
        rcases Nat.eq_or_lt_of_le h1 with h | h
        · subst h; exact hs
        · exact hin j (by omega) (by omega)
      · intro h
        have := hout (by omega)
        rwa [show i + (k + 1) = i + 1 + k by omega]
    · refine ⟨0, by simp [getItemsLoop, hs], by omega, by intro j h1 h2; omega, ?_⟩
      intro _
      simpa using hs

theorem getItems_spec (opt : GetItemsOpt) :
    getItems opt 0
        = { items := spanList opt.sizes opt.origSize opt.startIndex opt.start (itemCount opt)
            itemIndexes := List.range (itemCount opt) } ∧
      itemCount opt ≤ opt.maxCount.toNat ∧
      (∀ j, j < itemCount opt → sizeSum opt.sizes opt.origSize opt.startIndex j ≤ opt.maxSize) ∧
      (itemCount opt < opt.maxCount.toNat →
        opt.maxSize < sizeSum opt.sizes opt.origSize opt.startIndex (itemCount opt)) := by
  obtain ⟨k, hk, hle, hin, hout⟩ := getItemsLoop_spec opt opt.maxCount.toNat 0
  simp only [Nat.cast_zero, add_zero, sizeSum, zero_add] at hk hin hout
  have hc : itemCount opt = k := by
    simp [itemCount, getItems, hk]
  rw [hc]
  refine ⟨?_, hle, fun j hj => hin j (Nat.zero_le _) hj, hout⟩
  simp [getItems, hk, spanList, List.range_eq_range']


theorem spanList_length (sizes : Int → Option Int) (origSize index start : Int) (n : Nat) :
    (spanList sizes origSize index start n).length = n := by
  simp [spanList]

theorem spanList_getElem? (sizes : Int → Option Int) (origSize index start : Int) (n i : Nat)
    (h : i < n) :
    (spanList sizes origSize index start n)[i]? = some (some (spanAt sizes origSize index start i)) := by
  simp [spanList, List.getElem?_map, List.getElem?_range h]

/-- Claim C9 (builder shape): `getItems` returns the identity order
`[0, ..., n-1]`; slot `i` holds item `startIndex + i`, whose size is the override
of that index when it is present and non-zero and `origSize` otherwise, whose end
is its start plus its size; the first item starts at `opt.start` and every next
item starts where the one before it ends. -/
theorem getItems_shape (opt : GetItemsOpt) :
    (getItems opt 0).itemIndexes = List.range (getItems opt 0).items.length ∧
    ∀ i, i < (getItems opt 0).items.length →
      ∃ it, (getItems opt 0).items[i]? = some (some it) ∧
        it.itemIndex = opt.startIndex + i ∧
        (∀ s, opt.sizes (opt.startIndex + i) = some s → s ≠ 0 → it.size = s) ∧
        (opt.sizes (opt.startIndex + i) = none ∨ opt.sizes (opt.startIndex + i) = some 0 →
          it.size = opt.origSize) ∧
        it.end_ = it.start + it.size ∧
        (i = 0 → it.start = opt.start) ∧
        (i + 1 < (getItems opt 0).items.length →
          ∃ nx, (getItems opt 0).items[i + 1]? = some (some nx) ∧ nx.start = it.end_) := by
  obtain ⟨hw, -, -, -⟩ := getItems_spec opt
  have hn : (getItems opt 0).items.length = itemCount opt := rfl
  rw [hn]
  refine ⟨by rw [hw], ?_⟩
  intro i hi
  refine ⟨spanAt opt.sizes opt.origSize opt.startIndex opt.start i, ?_, rfl, ?_, ?_, rfl, ?_, ?_⟩
  · rw [hw]; exact spanList_getElem? _ _ _ _ _ _ hi
  · intro s hs hs0
    simp [spanAt, getItemSize, hs, hs0]
  · rintro (h | h) <;> simp [spanAt, getItemSize, h]
  · intro h0; subst h0; simp [spanAt, sizeSum]
  · intro hi1
    refine ⟨spanAt opt.sizes opt.origSize opt.startIndex opt.start (i + 1), ?_, ?_⟩
    · rw [hw]; exact spanList_getElem? _ _ _ _ _ _ hi1
    · simp [spanAt, sizeSum, add_assoc]

/-- Claim C8, the stop rule of `getItems` as the code has it.  With `n` the number
of items made: `n = 0` when `maxCount ≤ 0` or `maxSize < 0`; for `maxCount ≥ 0`,
`n` is the least number with `n = maxCount` or with the first `n` sizes summing
to more than `maxSize`; `n ≤ max maxCount 0`; every item starts at most `maxSize`
after `opt.start` and only the last one can end beyond `opt.start + maxSize`; when
`n < maxCount` the extent made exceeds `maxSize`. -/
theorem getItems_stop_rule (opt : GetItemsOpt) :
    (opt.maxCount ≤ 0 ∨ opt.maxSize < 0 → (getItems opt 0).items.length = 0) ∧
    (0 ≤ opt.maxCount →
      (((getItems opt 0).items.length : Int) = opt.maxCount ∨
        opt.maxSize < sizeSum opt.sizes opt.origSize opt.startIndex (getItems opt 0).items.length) ∧
      ∀ m, m < (getItems opt 0).items.length →
        ¬ ((m : Int) = opt.maxCount ∨
          opt.maxSize < sizeSum opt.sizes opt.origSize opt.startIndex m)) ∧
    ((getItems opt 0).items.length : Int) ≤ max opt.maxCount 0 ∧
    (∀ j, j < (getItems opt 0).items.length →
      ∃ it, (getItems opt 0).items[j]? = some (some it) ∧
        it.start - opt.start ≤ opt.maxSize ∧
        (j + 1 < (getItems opt 0).items.length → it.end_ ≤ opt.start + opt.maxSize)) ∧
    (((getItems opt 0).items.length : Int) < opt.maxCount →
      opt.maxSize < sizeSum opt.sizes opt.origSize opt.startIndex (getItems opt 0).items.length ∧
      ∀ last, (getItems opt 0).items.getLast? = some (some last) →
        opt.maxSize < last.end_ - opt.start) := by
  obtain ⟨hw, hle, hin, hout⟩ := getItems_spec opt
  have hn : (getItems opt 0).items.length = itemCount opt := rfl
  rw [hn]
  refine ⟨?_, ?_, ?_, ?_, ?_⟩
  · rintro (h | h)
    · have : opt.maxCount.toNat = 0 := by omega
      omega
    · by_contra hne
      have := hin 0 (by omega)
      simp [sizeSum] at this
      omega
  · intro h0
    refine ⟨?_, ?_⟩
    · by_cases hlt : itemCount opt < opt.maxCount.toNat
      · exact Or.inr (hout hlt)
      · left; omega
    · intro m hm
      have := hin m hm
      rintro (h | h) <;> omega
  · omega
  · intro j hj
    refine ⟨spanAt opt.sizes opt.origSize opt.startIndex opt.start j, ?_, ?_, ?_⟩
    · rw [hw]; exact spanList_getElem? _ _ _ _ _ _ hj
    · have := hin j hj
      simp only [spanAt]; omega
    · intro hj1
      have := hin (j + 1) hj1
      simp only [spanAt, sizeSum] at this ⊢; omega
  · intro hlt
    have hout2 := hout (by omega)
    refine ⟨hout2, ?_⟩
    intro last hlast
    rw [hw, spanList] at hlast
    cases hc : itemCount opt with
    | zero => rw [hc] at hlast; simp at hlast
    | succ k =>
      rw [hc] at hlast hout2
      simp only [List.range_succ, List.map_append, List.map_cons, List.map_nil,
        List.getLast?_append, List.getLast?_singleton, Option.or, Option.some.injEq] at hlast
      subst hlast
      simp only [spanAt, sizeSum] at hout2 ⊢; omega

/-- Claim C8, as stated, fails for a negative `maxCount`: `getItems` then makes
`n = 0` items, and `n ≤ maxCount` does not hold. -/
theorem getItems_negative_maxCount :
    (getItems negativeCountOpt 0).items.length = 0 ∧
    ¬ (((getItems negativeCountOpt 0).items.length : Int) ≤ -1) := by
  decide


/-! ## The locator `getOffset` -/

/-- The fuel of the binary search is enough once it covers `high - low`: more fuel
does not change the result, so `sortedIndex` runs the search to its end. -/
theorem sortedIndexLoop_fuel (array : List Int) (value : Int) :
    ∀ (fuel low high extra : Nat), high - low ≤ fuel →
      sortedIndexLoop array value (fuel + extra) low high
        = sortedIndexLoop array value fuel low high := by
  intro fuel
  induction fuel with
  | zero =>
    intro low high extra h
    cases extra with
    | zero => rfl
    | succ extra =>
      have hlt : ¬ low < high := by omega
      rw [Nat.zero_add]
      simp only [sortedIndexLoop, hlt, if_false]
  | succ fuel ih =>
    intro low high extra h
    rw [show fuel + 1 + extra = (fuel + extra) + 1 by omega, sortedIndexLoop, sortedIndexLoop]
    by_cases hlt : low < high
    · simp only [hlt, if_true]
      rw [ih _ _ _ (by omega), ih _ _ _ (by omega)]
    · simp only [hlt, if_false]


/-- Binary search of `sortedIndex` on an ascending array: started with every
element before `low` below `value` and every element from `high` on not below it,
and with fuel for the distance `high - low`, it returns the boundary between the
elements below `value` and the others. -/
theorem sortedIndexLoop_spec (array : List Int) (value : Int)
    (hsorted : ∀ i j, i ≤ j → j < array.length → array.getD i 0 ≤ array.getD j 0) :
    ∀ (fuel low high : Nat), low ≤ high → high ≤ array.length → high - low ≤ fuel →
      (∀ j, j < low → array.getD j 0 < value) →
      (∀ j, high ≤ j → j < array.length → value ≤ array.getD j 0) →
      low ≤ sortedIndexLoop array value fuel low high ∧
      sortedIndexLoop array value fuel low high ≤ high ∧
      (∀ j, j < sortedIndexLoop array value fuel low high → array.getD j 0 < value) ∧
      (∀ j, sortedIndexLoop array value fuel low high ≤ j → j < array.length →
        value ≤ array.getD j 0) := by
  intro fuel
  induction fuel with
  | zero =>
    intro low high hle _ hfuel hlow hhigh
    have : low = high := by omega
    subst this
    exact ⟨le_refl _, le_refl _, hlow, hhigh⟩
  | succ fuel ih =>
    intro low high hle hlen hfuel hlow hhigh
    rw [sortedIndexLoop]
    by_cases hlt : low < high
    · simp only [hlt, if_true]
      have hmid1 : low ≤ (low + high) / 2 := by omega
      have hmid2 : (low + high) / 2 < high := by omega
      by_cases hcmp : array.getD ((low + high) / 2) 0 < value
      · simp only [hcmp, if_true]
        obtain ⟨h1, h2, h3, h4⟩ := ih ((low + high) / 2 + 1) high (by omega) hlen (by omega)
          (fun j hj => lt_of_le_of_lt (hsorted j ((low + high) / 2) (by omega) (by omega)) hcmp)
          hhigh
        exact ⟨by omega, h2, h3, h4⟩
      · simp only [hcmp, if_false]
        obtain ⟨h1, h2, h3, h4⟩ := ih low ((low + high) / 2) hmid1 (by omega) (by omega) hlow
          (fun j hj hjl => le_trans (not_lt.1 hcmp) (hsorted ((low + high) / 2) j hj hjl))
        exact ⟨h1, by omega, h3, h4⟩
    · simp only [hlt, if_false]
      have : low = high := by omega
      subst this
      exact ⟨le_refl _, le_refl _, hlow, hhigh⟩

/-- Contract of lodash `sortedIndex` on an ascending array: the result is the
lowest insertion point of `value`, the number of elements below `value`. -/
theorem sortedIndex_spec (array : List Int) (value : Int)
    (hsorted : ∀ i j, i ≤ j → j < array.length → array.getD i 0 ≤ array.getD j 0) :
    sortedIndex array value ≤ array.length ∧
    (∀ j, j < sortedIndex array value → array.getD j 0 < value) ∧
    (∀ j, sortedIndex array value ≤ j → j < array.length → value ≤ array.getD j 0) := by
  obtain ⟨-, h2, h3, h4⟩ := sortedIndexLoop_spec array value hsorted array.length 0 array.length
    (Nat.zero_le _) (le_refl _) (by omega) (fun j hj => by omega) (fun j h1 h2 => by omega)
  exact ⟨h2, h3, h4⟩

/-- Inside an override item, after its first pixel, `getOffset` returns the entry
of that item: the dimension has ascending boundaries, entry `i` starts at
boundary `i`, and the next boundary is not before the end of entry `i`. -/
theorem getOffset_inside_override (dimension : DimensionSettingsState) (p s : Int) (i : Nat)
    (e : PositionItem) (hidx : dimension.indexes.length ≠ 0)
    (hsorted : ∀ a b, a ≤ b → b < dimension.positionIndexes.length →
      dimension.positionIndexes.getD a 0 ≤ dimension.positionIndexes.getD b 0)
    (hi : i < dimension.positionIndexes.length)
    (he : dimension.positionIndexToCoordinate[i]? = some e)
    (hstart : dimension.positionIndexes.getD i 0 = e.start)
    (hnext : i + 1 < dimension.positionIndexes.length →
      e.end_ ≤ dimension.positionIndexes.getD (i + 1) 0)
    (h1 : e.start < p) (h2 : p < e.end_) :
    getOffset dimension p s = some e := by
  obtain ⟨hle, hlow, hhigh⟩ := sortedIndex_spec dimension.positionIndexes p hsorted
  have hplace : sortedIndex dimension.positionIndexes p = i + 1 := by
    rcases Nat.lt_trichotomy (sortedIndex dimension.positionIndexes p) (i + 1) with h | h | h
    · have := hhigh i (by omega) hi
      omega
    · exact h
    · have h3 := hlow (i + 1) h
      have h4 := hnext (by omega)
      omega
  unfold getOffset
  simp only [hidx, ne_eq, not_false_eq_true, if_true, hplace, Nat.add_sub_cancel,
    Nat.add_one_ne_zero, if_false, he]
  rw [if_pos h2]


/-- Claim C6 (locator, uniform case): when the dimension has no override entries,
or the insertion point of the position is the first element, then for a position
`p ≥ 0` and a default size `s > 0` the located item has
`itemIndex = floor (p / s)`, `start = itemIndex * s`, `end = start + s`, and
`start ≤ p < end`. -/
theorem getOffset_uniform (dimension : DimensionSettingsState) (p s : Int)
    (hp : 0 ≤ p) (hs : 0 < s)
    (h : dimension.indexes.length = 0 ∨ sortedIndex dimension.positionIndexes p = 0) :
    ∃ it, getOffset dimension p s = some it ∧
      it.itemIndex = ⌊(p : ℚ) / (s : ℚ)⌋ ∧
      it.start = it.itemIndex * s ∧
      it.end_ = it.start + s ∧
      it.start ≤ p ∧ p < it.end_ ∧ 0 ≤ it.itemIndex := by
  have hplace : (if dimension.indexes.length ≠ 0 then sortedIndex dimension.positionIndexes p
      else 0) = 0 := by
    rcases h with h | h
    · simp [h]
    · simp [h]
  have hdiv : Int.fdiv p s = p / s := Int.fdiv_eq_ediv p hs.le
  have hfloor : ⌊(p : ℚ) / (s : ℚ)⌋ = p / s := by
    obtain ⟨n, rfl⟩ := Int.eq_ofNat_of_zero_le hs.le
    exact Rat.floor_intCast_div_natCast p n
  have h1 : p / s * s ≤ p := Int.ediv_mul_le p (ne_of_gt hs)
  have h2 : p < (p / s + 1) * s := Int.lt_ediv_add_one_mul_self p hs
  have h3 : 0 ≤ p / s := Int.ediv_nonneg hp hs.le
  refine ⟨{ itemIndex := p / s, start := p / s * s, end_ := p / s * s + s }, ?_, ?_, rfl, rfl,
    h1, ?_, h3⟩
  · simp only [getOffset, hplace, if_true, hdiv]
  · exact hfloor.symm
  · show p < p / s * s + s
    linarith [h2]

/-- Instance of `getOffset_uniform`: position 25 in a dimension without overrides
and with default size 20. -/
theorem getOffset_uniform_witness :
    ∃ it, getOffset (uniformDimension 20 20000) 25 20 = some it ∧
      it.itemIndex = ⌊((25 : Int) : ℚ) / ((20 : Int) : ℚ)⌋ ∧
      it.start = it.itemIndex * 20 ∧
      it.end_ = it.start + 20 ∧
      it.start ≤ 25 ∧ 25 < it.end_ ∧ 0 ≤ it.itemIndex :=
  getOffset_uniform (uniformDimension 20 20000) 25 20 (by decide) (by decide) (Or.inl rfl)

/-- Claim C5 at the first pixel of an override item.  In `overrideDimension` the
override item 3 spans `[60, 110)`.  At position 65 `getOffset` returns that entry;
at position 60, which lies inside the item as well, `sortedIndex` returns the
insertion point 0 (the first boundary not below 60) and `getOffset` returns the
span `[60, 80)` of a default-size item instead. -/
theorem getOffset_at_override_start :
    overrideDimension.positionIndexToCoordinate = [{ itemIndex := 3, start := 60, end_ := 110 }] ∧
    sortedIndex overrideDimension.positionIndexes 65 = 1 ∧
    getOffset overrideDimension 65 20 = some { itemIndex := 3, start := 60, end_ := 110 } ∧
    sortedIndex overrideDimension.positionIndexes 60 = 0 ∧
    getOffset overrideDimension 60 20 = some { itemIndex := 3, start := 60, end_ := 80 } := by
  decide


/-! ## Slots, runs of items and the loops of `recombineByOffset` -/

theorem slotAt_setSlot (items : List (Option VirtualPositionItem)) (k j : Nat)
    (v : VirtualPositionItem) :
    slotAt (setSlot items k v) j = if j = k then some v else slotAt items j := by
  unfold slotAt setSlot
  by_cases hk : k < items.length
  · simp only [hk, if_true, List.getD_eq_getElem?_getD, List.getElem?_set]
    by_cases hj : j = k
    · subst hj; simp [hk]
    · have : ¬ k = j := fun h => hj h.symm
      simp [hj, this]
  · simp only [hk, if_false, List.getD_eq_getElem?_getD]
    by_cases hj : j = k
    · subst hj
      rw [List.getElem?_append_right (by simp; omega)]
      have : j - (items ++ List.replicate (j - items.length) none).length = 0 := by
        simp; omega
      rw [this]; simp
    · simp only [hj, if_false]
      by_cases hlt : j < items.length
      · rw [List.append_assoc, List.getElem?_append_left hlt]
      · rw [List.getElem?_eq_none (l := items) (by omega)]
        by_cases hjk : j < k
        · rw [List.getElem?_append_left (by simp; omega),
            List.getElem?_append_right (by omega)]
          simp only [List.getElem?_replicate]
          split <;> rfl
        · rw [List.getElem?_eq_none (by simp; omega)]

theorem sizeSum_add (sizes : Int → Option Int) (origSize index : Int) (a b : Nat) :
    sizeSum sizes origSize index (a + b)
      = sizeSum sizes origSize index a + sizeSum sizes origSize (index + a) b := by
  induction b with
  | zero => simp [sizeSum]
  | succ b ih =>
    rw [← Nat.add_assoc, sizeSum, ih, sizeSum]
    push_cast
    rw [add_assoc, add_assoc]

theorem spanAt_add (sizes : Int → Option Int) (origSize index start : Int) (a j : Nat) :
    spanAt sizes origSize index start (a + j)
      = spanAt sizes origSize (index + a) (start + sizeSum sizes origSize index a) j := by
  simp only [spanAt, sizeSum_add]
  push_cast
  simp only [add_assoc]


/-- Forward loop of `recombineByOffset` when no new span ends beyond `realSize`
and the slots it writes are pairwise distinct: iteration `j` writes item number
`j` of the run that continues the last item, and no other slot changes. -/
theorem forwardLoop_spec (dimension : DimensionSettingsState) (idxs : List Nat) (bi bs : Int) :
    ∀ (left i : Nat) (last : VirtualPositionItem) (items : List (Option VirtualPositionItem)),
      last.itemIndex + 1 = bi + i →
      last.end_ = bs + sizeSum dimension.sizes dimension.originItemSize bi i →
      (∀ j, i ≤ j → j < i + left →
        bs + sizeSum dimension.sizes dimension.originItemSize bi (j + 1) ≤ dimension.realSize) →
      (∀ j1 j2, i ≤ j1 → j1 < j2 → j2 < i + left → idxs.getD j1 0 ≠ idxs.getD j2 0) →
      ∃ items', forwardLoop dimension idxs left i (some last) items = some items' ∧
        (∀ j, i ≤ j → j < i + left →
          slotAt items' (idxs.getD j 0)
            = some (spanAt dimension.sizes dimension.originItemSize bi bs j)) ∧
        (∀ k, (∀ j, i ≤ j → j < i + left → idxs.getD j 0 ≠ k) →
          slotAt items' k = slotAt items k) := by
  intro left
  induction left with
  | zero =>
    intro i last items _ _ _ _
    exact ⟨items, rfl, by intro j h1 h2; omega, fun _ _ => rfl⟩
  | succ left ih =>
    intro i last items hidx hend hreal hdist
    have hsz : getItemSize (last.itemIndex + 1) dimension.sizes dimension.originItemSize
        = getItemSize (bi + i) dimension.sizes dimension.originItemSize := by rw [hidx]
    have hnb : ¬ (last.end_ + getItemSize (last.itemIndex + 1) dimension.sizes
        dimension.originItemSize > dimension.realSize) := by
      have := hreal i (le_refl _) (by omega)
      rw [sizeSum] at this
      rw [hsz, hend]; omega
    have hitem : VirtualPositionItem.mk (last.itemIndex + 1) last.end_
        (last.end_ + getItemSize (last.itemIndex + 1) dimension.sizes dimension.originItemSize)
        (getItemSize (last.itemIndex + 1) dimension.sizes dimension.originItemSize)
        = spanAt dimension.sizes dimension.originItemSize bi bs i := by
      simp only [spanAt, hsz, hend, hidx]
    obtain ⟨items', hrun, hnew, hold⟩ := ih (i + 1)
      (spanAt dimension.sizes dimension.originItemSize bi bs i)
      (setSlot items (idxs.getD i 0) (spanAt dimension.sizes dimension.originItemSize bi bs i))
      (by simp only [spanAt]; push_cast; ring)
      (by simp only [spanAt, sizeSum]; ring)
      (fun j h1 h2 => hreal j (by omega) (by omega))
      (fun j1 j2 h1 h2 h3 => hdist j1 j2 (by omega) h2 (by omega))
    refine ⟨items', ?_, ?_, ?_⟩
    · rw [forwardLoop]
      simp only [hnb, if_false]
      rw [hitem]
      exact hrun
    · intro j h1 h2
      rcases Nat.eq_or_lt_of_le h1 with h | h
      · subst h
        rw [hold _ (fun j' h1' h2' => (hdist i j' (le_refl _) (by omega) (by omega)).symm)]
        rw [slotAt_setSlot]; simp
      · exact hnew j (by omega) (by omega)
    · intro k hk
      rw [hold k (fun j h1 h2 => hk j (by omega) (by omega))]
      rw [slotAt_setSlot]
      have := hk i (le_refl _) (by omega)
      rw [if_neg (fun h => this h.symm)]

/-- Backward loop of `recombineByOffset` when the slots it writes are pairwise
distinct: the iteration at `i = changed + j` writes item number `j` of the run
that ends where the first item starts, and no other slot changes. -/
theorem backwardLoop_spec (dimension : DimensionSettingsState) (idxs : List Nat) (changed : Nat)
    (ti ts : Int) :
    ∀ (left : Nat) (first : VirtualPositionItem) (items : List (Option VirtualPositionItem)),
      first.itemIndex = ti + left →
      first.start = ts + sizeSum dimension.sizes dimension.originItemSize ti left →
      (∀ j1 j2, j1 < j2 → j2 < left → idxs.getD (changed + j1) 0 ≠ idxs.getD (changed + j2) 0) →
      ∃ items', backwardLoop dimension idxs changed left (some first) items = some items' ∧
        (∀ j, j < left →
          slotAt items' (idxs.getD (changed + j) 0)
            = some (spanAt dimension.sizes dimension.originItemSize ti ts j)) ∧
        (∀ k, (∀ j, j < left → idxs.getD (changed + j) 0 ≠ k) →
          slotAt items' k = slotAt items k) := by
  intro left
  induction left with
  | zero =>
    intro first items _ _ _
    exact ⟨items, rfl, by intro j h; omega, fun _ _ => rfl⟩
  | succ left ih =>
    intro first items hidx hstart hdist
    have hi : first.itemIndex - 1 = ti + left := by rw [hidx]; push_cast; ring
    have hitem : VirtualPositionItem.mk (first.itemIndex - 1)
        (first.start - getItemSize (first.itemIndex - 1) dimension.sizes dimension.originItemSize)
        first.start
        (getItemSize (first.itemIndex - 1) dimension.sizes dimension.originItemSize)
        = spanAt dimension.sizes dimension.originItemSize ti ts left := by
      rw [hi, hstart, sizeSum]
      simp only [spanAt, VirtualPositionItem.mk.injEq, true_and, and_true]
      constructor <;> ring
    obtain ⟨items', hrun, hnew, hold⟩ := ih
      (spanAt dimension.sizes dimension.originItemSize ti ts left)
      (setSlot items (idxs.getD (changed + left) 0)
        (spanAt dimension.sizes dimension.originItemSize ti ts left))
      rfl
      rfl
      (fun j1 j2 h1 h2 => hdist j1 j2 h1 (by omega))
    refine ⟨items', ?_, ?_, ?_⟩
    · rw [backwardLoop, hitem]
      exact hrun
    · intro j h1
      rcases Nat.eq_or_lt_of_le (Nat.le_of_lt_succ h1) with h | h
      · subst h
        rw [hold _ (fun j' h' => (hdist j' j h' (by omega)))]
        rw [slotAt_setSlot]; simp
      · exact hnew j h
    · intro k hk
      rw [hold k (fun j h => hk j (by omega))]
      rw [slotAt_setSlot]
      have := hk left (by omega)
      rw [if_neg (fun h => this h.symm)]


theorem getElem?_getD_of_lt (l : List Nat) (j : Nat) (h : j < l.length) :
    l[j]? = some (l.getD j 0) := by
  simp [List.getD_eq_getElem?_getD, List.getElem?_eq_getElem h]

/-- A window is a run exactly when it has `n` visible items and visual position
`j` holds item number `j` of the run. -/
theorem isRun_iff (sizes : Int → Option Int) (origSize : Int) (w : ViewportStateItems)
    (index start : Int) (n : Nat) :
    IsRun sizes origSize w index start n ↔
      w.itemIndexes.length = n ∧
      ∀ j, j < n → slotAt w.items (w.itemIndexes.getD j 0)
        = some (spanAt sizes origSize index start j) := by
  unfold IsRun visual
  constructor
  · intro h
    have hlen : w.itemIndexes.length = n := by
      have := congrArg List.length h
      simpa [spanList] using this
    refine ⟨hlen, fun j hj => ?_⟩
    have := congrArg (fun l => l[j]?) h
    simp only [List.getElem?_map, getElem?_getD_of_lt w.itemIndexes j (hlen ▸ hj), Option.map_some',
      spanList_getElem? _ _ _ _ _ _ hj, Option.some.injEq] at this
    exact this
  · rintro ⟨hlen, h⟩
    apply List.ext_getElem?
    intro j
    by_cases hj : j < n
    · rw [List.getElem?_map, getElem?_getD_of_lt w.itemIndexes j (hlen ▸ hj), Option.map_some',
        spanList_getElem? _ _ _ _ _ _ hj, h j hj]
    · rw [List.getElem?_eq_none (by simp; omega), List.getElem?_eq_none (by simp [spanList]; omega)]

theorem getFirstItem_of_isRun (sizes : Int → Option Int) (origSize : Int) (w : ViewportStateItems)
    (index start : Int) (n : Nat) (h : IsRun sizes origSize w index start n) (hn : 0 < n) :
    getFirstItem w = some (spanAt sizes origSize index start 0) := by
  obtain ⟨hlen, hp⟩ := (isRun_iff _ _ _ _ _ _).1 h
  have h0 := hp 0 hn
  unfold getFirstItem
  rw [List.head?_eq_getElem?, getElem?_getD_of_lt _ _ (hlen ▸ hn)]
  exact h0

theorem getLastItem_of_isRun (sizes : Int → Option Int) (origSize : Int) (w : ViewportStateItems)
    (index start : Int) (n : Nat) (h : IsRun sizes origSize w index start n) (hn : 0 < n) :
    getLastItem w = some (spanAt sizes origSize index start (n - 1)) := by
  obtain ⟨hlen, hp⟩ := (isRun_iff _ _ _ _ _ _).1 h
  have h0 := hp (n - 1) (by omega)
  unfold getLastItem
  rw [List.getLast?_eq_getElem?, hlen, getElem?_getD_of_lt _ _ (by omega)]
  exact h0

theorem spanList_nodup (sizes : Int → Option Int) (origSize index start : Int) (n : Nat) :
    (spanList sizes origSize index start n).Nodup := by
  unfold spanList
  refine List.Nodup.map ?_ (List.nodup_range n)
  intro a b hab
  simp only [Option.some.injEq, spanAt, VirtualPositionItem.mk.injEq] at hab
  omega

theorem nodup_of_isRun (sizes : Int → Option Int) (origSize : Int) (w : ViewportStateItems)
    (index start : Int) (n : Nat) (h : IsRun sizes origSize w index start n) :
    w.itemIndexes.Nodup := by
  have hv : (visual w).Nodup := by
    rw [show visual w = spanList sizes origSize index start n from h]
    exact spanList_nodup _ _ _ _ _
  exact List.Nodup.of_map _ hv

theorem getD_ne_of_nodup (l : List Nat) (h : l.Nodup) (j1 j2 : Nat) (h12 : j1 < j2)
    (h2 : j2 < l.length) : l.getD j1 0 ≠ l.getD j2 0 := by
  rw [List.getD_eq_getElem _ _ (by omega), List.getD_eq_getElem _ _ h2]
  intro he
  have := (@List.Nodup.getElem_inj_iff _ l h j1 (by omega) j2 h2).1 he
  omega

theorem getD_rotate (l : List Nat) (k j : Nat) (hk : k ≤ l.length) (hj : j < l.length) :
    (l.drop k ++ l.take k).getD j 0
      = if j < l.length - k then l.getD (k + j) 0 else l.getD (j - (l.length - k)) 0 := by
  simp only [List.getD_eq_getElem?_getD, List.getElem?_append, List.length_drop,
    List.getElem?_drop]
  split
  · rfl
  · rw [List.getElem?_take_of_lt (by omega)]


/-- Forward recombination of a run by `k` items, when no new span ends beyond
`realSize`: the result is the run of the same length that starts `k` items
later, in the order of the previous window rotated by `k`. -/
theorem recombineByOffset_forward_run (dimension : DimensionSettingsState)
    (w : ViewportStateItems) (fi fs : Int) (n k : Nat)
    (hrun : IsRun dimension.sizes dimension.originItemSize w fi fs n)
    (hnodup : w.itemIndexes.Nodup) (hk1 : 0 < k) (hkn : k ≤ n)
    (hreal : ∀ j, j < k →
      fs + sizeSum dimension.sizes dimension.originItemSize fi (n + j + 1) ≤ dimension.realSize) :
    ∃ r, recombineByOffset ⟨dimension, true, k⟩ w = some (some r, r) ∧
      r.itemIndexes = w.itemIndexes.drop k ++ w.itemIndexes.take k ∧
      IsRun dimension.sizes dimension.originItemSize r (fi + k)
        (fs + sizeSum dimension.sizes dimension.originItemSize fi k) n := by
  obtain ⟨hlen, hp⟩ := (isRun_iff _ _ _ _ _ _).1 hrun
  have hlast := getLastItem_of_isRun _ _ _ _ _ _ hrun (by omega)
  obtain ⟨m, rfl⟩ : ∃ m, n = m + 1 := ⟨n - 1, by omega⟩
  obtain ⟨items', hloop, hnew, hold⟩ := forwardLoop_spec dimension w.itemIndexes
    (fi + (m + 1 : Nat)) (fs + sizeSum dimension.sizes dimension.originItemSize fi (m + 1))
    k 0 (spanAt dimension.sizes dimension.originItemSize fi fs m) w.items
    (by simp only [spanAt]; push_cast; ring)
    (by simp only [spanAt, sizeSum]; ring)
    (fun j _ hj => by
      have := hreal j (by omega)
      rw [Nat.add_assoc, sizeSum_add] at this
      linarith)
    (fun j1 j2 _ h12 h2 => getD_ne_of_nodup _ hnodup j1 j2 h12 (by omega))
  refine ⟨⟨items', w.itemIndexes.drop k ++ w.itemIndexes.take k⟩, ?_, rfl, ?_⟩
  · have hgt : ¬ k > w.itemIndexes.length := by omega
    simp only [recombineByOffset, hgt, if_false, if_true, hlast]
    rw [Nat.add_sub_cancel] 
    rw [hloop]
  · rw [isRun_iff]
    refine ⟨by simp; omega, fun j hj => ?_⟩
    show slotAt items' ((w.itemIndexes.drop k ++ w.itemIndexes.take k).getD j 0) = _
    rw [getD_rotate _ _ _ (by omega) (by omega)]
    split
    · rename_i hlt
      rw [hold _ (fun j' _ hj' => getD_ne_of_nodup _ hnodup j' (k + j) (by omega) (by omega)),
        hp (k + j) (by omega), spanAt_add]
    · rename_i hge
      rw [hnew (j - (w.itemIndexes.length - k)) (Nat.zero_le _) (by omega), ← spanAt_add,
        ← spanAt_add]
      congr 2
      omega

theorem rotate_back_eq (l : List Nat) (k : Nat) (hk1 : 0 < k) (hkn : k ≤ l.length) :
    (l.drop (l.length - k)).take (l.length - 1)
        ++ (l.take (l.length - k) ++ (l.drop (l.length - k)).drop (l.length - 1))
      = l.drop (l.length - k) ++ l.take (l.length - k) := by
  rcases Nat.eq_or_lt_of_le hkn with h | h
  · subst h
    simp
  · have hl : (l.drop (l.length - k)).length ≤ l.length - 1 := by
      rw [List.length_drop]; omega
    rw [List.take_of_length_le hl, List.drop_of_length_le hl]
    simp

/-- Backward recombination of a run by `k` items: the result is the run of the
same length that starts `k` items earlier, in the order of the previous window
with its last `k` entries moved to the front. -/
theorem recombineByOffset_backward_run (dimension : DimensionSettingsState)
    (w : ViewportStateItems) (ti ts : Int) (n k : Nat)
    (hrun : IsRun dimension.sizes dimension.originItemSize w (ti + k)
      (ts + sizeSum dimension.sizes dimension.originItemSize ti k) n)
    (hnodup : w.itemIndexes.Nodup) (hk1 : 0 < k) (hkn : k ≤ n) :
    ∃ r, recombineByOffset ⟨dimension, false, k⟩ w = some (some r, r) ∧
      r.itemIndexes = w.itemIndexes.drop (n - k) ++ w.itemIndexes.take (n - k) ∧
      IsRun dimension.sizes dimension.originItemSize r ti ts n := by
  obtain ⟨hlen, hp⟩ := (isRun_iff _ _ _ _ _ _).1 hrun
  have hfirst := getFirstItem_of_isRun _ _ _ _ _ _ hrun (by omega)
  obtain ⟨items', hloop, hnew, hold⟩ := backwardLoop_spec dimension w.itemIndexes (n - k) ti ts
    k (spanAt dimension.sizes dimension.originItemSize (ti + k)
      (ts + sizeSum dimension.sizes dimension.originItemSize ti k) 0) w.items
    (by simp [spanAt])
    (by simp [spanAt, sizeSum])
    (fun j1 j2 h12 h2 => getD_ne_of_nodup _ hnodup _ _ (by omega) (by omega))
  refine ⟨⟨items', w.itemIndexes.drop (n - k) ++ w.itemIndexes.take (n - k)⟩, ?_, rfl, ?_⟩
  · have hgt : ¬ k > w.itemIndexes.length := by omega
    simp only [recombineByOffset, hgt, if_false, hfirst, Bool.false_eq_true]
    rw [hlen, hloop]
    simp only []
    rw [← hlen, rotate_back_eq _ _ hk1 (by omega)]
  · rw [isRun_iff]
    refine ⟨by simp; omega, fun j hj => ?_⟩
    show slotAt items' ((w.itemIndexes.drop (n - k) ++ w.itemIndexes.take (n - k)).getD j 0) = _
    rw [getD_rotate _ _ _ (by omega) (by omega)]
    split
    · rename_i hlt
      exact hnew j (by omega)
    · rename_i hge
      rw [hold _ (fun j' hj' => (getD_ne_of_nodup _ hnodup _ _ (by omega) (by omega)).symm),
        hp _ (by omega), ← spanAt_add]
      congr 2
      omega

/-- A window that reads as a run is contiguous. -/
theorem contiguous_of_isRun (sizes : Int → Option Int) (origSize : Int) (w : ViewportStateItems)
    (index start : Int) (n : Nat) (h : IsRun sizes origSize w index start n) :
    Contiguous w := by
  unfold Contiguous
  rw [show visual w = spanList sizes origSize index start n from h, spanList_length]
  intro i hi
  rw [List.getD_eq_getElem?_getD, List.getD_eq_getElem?_getD,
    spanList_getElem? _ _ _ _ _ _ (by omega), spanList_getElem? _ _ _ _ _ _ (by omega)]
  simp only [Option.getD_some, Adjacent, spanAt, sizeSum]
  constructor
  · ring
  · push_cast; ring


/-! ## Recombination and gap filling against the full rebuild -/

theorem spanList_prefix_of_le (sizes : Int → Option Int) (origSize index start : Int) (a b : Nat)
    (h : a ≤ b) :
    spanList sizes origSize index start a <+: spanList sizes origSize index start b := by
  unfold spanList
  obtain ⟨c, rfl⟩ := Nat.exists_eq_add_of_le h
  rw [List.range_add, List.map_append]
  exact List.prefix_append _ _

theorem visual_getItems (opt : GetItemsOpt) :
    visual (getItems opt 0)
      = spanList opt.sizes opt.origSize opt.startIndex opt.start (itemCount opt) := by
  obtain ⟨hw, -, -, -⟩ := getItems_spec opt
  rw [hw]
  apply List.ext_getElem?
  intro j
  simp only [visual, List.getElem?_map]
  by_cases hj : j < itemCount opt
  · rw [List.getElem?_range hj, spanList_getElem? _ _ _ _ _ _ hj]
    simp [slotAt, spanList_getElem? _ _ _ _ _ _ hj]
  · rw [List.getElem?_eq_none (by simp; omega),
      List.getElem?_eq_none (by simp [spanList]; omega)]
    rfl

/-- Merge of the gap filler: appending the run that continues a run, in the slots
after the end of the array, gives the longer run. -/
theorem isRun_append (sizes : Int → Option Int) (origSize : Int) (r : ViewportStateItems)
    (ti ts : Int) (n c : Nat) (hrun : IsRun sizes origSize r ti ts n) :
    IsRun sizes origSize
      { items := r.items ++ spanList sizes origSize (ti + n) (ts + sizeSum sizes origSize ti n) c
        itemIndexes := r.itemIndexes ++ range c r.items.length } ti ts (n + c) := by
  obtain ⟨hlen, hp⟩ := (isRun_iff _ _ _ _ _ _).1 hrun
  rw [isRun_iff]
  refine ⟨by simp [range, hlen], fun j hj => ?_⟩
  show slotAt (r.items ++ _) ((r.itemIndexes ++ range c r.items.length).getD j 0) = _
  by_cases hjn : j < n
  · have hidx : (r.itemIndexes ++ range c r.items.length).getD j 0 = r.itemIndexes.getD j 0 := by
      simp only [List.getD_eq_getElem?_getD]
      rw [List.getElem?_append_left (by omega)]
    have h1 := hp j hjn
    rw [hidx]
    have hin : r.itemIndexes.getD j 0 < r.items.length := by
      by_contra hge
      simp only [slotAt, List.getD_eq_getElem?_getD] at h1
      rw [List.getElem?_eq_none (l := r.items) (by simpa using hge)] at h1
      simp at h1
    rw [← h1]
    simp only [slotAt, List.getD_eq_getElem?_getD]
    rw [List.getElem?_append_left (by simpa using hin)]
  · have hjc : j - n < c := by omega
    have hidx : (r.itemIndexes ++ range c r.items.length).getD j 0 = r.items.length + (j - n) := by
      simp only [List.getD_eq_getElem?_getD]
      rw [List.getElem?_append_right (by omega), hlen]
      simp [range, List.getElem?_range hjc]
    rw [hidx]
    simp only [slotAt, List.getD_eq_getElem?_getD]
    rw [List.getElem?_append_right (by omega), Nat.add_sub_cancel_left,
      spanList_getElem? _ _ _ _ _ _ hjc, ← spanAt_add]
    simp only [Option.getD_some]
    congr 2
    omega

/-- Gap filler after a run: `addMissingItems` returns the run that continues the
window, in the slots after the end of the array. -/
theorem addMissingItems_of_isRun (dimension : DimensionSettingsState) (r : ViewportStateItems)
    (ti ts : Int) (n : Nat)
    (hrun : IsRun dimension.sizes dimension.originItemSize r ti ts n) (hn : 0 < n)
    (firstItem : PositionItem) (realCount virtualSize : Int) :
    ∃ c, addMissingItems firstItem realCount virtualSize r dimension
      = some { items := spanList dimension.sizes dimension.originItemSize (ti + n)
                 (ts + sizeSum dimension.sizes dimension.originItemSize ti n) c
               itemIndexes := range c r.items.length } := by
  have hlast := getLastItem_of_isRun _ _ _ _ _ _ hrun hn
  obtain ⟨m, rfl⟩ : ∃ m, n = m + 1 := ⟨n - 1, by omega⟩
  rw [Nat.add_sub_cancel] at hlast
  have e1 : (spanAt dimension.sizes dimension.originItemSize ti ts m).itemIndex + 1
      = ti + (m + 1 : Nat) := by
    simp only [spanAt]; push_cast; ring
  have e2 : (spanAt dimension.sizes dimension.originItemSize ti ts m).end_
      = ts + sizeSum dimension.sizes dimension.originItemSize ti (m + 1) := by
    simp only [spanAt, sizeSum]; ring
  unfold addMissingItems
  rw [hlast]
  simp only []
  obtain ⟨hw, -, -, -⟩ := getItems_spec
    { sizes := dimension.sizes
      start := (spanAt dimension.sizes dimension.originItemSize ti ts m).end_
      startIndex := (spanAt dimension.sizes dimension.originItemSize ti ts m).itemIndex + 1
      origSize := dimension.originItemSize
      maxSize := virtualSize
        - ((spanAt dimension.sizes dimension.originItemSize ti ts m).end_ - firstItem.start)
      maxCount := realCount - (spanAt dimension.sizes dimension.originItemSize ti ts m).itemIndex }
  rw [hw]
  simp only [spanList_length, e1, e2]
  exact ⟨_, rfl⟩


/-- Tail of `getUpdatedItemsByPosition` after a recombination that returned a
run: the gap filler is merged in and the result is a run from the same item, at
least as long. -/
theorem fill_of_isRun (dimension : DimensionSettingsState) (r0 st : ViewportStateItems)
    (ti ts : Int) (n : Nat)
    (hrun : IsRun dimension.sizes dimension.originItemSize r0 ti ts n) (hn : 0 < n)
    (firstItem : PositionItem) (realCount virtualSize : Int) :
    ∃ r c, (match addMissingItems firstItem realCount virtualSize r0 dimension with
        | none => none
        | some extra =>
          if extra.items.length ≠ 0 then
            some (({ items := r0.items ++ extra.items
                     itemIndexes := r0.itemIndexes ++ extra.itemIndexes } : ViewportStateItems), st)
          else some (r0, st)) = some (r, st) ∧
      IsRun dimension.sizes dimension.originItemSize r ti ts (n + c) := by
  obtain ⟨c, hc⟩ := addMissingItems_of_isRun dimension r0 ti ts n hrun hn firstItem realCount
    virtualSize
  rw [hc]
  simp only [spanList_length]
  by_cases h0 : c = 0
  · subst h0
    exact ⟨r0, 0, by simp, hrun⟩
  · exact ⟨_, c, by simp [h0], isRun_append _ _ r0 ti ts n c hrun⟩

/-- Claim C3, as the code has it.  Let the previous window read, in visual order,
as a run of `n` items of the dimension from item `fi` at pixel `fs`; let the
located item have a non-zero index shift of magnitude at most `n`
and its true start; and, for a forward shift, let no new span end beyond
`realSize`.  Then the window returned through `recombineByOffset` and
`addMissingItems` reads, in visual order, as a run of the dimension from the
located item with at least `n` items, and so does the full rebuild: the two
sequences agree at every visual position both have (one is a prefix of the other)
and are equal when they have the same length. -/
theorem recombined_agrees_with_rebuild (pos realCount virtualSize : Int)
    (dimension : DimensionSettingsState) (w : ViewportStateItems) (fi fs : Int) (n : Nat)
    (target : PositionItem)
    (hrun : IsRun dimension.sizes dimension.originItemSize w fi fs n)
    (hoff : getOffset dimension pos dimension.originItemSize = some target)
    (hshift : target.itemIndex - fi ≠ 0)
    (hmag : (target.itemIndex - fi).natAbs ≤ n)
    (hstart : target.start
      = startOf dimension.sizes dimension.originItemSize fi fs target.itemIndex)
    (hreal : fi < target.itemIndex → ∀ j, j < (target.itemIndex - fi).natAbs →
      fs + sizeSum dimension.sizes dimension.originItemSize fi (n + j + 1) ≤ dimension.realSize) :
    ∃ r st, getUpdatedItemsByPosition pos w realCount virtualSize dimension = some (r, st) ∧
      n ≤ r.itemIndexes.length ∧
      IsRun dimension.sizes dimension.originItemSize r target.itemIndex target.start
        r.itemIndexes.length ∧
      IsRun dimension.sizes dimension.originItemSize
        (rebuild target realCount virtualSize dimension) target.itemIndex target.start
        (rebuild target realCount virtualSize dimension).itemIndexes.length ∧
      (visual r <+: visual (rebuild target realCount virtualSize dimension) ∨
        visual (rebuild target realCount virtualSize dimension) <+: visual r) ∧
      (r.itemIndexes.length = (rebuild target realCount virtualSize dimension).itemIndexes.length →
        visual r = visual (rebuild target realCount virtualSize dimension)) := by
  have hk1 : 0 < (target.itemIndex - fi).natAbs := Int.natAbs_pos.2 hshift
  have hnodup : w.itemIndexes.Nodup := nodup_of_isRun _ _ _ _ _ _ hrun
  have hn : 0 < n := by omega
  have hfirst := getFirstItem_of_isRun _ _ _ _ _ _ hrun hn
  have hfi : (spanAt dimension.sizes dimension.originItemSize fi fs 0).itemIndex = fi := by
    simp [spanAt]
  -- the recombined window is a run from the located item
  have hrec : ∃ r0, recombineByOffset
      { dimension := dimension
        positiveDirection := decide (target.itemIndex - fi > -1)
        offset := (target.itemIndex - fi).natAbs } w = some (some r0, r0) ∧
      IsRun dimension.sizes dimension.originItemSize r0 target.itemIndex target.start n := by
    by_cases hdir : fi < target.itemIndex
    · have hpos : decide (target.itemIndex - fi > -1) = true := by
        simp only [decide_eq_true_eq]; omega
      have hti : target.itemIndex = fi + ((target.itemIndex - fi).natAbs : Nat) := by omega
      have hts : target.start = fs + sizeSum dimension.sizes dimension.originItemSize fi
          (target.itemIndex - fi).natAbs := by
        rw [hstart, startOf, if_pos (le_of_lt hdir)]
        congr 2
        omega
      obtain ⟨r0, h1, -, h3⟩ := recombineByOffset_forward_run dimension w fi fs n
        (target.itemIndex - fi).natAbs hrun hnodup hk1 hmag (hreal hdir)
      refine ⟨r0, ?_, ?_⟩
      · rw [hpos]; exact h1
      · rw [hts]
        rw [← hti] at h3
        exact h3
    · have hneg : decide (target.itemIndex - fi > -1) = false := by
        simp only [decide_eq_false_iff_not]; omega
      have hti : fi = target.itemIndex + ((target.itemIndex - fi).natAbs : Nat) := by omega
      have hts : fs = target.start + sizeSum dimension.sizes dimension.originItemSize
          target.itemIndex (target.itemIndex - fi).natAbs := by
        rw [hstart, startOf, if_neg (by omega)]
        have : (fi - target.itemIndex).toNat = (target.itemIndex - fi).natAbs := by omega
        rw [this]; ring
      have hrun2 : IsRun dimension.sizes dimension.originItemSize w
          (target.itemIndex + ((target.itemIndex - fi).natAbs : Nat))
          (target.start + sizeSum dimension.sizes dimension.originItemSize
            target.itemIndex (target.itemIndex - fi).natAbs) n := by
        rw [← hti, ← hts]; exact hrun
      obtain ⟨r0, h1, -, h3⟩ := recombineByOffset_backward_run dimension w target.itemIndex
        target.start n (target.itemIndex - fi).natAbs hrun2 hnodup hk1 hmag
      refine ⟨r0, ?_, h3⟩
      rw [hneg]; exact h1
  obtain ⟨r0, hrec, hrun0⟩ := hrec
  obtain ⟨r, c, hfill, hrunr⟩ := fill_of_isRun dimension r0 r0 target.itemIndex target.start n
    hrun0 hn target realCount virtualSize
  have hlenr : r.itemIndexes.length = n + c := ((isRun_iff _ _ _ _ _ _).1 hrunr).1
  have hreb : IsRun dimension.sizes dimension.originItemSize
      (rebuild target realCount virtualSize dimension) target.itemIndex target.start
      (rebuild target realCount virtualSize dimension).itemIndexes.length := by
    have hv := visual_getItems
      { sizes := dimension.sizes
        start := target.start
        startIndex := target.itemIndex
        origSize := dimension.originItemSize
        maxSize := virtualSize
        maxCount := realCount }
    have hl := congrArg List.length hv
    simp only [visual, List.length_map, spanList_length] at hl
    unfold IsRun rebuild
    rw [hl]
    exact hv
  refine ⟨r, r0, ?_, by omega, by rw [hlenr]; exact hrunr, hreb, ?_, ?_⟩
  · unfold getUpdatedItemsByPosition
    simp only [hoff, hfirst, hfi, ne_eq, hshift, not_false_eq_true, if_true, hrec]
    exact hfill
  · rw [← hlenr] at hrunr
    unfold IsRun at hrunr hreb
    rw [hrunr, hreb]
    rcases le_total r.itemIndexes.length
        (rebuild target realCount virtualSize dimension).itemIndexes.length with h | h
    · exact Or.inl (spanList_prefix_of_le _ _ _ _ _ _ h)
    · exact Or.inr (spanList_prefix_of_le _ _ _ _ _ _ h)
  · intro heq
    rw [← hlenr] at hrunr
    unfold IsRun at hrunr hreb
    rw [hrunr, hreb, heq]

/-- Instance of `recombined_agrees_with_rebuild`: uniform size 20, the window of
the items 0 to 5, position 25 (item 1, forward shift 1). -/
theorem recombined_agrees_with_rebuild_witness :
    ∃ r st, getUpdatedItemsByPosition 25 (sixItems 0) 1000 100 (uniformDimension 20 20000)
        = some (r, st) ∧
      6 ≤ r.itemIndexes.length ∧
      IsRun (uniformDimension 20 20000).sizes 20 r 1 20 r.itemIndexes.length ∧
      IsRun (uniformDimension 20 20000).sizes 20
        (rebuild ⟨1, 20, 40⟩ 1000 100 (uniformDimension 20 20000)) 1 20
        (rebuild ⟨1, 20, 40⟩ 1000 100 (uniformDimension 20 20000)).itemIndexes.length ∧
      (visual r <+: visual (rebuild ⟨1, 20, 40⟩ 1000 100 (uniformDimension 20 20000)) ∨
        visual (rebuild ⟨1, 20, 40⟩ 1000 100 (uniformDimension 20 20000)) <+: visual r) ∧
      (r.itemIndexes.length
          = (rebuild ⟨1, 20, 40⟩ 1000 100 (uniformDimension 20 20000)).itemIndexes.length →
        visual r = visual (rebuild ⟨1, 20, 40⟩ 1000 100 (uniformDimension 20 20000))) :=
  recombined_agrees_with_rebuild 25 1000 100 (uniformDimension 20 20000) (sixItems 0) 0 0 6
    ⟨1, 20, 40⟩ (by decide) (by decide) (by decide) (by decide) (by decide) (by decide)

/-- Claim C3, as stated, fails.  In `leadingWideDimension` (item 0 has the size
100) the window built at position 100 holds the items 1 to 6.  At position 50
(item 0, backward shift 1) the recombined window reads as the six items 0 to 5,
the full rebuild at item 0 has the two items 0 and 1. -/
theorem recombined_differs_from_rebuild :
    getUpdatedItemsByPosition 100 emptyWindow 1000 100 leadingWideDimension
      = some ({ items := spanList leadingWideDimension.sizes 20 1 100 6
                itemIndexes := [0, 1, 2, 3, 4, 5] }, emptyWindow) ∧
    getOffset leadingWideDimension 50 20 = some { itemIndex := 0, start := 0, end_ := 100 } ∧
    (getUpdatedItemsByPosition 50
        { items := spanList leadingWideDimension.sizes 20 1 100 6
          itemIndexes := [0, 1, 2, 3, 4, 5] } 1000 100 leadingWideDimension).map
        (fun r => visual r.1)
      = some (spanList leadingWideDimension.sizes 20 0 0 6) ∧
    visual (rebuild { itemIndex := 0, start := 0, end_ := 100 } 1000 100 leadingWideDimension)
      = spanList leadingWideDimension.sizes 20 0 0 2 ∧
    spanList leadingWideDimension.sizes 20 0 0 6 ≠ spanList leadingWideDimension.sizes 20 0 0 2 := by
  decide


/-! ## The recombiner `recombineByOffset` and the orchestrator -/

theorem recombineByOffset_of_gt (data : RecombineData) (state : ViewportStateItems)
    (h : data.offset > state.itemIndexes.length) :
    recombineByOffset data state = some (none, state) := by
  simp [recombineByOffset, h]

theorem recombineByOffset_of_le (data : RecombineData) (state : ViewportStateItems)
    (h : data.offset ≤ state.itemIndexes.length) (st : ViewportStateItems) :
    recombineByOffset data state ≠ some (none, st) := by
  have h2 : ¬ data.offset > state.itemIndexes.length := by omega
  unfold recombineByOffset
  simp only [h2, if_false]
  split
  · split <;> simp
  · split <;> simp

/-- Claim C10 (recombiner inapplicability): `recombineByOffset` returns `null`
exactly when `data.offset` exceeds the number of visible items; it then leaves
`state` as it was; and `getUpdatedItemsByPosition`, for a previous window with a
first item and a non-zero shift larger than the number of visible items, returns
the full rebuild `getItems` at the located item and leaves the previous window as
it was. -/
theorem recombineByOffset_null_iff (data : RecombineData) (state : ViewportStateItems) :
    ((∃ st, recombineByOffset data state = some (none, st)) ↔
      data.offset > state.itemIndexes.length) ∧
    (∀ st, recombineByOffset data state = some (none, st) → st = state) ∧
    (∀ (pos realCount virtualSize : Int) (activeItem : PositionItem)
        (firstItem : VirtualPositionItem),
      getOffset data.dimension pos data.dimension.originItemSize = some activeItem →
      getFirstItem state = some firstItem →
      activeItem.itemIndex - firstItem.itemIndex ≠ 0 →
      (activeItem.itemIndex - firstItem.itemIndex).natAbs > state.itemIndexes.length →
      getUpdatedItemsByPosition pos state realCount virtualSize data.dimension
        = some (getItems
            { sizes := data.dimension.sizes
              start := activeItem.start
              startIndex := activeItem.itemIndex
              origSize := data.dimension.originItemSize
              maxSize := virtualSize
              maxCount := realCount } 0, state)) := by
  refine ⟨⟨?_, fun h => ⟨state, recombineByOffset_of_gt data state h⟩⟩, ?_, ?_⟩
  · rintro ⟨st, hst⟩
    by_contra hle
    exact recombineByOffset_of_le data state (by omega) st hst
  · intro st hst
    by_cases hgt : data.offset > state.itemIndexes.length
    · rw [recombineByOffset_of_gt data state hgt] at hst
      simp only [Option.some.injEq, Prod.mk.injEq, true_and] at hst
      exact hst.symm
    · exact absurd hst (recombineByOffset_of_le data state (by omega) st)
  · intro pos realCount virtualSize activeItem firstItem hoff hfirst hne hgt
    unfold getUpdatedItemsByPosition
    simp only [hoff, hfirst, ne_eq, hne, not_false_eq_true, if_true]
    rw [recombineByOffset_of_gt _ state hgt]
    rfl

/-- Instance of `recombineByOffset_null_iff`: from the window of the items 0 to 5
the position 200 (item 10) is a shift of 10 > 6 items, and the result is the
rebuilt window of the items 10 to 15. -/
theorem recombineByOffset_null_witness :
    getUpdatedItemsByPosition 200 (sixItems 0) 1000 100 (uniformDimension 20 20000)
      = some (getItems
          { sizes := (uniformDimension 20 20000).sizes
            start := 200
            startIndex := 10
            origSize := 20
            maxSize := 100
            maxCount := 1000 } 0, sixItems 0) :=
  (recombineByOffset_null_iff ⟨uniformDimension 20 20000, true, 10⟩ (sixItems 0)).2.2
    200 1000 100 { itemIndex := 10, start := 200, end_ := 220 }
    { itemIndex := 0, start := 0, end_ := 20, size := 20 }
    (by decide) (by decide) (by decide) (by decide)


/-! ## The orchestrator when the located item is the first visible item -/

theorem getFirstItem_getItems (opt : GetItemsOpt) :
    getFirstItem (getItems opt 0) = none ∨
    ∃ it, getFirstItem (getItems opt 0) = some it ∧ it.itemIndex = opt.startIndex := by
  obtain ⟨hw, -, -, -⟩ := getItems_spec opt
  rw [hw]
  cases itemCount opt with
  | zero => left; rfl
  | succ k =>
    right
    refine ⟨spanAt opt.sizes opt.origSize opt.startIndex opt.start 0, ?_, by simp [spanAt]⟩
    simp [getFirstItem, List.range_succ_eq_map, slotAt, spanList]

/-- Claim C4, as the code has it.  When the previous window has no first visible
item, or its first visible item has the item index of the located item
(`shift == 0`), `getUpdatedItemsByPosition` returns the full rebuild at the
located item and leaves the previous window as it was.  Hence a second call with
the same position returns the window of the first call unchanged when that window
is the full rebuild at the position. -/
theorem getUpdatedItemsByPosition_same_item (pos realCount virtualSize : Int)
    (dimension : DimensionSettingsState) (activeItem : PositionItem)
    (hoff : getOffset dimension pos dimension.originItemSize = some activeItem) :
    (∀ prev, getFirstItem prev = none →
      getUpdatedItemsByPosition pos prev realCount virtualSize dimension
        = some (rebuild activeItem realCount virtualSize dimension, prev)) ∧
    (∀ prev firstItem, getFirstItem prev = some firstItem →
      firstItem.itemIndex = activeItem.itemIndex →
      getUpdatedItemsByPosition pos prev realCount virtualSize dimension
        = some (rebuild activeItem realCount virtualSize dimension, prev)) ∧
    getUpdatedItemsByPosition pos (rebuild activeItem realCount virtualSize dimension)
        realCount virtualSize dimension
      = some (rebuild activeItem realCount virtualSize dimension,
              rebuild activeItem realCount virtualSize dimension) := by
  have hnone : ∀ prev, getFirstItem prev = none →
      getUpdatedItemsByPosition pos prev realCount virtualSize dimension
        = some (rebuild activeItem realCount virtualSize dimension, prev) := by
    intro prev h
    simp only [getUpdatedItemsByPosition, hoff, h]
  have hsame : ∀ prev firstItem, getFirstItem prev = some firstItem →
      firstItem.itemIndex = activeItem.itemIndex →
      getUpdatedItemsByPosition pos prev realCount virtualSize dimension
        = some (rebuild activeItem realCount virtualSize dimension, prev) := by
    intro prev firstItem h heq
    simp only [getUpdatedItemsByPosition, hoff, h, heq, sub_self, ne_eq, not_true_eq_false,
      if_false]
  refine ⟨hnone, hsame, ?_⟩
  rcases getFirstItem_getItems
      { sizes := dimension.sizes
        start := activeItem.start
        startIndex := activeItem.itemIndex
        origSize := dimension.originItemSize
        maxSize := virtualSize
        maxCount := realCount } with h | ⟨it, h, hit⟩
  · exact hnone _ h
  · exact hsame _ it h hit

/-- Instance of `getUpdatedItemsByPosition_same_item`: position 25 in a uniform
dimension of size 20 locates item 1. -/
theorem getUpdatedItemsByPosition_same_item_witness :
    getUpdatedItemsByPosition 25 (sixItems 1) 1000 100 (uniformDimension 20 20000)
      = some (sixItems 1, sixItems 1) :=
  (getUpdatedItemsByPosition_same_item 25 1000 100 (uniformDimension 20 20000)
    { itemIndex := 1, start := 20, end_ := 40 } (by decide)).2.2

/-- Claim C4, as stated, fails.  From the window of the items 0 to 5 the call at
position 25 returns the recombined window `rotatedWindow`; the second call at
position 25 with that window (shift 0) returns the rebuilt window `sixItems 1`,
whose slots and order differ from those of `rotatedWindow`. -/
theorem second_call_changes_window :
    getUpdatedItemsByPosition 25 (sixItems 0) 1000 100 (uniformDimension 20 20000)
      = some (rotatedWindow, rotatedWindow) ∧
    getUpdatedItemsByPosition 25 rotatedWindow 1000 100 (uniformDimension 20 20000)
      = some (sixItems 1, rotatedWindow) ∧
    sixItems 1 ≠ rotatedWindow ∧
    (sixItems 1).itemIndexes ≠ rotatedWindow.itemIndexes := by
  decide


/-! ## The orchestrator on concrete windows -/

/-- Claim C7, as the code has it: with uniform size 20, `realCount = 1000`,
`virtualSize = 100` and no previous visible item, position 0 gives six items, the
items 0 to 5 with the spans `[0,20)`, ..., `[80,100)`, `[100,120)`: the loop of
`getItems` still runs when the accumulated size equals `maxSize`. -/
theorem uniform_window_six_items (prev : ViewportStateItems) (realSize : Int)
    (hprev : getFirstItem prev = none) :
    getUpdatedItemsByPosition 0 prev 1000 100 (uniformDimension 20 realSize)
      = some ({ items := [some { itemIndex := 0, start := 0, end_ := 20, size := 20 },
                          some { itemIndex := 1, start := 20, end_ := 40, size := 20 },
                          some { itemIndex := 2, start := 40, end_ := 60, size := 20 },
                          some { itemIndex := 3, start := 60, end_ := 80, size := 20 },
                          some { itemIndex := 4, start := 80, end_ := 100, size := 20 },
                          some { itemIndex := 5, start := 100, end_ := 120, size := 20 }]
                itemIndexes := [0, 1, 2, 3, 4, 5] }, prev) := by
  unfold getUpdatedItemsByPosition
  rw [hprev]
  rfl

/-- Instance of `uniform_window_six_items` for the window with no items. -/
theorem uniform_window_six_items_witness :
    getUpdatedItemsByPosition 0 emptyWindow 1000 100 (uniformDimension 20 20000)
      = some ({ items := [some { itemIndex := 0, start := 0, end_ := 20, size := 20 },
                          some { itemIndex := 1, start := 20, end_ := 40, size := 20 },
                          some { itemIndex := 2, start := 40, end_ := 60, size := 20 },
                          some { itemIndex := 3, start := 60, end_ := 80, size := 20 },
                          some { itemIndex := 4, start := 80, end_ := 100, size := 20 },
                          some { itemIndex := 5, start := 100, end_ := 120, size := 20 }]
                itemIndexes := [0, 1, 2, 3, 4, 5] }, emptyWindow) :=
  uniform_window_six_items emptyWindow 20000 (by decide)

/-- Claim C7, as stated, fails: the window returned at position 0 does not have
exactly 5 items. -/
theorem uniform_window_not_five_items :
    ¬ ∃ w st, getUpdatedItemsByPosition 0 emptyWindow 1000 100 (uniformDimension 20 20000)
        = some (w, st) ∧ w.items.length = 5 := by
  rintro ⟨w, st, h, h5⟩
  have h6 : getUpdatedItemsByPosition 0 emptyWindow 1000 100 (uniformDimension 20 20000)
      = some (sixItems 0, emptyWindow) := by decide
  rw [h6] at h
  simp only [Option.some.injEq, Prod.mk.injEq] at h
  rw [← h.1] at h5
  revert h5
  decide

/-- Claim C1 at the end of the axis.  Six items of size 20 make an axis of 120
pixels.  The window built at position 0 holds the items 0 to 5 and is
contiguous.  At position 20 the forward loop of `recombineByOffset` breaks at once
(item 6 would end at 140 > 120) yet the order is rotated by the full offset:
item 0 goes behind item 5, `addMissingItems` continues after item 0, and the
returned window reads 1, 2, 3, 4, 5, 0, 1, 2, 3, 4, 5, 6 in visual order, which
is not contiguous. -/
theorem contiguity_broken_at_axis_end :
    getUpdatedItemsByPosition 0 emptyWindow 6 100 (uniformDimension 20 120)
      = some (sixItems 0, emptyWindow) ∧
    Contiguous (sixItems 0) ∧
    (getUpdatedItemsByPosition 20 (sixItems 0) 6 100 (uniformDimension 20 120)).map Prod.fst
      = some axisEndWindow ∧
    (visual axisEndWindow).map (Option.map (fun it => it.itemIndex))
      = [some 1, some 2, some 3, some 4, some 5, some 0,
         some 1, some 2, some 3, some 4, some 5, some 6] ∧
    ¬ Contiguous axisEndWindow := by
  decide

/-- Claim C2 near the end of the axis.  In a dimension of 1000 items of size 20
(`realSize = 20000`) the full rebuild at position 19900 passes `realCount` as the
count budget of `getItems` and returns the items 995 to 1000; item 1000 ends at
20020.  In `wideItemDimension` (8 items, `realSize = 240`) the recombination from
the window of the items 4 and 5 to position 180 fills up with
`maxCount = realCount - lastItem.itemIndex` and appends item 8, which ends at
260. -/
theorem bounds_broken_at_axis_end :
    WithinRealSize 20000 emptyWindow ∧
    getUpdatedItemsByPosition 19900 emptyWindow 1000 100 (uniformDimension 20 20000)
      = some (sixItems 995, emptyWindow) ∧
    some { itemIndex := 1000, start := 20000, end_ := 20020, size := 20 } ∈ (sixItems 995).items ∧
    ¬ WithinRealSize 20000 (sixItems 995) ∧
    getUpdatedItemsByPosition 80 emptyWindow 8 100 wideItemDimension
      = some (wideItemWindow, emptyWindow) ∧
    WithinRealSize 240 wideItemWindow ∧
    (getUpdatedItemsByPosition 180 wideItemWindow 8 100 wideItemDimension).map Prod.fst
      = some wideItemResult ∧
    ¬ WithinRealSize 240 wideItemResult := by
  decide


/-! ## The shape of the results of `recombineByOffset` and of the orchestrator -/

/-- Every result of `recombineByOffset`: either `null` with `state` untouched (the
offset exceeds the number of visible items), or a copy of the state the call
leaves, whose items come from the loop of the direction and whose order is the
rotated order. -/
theorem recombineByOffset_cases (data : RecombineData) (w : ViewportStateItems)
    (res : Option ViewportStateItems) (st : ViewportStateItems)
    (h : recombineByOffset data w = some (res, st)) :
    (data.offset > w.itemIndexes.length ∧ res = none ∧ st = w) ∨
    (data.offset ≤ w.itemIndexes.length ∧ res = some st ∧
      ((data.positiveDirection = true ∧
          forwardLoop data.dimension w.itemIndexes data.offset 0 (getLastItem w) w.items
            = some st.items ∧
          st.itemIndexes = w.itemIndexes.drop data.offset ++ w.itemIndexes.take data.offset) ∨
        (data.positiveDirection = false ∧
          backwardLoop data.dimension w.itemIndexes (w.itemIndexes.length - data.offset)
            data.offset (getFirstItem w) w.items = some st.items ∧
          st.itemIndexes
            = (w.itemIndexes.drop (w.itemIndexes.length - data.offset)).take
                (w.itemIndexes.length - 1)
              ++ (w.itemIndexes.take (w.itemIndexes.length - data.offset)
                ++ (w.itemIndexes.drop (w.itemIndexes.length - data.offset)).drop
                  (w.itemIndexes.length - 1))))) := by
  by_cases hgt : data.offset > w.itemIndexes.length
  · rw [recombineByOffset_of_gt data w hgt] at h
    simp only [Option.some.injEq, Prod.mk.injEq] at h
    exact Or.inl ⟨hgt, h.1.symm, h.2.symm⟩
  · right
    refine ⟨by omega, ?_⟩
    unfold recombineByOffset at h
    simp only [hgt, if_false] at h
    by_cases hdir : data.positiveDirection = true
    · simp only [hdir, if_true] at h
      cases hloop : forwardLoop data.dimension w.itemIndexes data.offset 0 (getLastItem w)
          w.items with
      | none => rw [hloop] at h; simp at h
      | some items' =>
        rw [hloop] at h
        cases h
        exact ⟨rfl, Or.inl ⟨hdir, rfl, rfl⟩⟩
    · simp only [hdir, if_false] at h
      cases hloop : backwardLoop data.dimension w.itemIndexes
          (w.itemIndexes.length - data.offset) data.offset (getFirstItem w) w.items with
      | none => rw [hloop] at h; simp at h
      | some items' =>
        rw [hloop] at h
        cases h
        exact ⟨rfl, Or.inr ⟨by simpa using hdir, rfl, rfl⟩⟩

/-- Every result of `getUpdatedItemsByPosition`: either the full rebuild at the
located item with the previous window untouched, or the recombined window, which
is also the state the previous window is left in, with the items of the gap
filler appended to the returned copy. -/
theorem getUpdatedItemsByPosition_cases (pos realCount virtualSize : Int)
    (dimension : DimensionSettingsState) (w r st : ViewportStateItems)
    (h : getUpdatedItemsByPosition pos w realCount virtualSize dimension = some (r, st)) :
    ∃ target, getOffset dimension pos dimension.originItemSize = some target ∧
      ((r = rebuild target realCount virtualSize dimension ∧ st = w) ∨
        (∃ f extra, getFirstItem w = some f ∧ target.itemIndex - f.itemIndex ≠ 0 ∧
          recombineByOffset ⟨dimension, decide (target.itemIndex - f.itemIndex > -1),
            (target.itemIndex - f.itemIndex).natAbs⟩ w = some (some st, st) ∧
          addMissingItems target realCount virtualSize st dimension = some extra ∧
          r = if extra.items.length ≠ 0 then
                { items := st.items ++ extra.items
                  itemIndexes := st.itemIndexes ++ extra.itemIndexes }
              else st)) := by
  unfold getUpdatedItemsByPosition at h
  cases hoff : getOffset dimension pos dimension.originItemSize with
  | none => rw [hoff] at h; simp at h
  | some target =>
    rw [hoff] at h
    refine ⟨target, rfl, ?_⟩
    cases hfirst : getFirstItem w with
    | none =>
      rw [hfirst] at h
      simp only [Option.some.injEq, Prod.mk.injEq] at h
      exact Or.inl ⟨h.1.symm, h.2.symm⟩
    | some f =>
      rw [hfirst] at h
      simp only [] at h
      by_cases hshift : target.itemIndex - f.itemIndex ≠ 0
      · simp only [hshift, ne_eq, not_false_eq_true, if_true] at h
        cases hrec : recombineByOffset ⟨dimension, decide (target.itemIndex - f.itemIndex > -1),
            (target.itemIndex - f.itemIndex).natAbs⟩ w with
        | none => rw [hrec] at h; simp at h
        | some pr =>
          obtain ⟨res, st0⟩ := pr
          rw [hrec] at h
          rcases recombineByOffset_cases _ _ _ _ hrec with ⟨-, hres, hst⟩ | ⟨-, hres, -⟩
          · subst hres
            simp only [Option.some.injEq, Prod.mk.injEq] at h
            exact Or.inl ⟨h.1.symm, by rw [← h.2, hst]⟩
          · subst hres
            simp only [] at h
            cases hadd : addMissingItems target realCount virtualSize st0 dimension with
            | none => rw [hadd] at h; simp at h
            | some extra =>
              rw [hadd] at h
              simp only [] at h
              right
              by_cases hlen : extra.items.length ≠ 0
              · rw [if_pos hlen] at h
                cases h
                exact ⟨f, extra, rfl, hshift, hrec, hadd, by rw [if_pos hlen]⟩
              · rw [if_neg hlen] at h
                cases h
                exact ⟨f, extra, rfl, hshift, hrec, hadd, by rw [if_neg hlen]⟩
      · simp only [hshift, if_false, Option.some.injEq, Prod.mk.injEq] at h
        exact Or.inl ⟨h.1.symm, h.2.symm⟩


/-! ## Properties of the loops that hold for every window -/

theorem setSlot_length_of_lt (items : List (Option VirtualPositionItem)) (k : Nat)
    (v : VirtualPositionItem) (h : k < items.length) :
    (setSlot items k v).length = items.length := by
  simp [setSlot, h]

theorem mem_setSlot (items : List (Option VirtualPositionItem)) (k : Nat)
    (v it : VirtualPositionItem) (h : some it ∈ setSlot items k v) :
    it = v ∨ some it ∈ items := by
  unfold setSlot at h
  split at h
  · rcases List.mem_or_eq_of_mem_set h with h | h
    · exact Or.inr h
    · exact Or.inl (Option.some.inj h)
  · simp only [List.append_assoc, List.mem_append, List.mem_replicate, ne_eq, List.mem_singleton,
      Option.some.injEq, reduceCtorEq, and_false, false_or] at h
    rcases h with h | h
    · exact Or.inr h
    · exact Or.inl h

/-- The forward loop keeps the length of the items array when the slots it writes
are inside the array. -/
theorem forwardLoop_length (dimension : DimensionSettingsState) (idxs : List Nat) :
    ∀ (left i : Nat) (last : Option VirtualPositionItem)
      (items items' : List (Option VirtualPositionItem)),
      (∀ j, i ≤ j → j < i + left → idxs.getD j 0 < items.length) →
      forwardLoop dimension idxs left i last items = some items' →
      items'.length = items.length := by
  intro left
  induction left with
  | zero =>
    intro i last items items' _ h
    rw [forwardLoop] at h
    cases h; rfl
  | succ left ih =>
    intro i last items items' hin h
    cases last with
    | none => rw [forwardLoop] at h; simp at h
    | some lastItem =>
      rw [forwardLoop] at h
      simp only [] at h
      split at h
      · cases h; rfl
      · have hk := hin i (le_refl _) (by omega)
        have := ih (i + 1) _ _ items'
          (fun j h1 h2 => by
            rw [setSlot_length_of_lt _ _ _ hk]; exact hin j (by omega) (by omega)) h
        rw [this, setSlot_length_of_lt _ _ _ hk]

/-- The backward loop keeps the length of the items array when the slots it writes
are inside the array. -/
theorem backwardLoop_length (dimension : DimensionSettingsState) (idxs : List Nat)
    (changed : Nat) :
    ∀ (left : Nat) (first : Option VirtualPositionItem)
      (items items' : List (Option VirtualPositionItem)),
      (∀ j, j < left → idxs.getD (changed + j) 0 < items.length) →
      backwardLoop dimension idxs changed left first items = some items' →
      items'.length = items.length := by
  intro left
  induction left with
  | zero =>
    intro first items items' _ h
    rw [backwardLoop] at h
    cases h; rfl
  | succ left ih =>
    intro first items items' hin h
    cases first with
    | none => rw [backwardLoop] at h; simp at h
    | some firstItem =>
      rw [backwardLoop] at h
      have hk := hin left (by omega)
      have := ih _ _ items'
        (fun j h1 => by
          rw [setSlot_length_of_lt _ _ _ hk]; exact hin j (by omega)) h
      rw [this, setSlot_length_of_lt _ _ _ hk]

/-- The forward loop writes items whose index is above the index of the last
item: when the items of the array and the last item have a non-negative index,
so have the items of the array after the loop. -/
theorem forwardLoop_nonneg (dimension : DimensionSettingsState) (idxs : List Nat) :
    ∀ (left i : Nat) (last : VirtualPositionItem)
      (items items' : List (Option VirtualPositionItem)),
      0 ≤ last.itemIndex →
      (∀ it, some it ∈ items → 0 ≤ it.itemIndex) →
      forwardLoop dimension idxs left i (some last) items = some items' →
      ∀ it, some it ∈ items' → 0 ≤ it.itemIndex := by
  intro left
  induction left with
  | zero =>
    intro i last items items' _ hall h
    rw [forwardLoop] at h
    cases h; exact hall
  | succ left ih =>
    intro i last items items' hlast hall h
    rw [forwardLoop] at h
    simp only [] at h
    split at h
    · cases h; exact hall
    · refine ih (i + 1) _ _ items' (by show 0 ≤ last.itemIndex + 1; omega) ?_ h
      intro it hit
      rcases mem_setSlot _ _ _ _ hit with h1 | h1
      · rw [h1]; show 0 ≤ last.itemIndex + 1; omega
      · exact hall it h1

/-- The backward loop writes the items `first.itemIndex - 1`, ...,
`first.itemIndex - left`: when the items of the array have a non-negative index
and `left ≤ first.itemIndex`, so have the items of the array after the loop. -/
theorem backwardLoop_nonneg (dimension : DimensionSettingsState) (idxs : List Nat)
    (changed : Nat) :
    ∀ (left : Nat) (first : VirtualPositionItem)
      (items items' : List (Option VirtualPositionItem)),
      (left : Int) ≤ first.itemIndex →
      (∀ it, some it ∈ items → 0 ≤ it.itemIndex) →
      backwardLoop dimension idxs changed left (some first) items = some items' →
      ∀ it, some it ∈ items' → 0 ≤ it.itemIndex := by
  intro left
  induction left with
  | zero =>
    intro first items items' _ hall h
    rw [backwardLoop] at h
    cases h; exact hall
  | succ left ih =>
    intro first items items' hfirst hall h
    rw [backwardLoop] at h
    refine ih _ _ items' (by show (left : Int) ≤ first.itemIndex - 1; push_cast at hfirst; omega)
      ?_ h
    intro it hit
    rcases mem_setSlot _ _ _ _ hit with h1 | h1
    · rw [h1]; show 0 ≤ first.itemIndex - 1; push_cast at hfirst; omega
    · exact hall it h1

theorem rotate_back_perm (l : List Nat) (c m : Nat) :
    ((l.drop c).take m ++ (l.take c ++ (l.drop c).drop m)).Perm l := by
  have h1 : ((l.drop c).take m ++ (l.take c ++ (l.drop c).drop m)).Perm
      (l.take c ++ ((l.drop c).take m ++ (l.drop c).drop m)) := by
    rw [← List.append_assoc, ← List.append_assoc]
    exact List.Perm.append_right _ List.perm_append_comm
  rw [List.take_append_drop, List.take_append_drop] at h1
  exact h1

theorem rotate_perm (l : List Nat) (k : Nat) : (l.drop k ++ l.take k).Perm l := by
  have h := @List.perm_append_comm _ (l.drop k) (l.take k)
  rw [List.take_append_drop] at h
  exact h


/-! ## The order as a permutation -/

theorem getD_lt_of_perm (idxs : List Nat) (len j : Nat) (hperm : idxs.Perm (List.range len))
    (hj : j < idxs.length) : idxs.getD j 0 < len := by
  rw [List.getD_eq_getElem _ _ hj]
  exact List.mem_range.1 (hperm.subset (List.getElem_mem hj))

/-- After `recombineByOffset` the order is a permutation of the order before, and
when the order before is a permutation of the slots the items array keeps its
length. -/
theorem recombineByOffset_perm (data : RecombineData) (w st : ViewportStateItems)
    (h : recombineByOffset data w = some (some st, st)) :
    st.itemIndexes.Perm w.itemIndexes ∧
    (w.itemIndexes.Perm (List.range w.items.length) → st.items.length = w.items.length) := by
  rcases recombineByOffset_cases _ _ _ _ h with ⟨-, hres, -⟩ | ⟨hle, -, hdir⟩
  · cases hres
  · rcases hdir with ⟨-, hloop, hidx⟩ | ⟨-, hloop, hidx⟩
    · refine ⟨by rw [hidx]; exact rotate_perm _ _, fun hperm => ?_⟩
      exact forwardLoop_length _ _ _ _ _ _ _
        (fun j _ hj => getD_lt_of_perm _ _ _ hperm (by omega)) hloop
    · refine ⟨by rw [hidx]; exact rotate_back_perm _ _ _, fun hperm => ?_⟩
      exact backwardLoop_length _ _ _ _ _ _ _
        (fun j hj => getD_lt_of_perm _ _ _ hperm (by omega)) hloop

theorem addMissingItems_itemIndexes (firstItem : PositionItem) (realCount virtualSize : Int)
    (w extra : ViewportStateItems) (dimension : DimensionSettingsState)
    (h : addMissingItems firstItem realCount virtualSize w dimension = some extra) :
    extra.itemIndexes = range extra.items.length w.items.length := by
  unfold addMissingItems at h
  cases hlast : getLastItem w with
  | none => rw [hlast] at h; simp at h
  | some last =>
    rw [hlast] at h
    cases h
    rfl

/-- Claim C13 (order is a permutation): when the order of the previous window is
a permutation of its slots `0, ..., items.length - 1`, so is the order of the
window that `getUpdatedItemsByPosition` returns, after the rebuild, after the
forward or the backward rotation and after the slots of the gap filler are
appended; the previous window as the call leaves it has the property too. -/
theorem order_is_permutation (pos realCount virtualSize : Int)
    (dimension : DimensionSettingsState) (w r st : ViewportStateItems)
    (hperm : w.itemIndexes.Perm (List.range w.items.length))
    (h : getUpdatedItemsByPosition pos w realCount virtualSize dimension = some (r, st)) :
    r.itemIndexes.Perm (List.range r.items.length) ∧
    st.itemIndexes.Perm (List.range st.items.length) := by
  obtain ⟨target, -, hcase⟩ := getUpdatedItemsByPosition_cases _ _ _ _ _ _ _ h
  rcases hcase with ⟨hr, hst⟩ | ⟨f, extra, -, -, hrec, hadd, hr⟩
  · refine ⟨?_, by rw [hst]; exact hperm⟩
    rw [hr, rebuild]
    obtain ⟨hw, -, -, -⟩ := getItems_spec
      { sizes := dimension.sizes
        start := target.start
        startIndex := target.itemIndex
        origSize := dimension.originItemSize
        maxSize := virtualSize
        maxCount := realCount }
    rw [hw]
    simp only [spanList_length]
    exact List.Perm.refl _
  · obtain ⟨hp1, hp2⟩ := recombineByOffset_perm _ _ _ hrec
    have hst : st.itemIndexes.Perm (List.range st.items.length) := by
      rw [hp2 hperm]; exact hp1.trans hperm
    refine ⟨?_, hst⟩
    rw [hr]
    split
    · rw [addMissingItems_itemIndexes _ _ _ _ _ _ hadd]
      simp only [List.length_append, List.range_add, range]
      exact List.Perm.append_right _ hst
    · exact hst

/-- Instance of `order_is_permutation`: the call at position 25 with the window of
the items 0 to 5, whose order is the identity. -/
theorem order_is_permutation_witness :
    rotatedWindow.itemIndexes.Perm (List.range rotatedWindow.items.length) ∧
    rotatedWindow.itemIndexes.Perm (List.range rotatedWindow.items.length) :=
  order_is_permutation 25 1000 100 (uniformDimension 20 20000) (sixItems 0)
    rotatedWindow rotatedWindow (List.Perm.refl _) (by decide)


/-! ## Jumps beyond the previous window -/

theorem sizeSum_nonneg (sizes : Int → Option Int) (origSize : Int)
    (hsizes : ∀ i, 0 < getItemSize i sizes origSize) (index : Int) (m : Nat) :
    0 ≤ sizeSum sizes origSize index m := by
  induction m with
  | zero => simp [sizeSum]
  | succ m ih =>
    rw [sizeSum]
    have := hsizes (index + m)
    omega

theorem sizeSum_mono (sizes : Int → Option Int) (origSize : Int)
    (hsizes : ∀ i, 0 < getItemSize i sizes origSize) (index : Int) (a b : Nat) (h : a ≤ b) :
    sizeSum sizes origSize index a ≤ sizeSum sizes origSize index b := by
  obtain ⟨c, rfl⟩ := Nat.exists_eq_add_of_le h
  rw [sizeSum_add]
  have := sizeSum_nonneg sizes origSize hsizes (index + a) c
  omega

theorem sizeSum_front (sizes : Int → Option Int) (origSize index : Int) (m : Nat) :
    sizeSum sizes origSize index (m + 1)
      = getItemSize index sizes origSize + sizeSum sizes origSize (index + 1) m := by
  rw [Nat.add_comm, sizeSum_add]
  simp [sizeSum]

/-- Where an item with its true span lies, relative to a run from item `fi` at
pixel `fs`, when it contains the pixel `pos` and all sizes are positive: at or
after item `fi + m` when `pos` is not before the start of that item, before item
`fi + m` when `pos` is before its start, and before item `fi - m` when `pos` is
before the start of that item. -/
theorem located_index_bounds (sizes : Int → Option Int) (origSize fi fs pos : Int)
    (target : PositionItem) (hsizes : ∀ i, 0 < getItemSize i sizes origSize)
    (hts : target.start = startOf sizes origSize fi fs target.itemIndex)
    (hte : target.end_ = target.start + getItemSize target.itemIndex sizes origSize)
    (hin1 : target.start ≤ pos) (hin2 : pos < target.end_) (m : Nat) :
    (fs + sizeSum sizes origSize fi m ≤ pos → fi + m ≤ target.itemIndex) ∧
    (pos < fs + sizeSum sizes origSize fi m → target.itemIndex < fi + m) ∧
    (pos < fs - sizeSum sizes origSize (fi - m) m → target.itemIndex < fi - m) := by
  have hend_before : target.itemIndex < fi → target.end_ ≤ fs := by
    intro hlt
    obtain ⟨j, hj⟩ : ∃ j : Nat, (fi - target.itemIndex).toNat = j + 1 :=
      ⟨(fi - target.itemIndex).toNat - 1, by omega⟩
    rw [hte, hts, startOf, if_neg (by omega), hj, sizeSum_front]
    have := sizeSum_nonneg sizes origSize hsizes (target.itemIndex + 1) j
    omega
  have hstart_from : fi ≤ target.itemIndex →
      target.start = fs + sizeSum sizes origSize fi (target.itemIndex - fi).toNat := by
    intro hle
    rw [hts, startOf, if_pos hle]
  refine ⟨?_, ?_, ?_⟩
  · intro hpos
    by_contra hlt
    by_cases hge : fi ≤ target.itemIndex
    · have hidx : fi + ((target.itemIndex - fi).toNat : Nat) = target.itemIndex := by omega
      have h1 : target.end_ = fs + sizeSum sizes origSize fi ((target.itemIndex - fi).toNat + 1) := by
        rw [hte, hstart_from hge, sizeSum, hidx]; ring
      have h2 := sizeSum_mono sizes origSize hsizes fi ((target.itemIndex - fi).toNat + 1) m
        (by omega)
      omega
    · have h1 := hend_before (by omega)
      have h2 := sizeSum_nonneg sizes origSize hsizes fi m
      omega
  · intro hpos
    by_contra hge
    have h1 := hstart_from (by omega)
    have h2 := sizeSum_mono sizes origSize hsizes fi m (target.itemIndex - fi).toNat (by omega)
    omega
  · intro hpos
    by_contra hge
    have h0 := sizeSum_nonneg sizes origSize hsizes (fi - m) m
    by_cases hfi : fi ≤ target.itemIndex
    · have h1 := hstart_from hfi
      have h2 := sizeSum_nonneg sizes origSize hsizes fi (target.itemIndex - fi).toNat
      omega
    · obtain ⟨j, hj⟩ : ∃ j : Nat, (fi - target.itemIndex).toNat = j := ⟨_, rfl⟩
      have hjm : j ≤ m := by omega
      have h1 : target.start = fs - sizeSum sizes origSize target.itemIndex j := by
        rw [hts, startOf, if_neg hfi, hj]
      have h2 : sizeSum sizes origSize (fi - m) m
          = sizeSum sizes origSize (fi - m) (m - j)
            + sizeSum sizes origSize target.itemIndex j := by
        have hm : m = (m - j) + j := by omega
        have hidx : fi - (m : Int) + ((m - j : Nat) : Int) = target.itemIndex := by omega
        conv_lhs => rw [hm]
        rw [sizeSum_add]
        rw [show fi - ((m - j + j : Nat) : Int) + ((m - j : Nat) : Int) = target.itemIndex by
          omega]
        congr 2
        omega
      have h3 := sizeSum_nonneg sizes origSize hsizes (fi - m) (m - j)
      omega


/-- Jumps beyond the previous window.  Let the previous window read as a run of
`n ≥ 1` items of the dimension from item `fi` at pixel `fs`, let all sizes be
positive and let the located item have its true span and contain the position.
When the position is at or beyond the end of the item right after the last
visible item, or before the start of the item `n` places before the first visible
item, the index shift exceeds `n`, `recombineByOffset` returns `null` and leaves
the window as it was, and `getUpdatedItemsByPosition` returns the full rebuild.
When the position lies in the item right after the last visible item, the shift
equals `n` and `recombineByOffset` does not return `null`. -/
theorem jump_beyond_window (pos realCount virtualSize : Int)
    (dimension : DimensionSettingsState) (w : ViewportStateItems) (fi fs : Int) (n : Nat)
    (target : PositionItem)
    (hrun : IsRun dimension.sizes dimension.originItemSize w fi fs n) (hn : 0 < n)
    (hsizes : ∀ i, 0 < getItemSize i dimension.sizes dimension.originItemSize)
    (hoff : getOffset dimension pos dimension.originItemSize = some target)
    (hts : target.start
      = startOf dimension.sizes dimension.originItemSize fi fs target.itemIndex)
    (hte : target.end_
      = target.start + getItemSize target.itemIndex dimension.sizes dimension.originItemSize)
    (hin1 : target.start ≤ pos) (hin2 : pos < target.end_) :
    ((fs + sizeSum dimension.sizes dimension.originItemSize fi (n + 1) ≤ pos ∨
        pos < fs - sizeSum dimension.sizes dimension.originItemSize (fi - n) n) →
      n < (target.itemIndex - fi).natAbs ∧
      recombineByOffset ⟨dimension, decide (target.itemIndex - fi > -1),
        (target.itemIndex - fi).natAbs⟩ w = some (none, w) ∧
      getUpdatedItemsByPosition pos w realCount virtualSize dimension
        = some (rebuild target realCount virtualSize dimension, w)) ∧
    (fs + sizeSum dimension.sizes dimension.originItemSize fi n ≤ pos →
      pos < fs + sizeSum dimension.sizes dimension.originItemSize fi (n + 1) →
      target.itemIndex = fi + n ∧
      ∀ st, recombineByOffset ⟨dimension, decide (target.itemIndex - fi > -1),
        (target.itemIndex - fi).natAbs⟩ w ≠ some (none, st)) := by
  have hlen : w.itemIndexes.length = n := ((isRun_iff _ _ _ _ _ _).1 hrun).1
  have hfirst := getFirstItem_of_isRun _ _ _ _ _ _ hrun hn
  have hfi : (spanAt dimension.sizes dimension.originItemSize fi fs 0).itemIndex = fi := by
    simp [spanAt]
  constructor
  · intro hjump
    have hlarge : n < (target.itemIndex - fi).natAbs := by
      rcases hjump with h | h
      · have := (located_index_bounds _ _ fi fs pos target hsizes hts hte hin1 hin2 (n + 1)).1 h
        push_cast at this
        omega
      · have := (located_index_bounds _ _ fi fs pos target hsizes hts hte hin1 hin2 n).2.2 h
        omega
    have hnull := recombineByOffset_of_gt
      ⟨dimension, decide (target.itemIndex - fi > -1), (target.itemIndex - fi).natAbs⟩ w
      (by show (target.itemIndex - fi).natAbs > w.itemIndexes.length; omega)
    refine ⟨hlarge, hnull, ?_⟩
    have hshift : target.itemIndex - fi ≠ 0 := by omega
    unfold getUpdatedItemsByPosition
    simp only [hoff, hfirst, hfi, ne_eq, hshift, not_false_eq_true, if_true, hnull]
  · intro h1 h2
    have hb := located_index_bounds _ _ fi fs pos target hsizes hts hte hin1 hin2
    have ha := (hb n).1 h1
    have hc := (hb (n + 1)).2.1 h2
    push_cast at hc
    refine ⟨by omega, fun st => ?_⟩
    exact recombineByOffset_of_le _ w
      (by show (target.itemIndex - fi).natAbs ≤ w.itemIndexes.length; omega) st

/-- Instance of `jump_beyond_window`: uniform size 20, the window of the items 0
to 5 (pixels 0 to 120) and position 145, in item 7. -/
theorem jump_beyond_window_witness :
    ((0 + sizeSum (uniformDimension 20 20000).sizes 20 0 (6 + 1) ≤ 145 ∨
        145 < 0 - sizeSum (uniformDimension 20 20000).sizes 20 (0 - (6 : Nat)) 6) →
      6 < ((7 : Int) - 0).natAbs ∧
      recombineByOffset ⟨uniformDimension 20 20000, decide ((7 : Int) - 0 > -1),
        ((7 : Int) - 0).natAbs⟩ (sixItems 0) = some (none, sixItems 0) ∧
      getUpdatedItemsByPosition 145 (sixItems 0) 1000 100 (uniformDimension 20 20000)
        = some (rebuild ⟨7, 140, 160⟩ 1000 100 (uniformDimension 20 20000), sixItems 0)) ∧
    (0 + sizeSum (uniformDimension 20 20000).sizes 20 0 6 ≤ 145 →
      145 < 0 + sizeSum (uniformDimension 20 20000).sizes 20 0 (6 + 1) →
      (7 : Int) = 0 + (6 : Nat) ∧
      ∀ st, recombineByOffset ⟨uniformDimension 20 20000, decide ((7 : Int) - 0 > -1),
        ((7 : Int) - 0).natAbs⟩ (sixItems 0) ≠ some (none, st)) :=
  jump_beyond_window 145 1000 100 (uniformDimension 20 20000) (sixItems 0) 0 0 6 ⟨7, 140, 160⟩
    (by decide) (by decide) (fun i => by simp [getItemSize, uniformDimension]) (by decide)
    (by decide) (by decide) (by decide) (by decide)

/-- Claim C11 fails on the code when the position lands in the item right after
the last visible item.  In `lateWideDimension` the window built at position 0
holds the items 0 to 5 and ends at pixel 120.  Position 125 is beyond it, in item
6 (shift 6, the number of visible items, so no old item stays visible):
`recombineByOffset` does not return `null` but the window of the items 6 to 11,
and `getUpdatedItemsByPosition` returns that window, not the full rebuild, which
holds the items 6 and 7. -/
theorem jump_to_next_item_recombines :
    getUpdatedItemsByPosition 0 emptyWindow 1000 100 lateWideDimension
      = some (sixItems 0, emptyWindow) ∧
    getOffset lateWideDimension 125 20 = some { itemIndex := 6, start := 120, end_ := 220 } ∧
    recombineByOffset ⟨lateWideDimension, true, 6⟩ (sixItems 0)
      = some (some { items := spanList lateWideDimension.sizes 20 6 120 6
                     itemIndexes := [0, 1, 2, 3, 4, 5] },
              { items := spanList lateWideDimension.sizes 20 6 120 6
                itemIndexes := [0, 1, 2, 3, 4, 5] }) ∧
    (getUpdatedItemsByPosition 125 (sixItems 0) 1000 100 lateWideDimension).map Prod.fst
      = some { items := spanList lateWideDimension.sizes 20 6 120 6
               itemIndexes := [0, 1, 2, 3, 4, 5] } ∧
    rebuild { itemIndex := 6, start := 120, end_ := 220 } 1000 100 lateWideDimension
      = { items := spanList lateWideDimension.sizes 20 6 120 2, itemIndexes := [0, 1] } ∧
    (getUpdatedItemsByPosition 125 (sixItems 0) 1000 100 lateWideDimension).map Prod.fst
      ≠ some (rebuild { itemIndex := 6, start := 120, end_ := 220 } 1000 100
          lateWideDimension) := by
  decide


/-! ## Input outside the contract -/

theorem getOffset_uniformDimension (pos s realSize : Int) :
    getOffset (uniformDimension s realSize) pos s
      = some { itemIndex := Int.fdiv pos s
               start := Int.fdiv pos s * s
               end_ := Int.fdiv pos s * s + s } := by
  simp [getOffset, uniformDimension]

/-- Claim C14, as the code has it: `getUpdatedItemsByPosition` has no precondition
check.  For a dimension without overrides, a default size `s ≠ 0` and a previous
window without visible items it returns, for every position and every
`realCount`, the window `getItems` builds from item `floor (pos / s)`: the empty
window when `realCount ≤ 0`, and for a negative position (with `s > 0`, a positive
`realCount` and `virtualSize ≥ 0`) a window whose first item has a negative
`itemIndex`. -/
theorem no_precondition_check (pos realCount virtualSize s realSize : Int)
    (prev : ViewportStateItems) (hprev : getFirstItem prev = none) (_hs : s ≠ 0) :
    getUpdatedItemsByPosition pos prev realCount virtualSize (uniformDimension s realSize)
      = some (getItems
          { sizes := fun _ => none
            start := Int.fdiv pos s * s
            startIndex := Int.fdiv pos s
            origSize := s
            maxSize := virtualSize
            maxCount := realCount } 0, prev) ∧
    (realCount ≤ 0 →
      getItems
          { sizes := fun _ => none
            start := Int.fdiv pos s * s
            startIndex := Int.fdiv pos s
            origSize := s
            maxSize := virtualSize
            maxCount := realCount } 0 = { items := [], itemIndexes := [] }) ∧
    (pos < 0 → 0 < s → 0 < realCount → 0 ≤ virtualSize →
      ∃ it rest, (getItems
          { sizes := fun _ => none
            start := Int.fdiv pos s * s
            startIndex := Int.fdiv pos s
            origSize := s
            maxSize := virtualSize
            maxCount := realCount } 0).items = some it :: rest ∧ it.itemIndex < 0) := by
  refine ⟨?_, ?_, ?_⟩
  · unfold getUpdatedItemsByPosition
    have h := getOffset_uniformDimension pos s realSize
    simp only [uniformDimension] at h ⊢
    rw [h, hprev]
    rfl
  · intro hc
    have h0 : realCount.toNat = 0 := by omega
    simp [getItems, h0, getItemsLoop]
  · intro hpos hs0 hc hv
    obtain ⟨k, hk⟩ : ∃ k, realCount.toNat = k + 1 := ⟨realCount.toNat - 1, by omega⟩
    have hneg : Int.fdiv pos s < 0 := by
      rw [Int.fdiv_eq_ediv pos hs0.le]
      exact Int.ediv_neg' hpos hs0
    simp only [getItems, hk, getItemsLoop, hv, if_true]
    exact ⟨_, _, rfl, hneg⟩

/-- Instance of `no_precondition_check`: position -5, default size 20, no
previous window. -/
theorem no_precondition_check_witness :
    getUpdatedItemsByPosition (-5) emptyWindow 1000 100 (uniformDimension 20 20000)
      = some (getItems
          { sizes := fun _ => none
            start := Int.fdiv (-5) 20 * 20
            startIndex := Int.fdiv (-5) 20
            origSize := 20
            maxSize := 100
            maxCount := 1000 } 0, emptyWindow) :=
  (no_precondition_check (-5) 1000 100 20 20000 emptyWindow (by decide) (by decide)).1

/-- Claim C14, as stated, fails: no call fails with a precondition error.  At
position -5 the window of the items -1 to 4 is returned, the first of them with
the span `[-20, 0)`; with `realCount = -1` the empty window is returned; with
`originItemSize = -20` a window of three items of size -20 is returned. -/
theorem malformed_input_returns_window :
    getUpdatedItemsByPosition (-5) emptyWindow 1000 100 (uniformDimension 20 20000)
      = some (sixItems (-1), emptyWindow) ∧
    (sixItems (-1)).items.head?
      = some (some { itemIndex := -1, start := -20, end_ := 0, size := 20 }) ∧
    getUpdatedItemsByPosition 0 emptyWindow (-1) 100 (uniformDimension 20 20000)
      = some ({ items := [], itemIndexes := [] }, emptyWindow) ∧
    getUpdatedItemsByPosition 25 emptyWindow 3 100 (uniformDimension (-20) 20000)
      = some ({ items := [some { itemIndex := -2, start := 40, end_ := 20, size := -20 },
                          some { itemIndex := -1, start := 20, end_ := 0, size := -20 },
                          some { itemIndex := 0, start := 0, end_ := -20, size := -20 }]
                itemIndexes := [0, 1, 2] }, emptyWindow) := by
  decide


/-! ## Recombination of a contiguous window -/

theorem visual_getD (w : ViewportStateItems) (j : Nat) (hj : j < w.itemIndexes.length) :
    (visual w).getD j none = slotAt w.items (w.itemIndexes.getD j 0) := by
  simp [visual, List.getD_eq_getElem?_getD, List.getElem?_eq_getElem hj]

/-- In a contiguous window with at least two visible items every visible item is
present, and the item at visual position `j` has the item index of the first
visible item plus `j`. -/
theorem contiguous_itemIndex (w : ViewportStateItems) (hcont : Contiguous w)
    (h2 : 2 ≤ w.itemIndexes.length) :
    ∃ base : Int, ∀ j, j < w.itemIndexes.length →
      ∃ it, slotAt w.items (w.itemIndexes.getD j 0) = some it ∧ it.itemIndex = base + j := by
  have hlen : (visual w).length = w.itemIndexes.length := by simp [visual]
  have h0 := hcont 0 (by omega)
  rw [visual_getD w 0 (by omega), visual_getD w 1 (by omega)] at h0
  cases hs0 : slotAt w.items (w.itemIndexes.getD 0 0) with
  | none => rw [hs0] at h0; exact absurd h0 (by simp [Adjacent])
  | some a =>
    refine ⟨a.itemIndex, ?_⟩
    intro j
    induction j with
    | zero => intro _; exact ⟨a, hs0, by simp⟩
    | succ j ih =>
      intro hj
      obtain ⟨it, hit, hidx⟩ := ih (by omega)
      have hadj := hcont j (by omega)
      rw [visual_getD w j (by omega), visual_getD w (j + 1) (by omega), hit] at hadj
      cases hs1 : slotAt w.items (w.itemIndexes.getD (j + 1) 0) with
      | none => rw [hs1] at hadj; exact absurd hadj (by simp [Adjacent])
      | some b =>
        rw [hs1] at hadj
        refine ⟨b, rfl, ?_⟩
        have := hadj.2
        push_cast
        omega

/-- The visible items of a contiguous window lie in distinct slots. -/
theorem nodup_of_contiguous (w : ViewportStateItems) (hcont : Contiguous w) :
    w.itemIndexes.Nodup := by
  by_cases h2 : 2 ≤ w.itemIndexes.length
  · obtain ⟨base, hb⟩ := contiguous_itemIndex w hcont h2
    rw [List.nodup_iff_getElem?_ne_getElem?]
    intro i j hij hj heq
    obtain ⟨a, ha, hai⟩ := hb i (by omega)
    obtain ⟨b, hb', hbj⟩ := hb j hj
    have e : w.itemIndexes.getD i 0 = w.itemIndexes.getD j 0 := by
      simp only [List.getD_eq_getElem?_getD, heq]
    rw [e, hb'] at ha
    cases ha
    omega
  · match hl : w.itemIndexes with
    | [] => exact List.nodup_nil
    | [a] => exact List.nodup_singleton a
    | a :: b :: rest => rw [hl] at h2; simp at h2

theorem getD_not_mem_drop (l : List Nat) (hnodup : l.Nodup) (k j : Nat) (hj : j < k)
    (s : Nat) (hs : s ∈ l.drop k) : l.getD j 0 ≠ s := by
  obtain ⟨m, hm, rfl⟩ := List.mem_iff_getElem.1 hs
  rw [List.length_drop] at hm
  rw [List.getElem_drop]
  have := getD_ne_of_nodup l hnodup j (k + m) (by omega) (by omega)
  rwa [List.getD_eq_getElem l 0 (by omega : k + m < l.length)] at this

theorem getD_not_mem_take (l : List Nat) (hnodup : l.Nodup) (c j : Nat)
    (hj : c + j < l.length) (s : Nat) (hs : s ∈ l.take c) : l.getD (c + j) 0 ≠ s := by
  obtain ⟨m, hm, rfl⟩ := List.mem_iff_getElem.1 hs
  rw [List.length_take] at hm
  rw [List.getElem_take]
  have := getD_ne_of_nodup l hnodup m (c + j) (by omega) hj
  rw [List.getD_eq_getElem l 0 (by omega : m < l.length)] at this
  exact fun h => this h.symm

theorem map_slotAt_eq_spanList (sizes : Int → Option Int) (origSize index start : Int)
    (items : List (Option VirtualPositionItem)) (idxs : List Nat) (c k : Nat)
    (hck : c + k ≤ idxs.length)
    (h : ∀ j, j < k → slotAt items (idxs.getD (c + j) 0)
      = some (spanAt sizes origSize index start j)) :
    ((idxs.drop c).take k).map (slotAt items) = spanList sizes origSize index start k := by
  apply List.ext_getElem?
  intro j
  by_cases hj : j < k
  · rw [List.getElem?_map, List.getElem?_take_of_lt hj, List.getElem?_drop,
      getElem?_getD_of_lt _ _ (by omega), Option.map_some', h j hj,
      spanList_getElem? _ _ _ _ _ _ hj]
  · rw [List.getElem?_eq_none (by simp; omega),
      List.getElem?_eq_none (by simp [spanList]; omega)]


/-- Forward recombination of a contiguous window when no new span ends beyond
`realSize`: the old visual items from position `k` on, then the `k` new spans
that continue the last visible item, in the order rotated by `k`. -/
theorem recombineByOffset_forward_contiguous (dimension : DimensionSettingsState) (w : ViewportStateItems)
    (l : VirtualPositionItem) (k : Nat)
    (hcont : Contiguous w) (hlast : getLastItem w = some l)
    (hkn : k ≤ w.itemIndexes.length)
    (hreal : ∀ j, j < k →
      l.end_ + sizeSum dimension.sizes dimension.originItemSize (l.itemIndex + 1) (j + 1)
        ≤ dimension.realSize) :
    ∃ r, recombineByOffset ⟨dimension, true, k⟩ w = some (some r, r) ∧
      r.itemIndexes.length = w.itemIndexes.length ∧
      visual r = (visual w).drop k
        ++ spanList dimension.sizes dimension.originItemSize (l.itemIndex + 1) l.end_ k ∧
      (∀ j, j < k → slotAt r.items (w.itemIndexes.getD j 0)
        = some (spanAt dimension.sizes dimension.originItemSize (l.itemIndex + 1) l.end_ j)) ∧
      r.itemIndexes = w.itemIndexes.drop k ++ w.itemIndexes.take k := by
  have hnodup := nodup_of_contiguous w hcont
  obtain ⟨items', hloop, hnew, hold⟩ := forwardLoop_spec dimension w.itemIndexes
    (l.itemIndex + 1) l.end_ k 0 l w.items (by simp) (by simp [sizeSum])
    (fun j _ hj => hreal j (by omega))
    (fun j1 j2 _ h12 h2 => getD_ne_of_nodup _ hnodup j1 j2 h12 (by omega))
  refine ⟨⟨items', w.itemIndexes.drop k ++ w.itemIndexes.take k⟩, ?_, ?_, ?_, ?_, rfl⟩
  · have hgt : ¬ k > w.itemIndexes.length := by omega
    simp only [recombineByOffset, hgt, if_false, if_true, hlast, hloop]
  · simp; omega
  · show (w.itemIndexes.drop k ++ w.itemIndexes.take k).map (slotAt items') = _
    rw [List.map_append]
    congr 1
    · rw [visual, ← List.map_drop]
      apply List.map_congr_left
      intro s hs
      exact hold s (fun j _ hj => getD_not_mem_drop _ hnodup k j (by omega) s hs)
    · have := map_slotAt_eq_spanList dimension.sizes dimension.originItemSize
        (l.itemIndex + 1) l.end_ items' w.itemIndexes 0 k (by omega)
        (fun j hj => by rw [Nat.zero_add]; exact hnew j (Nat.zero_le _) (by omega))
      rwa [List.drop_zero] at this
  · intro j hj
    exact hnew j (Nat.zero_le _) (by omega)

/-- Claim C16 (forward recombination): for a contiguous window with last visible
item `l`, `offset ≤ n` (in particular `1 ≤ offset ≤ n`) and the positive direction, when none of the `offset`
new spans ends beyond `realSize`, `recombineByOffset` returns a window with the
same number of visible items whose visual sequence is the old visual items from
position `offset` on followed by the `offset` new spans that continue `l`
(span `j` has the item index `l.itemIndex + 1 + j`, the override or default
size, and starts where the span before it, or `l`, ends); span `j` is written
into the slot `itemIndexes[j]` of the old order, and the new order is the old
one with its first `offset` entries moved to the back. -/
theorem forward_recombination (dimension : DimensionSettingsState) (w : ViewportStateItems)
    (l : VirtualPositionItem) (k : Nat)
    (hcont : Contiguous w) (hlast : getLastItem w = some l)
    (hkn : k ≤ w.itemIndexes.length)
    (hreal : ∀ j, j < k →
      l.end_ + sizeSum dimension.sizes dimension.originItemSize (l.itemIndex + 1) (j + 1)
        ≤ dimension.realSize) :
    ∃ r, recombineByOffset ⟨dimension, true, k⟩ w = some (some r, r) ∧
      r.itemIndexes.length = w.itemIndexes.length ∧
      visual r = (visual w).drop k
        ++ spanList dimension.sizes dimension.originItemSize (l.itemIndex + 1) l.end_ k ∧
      (∀ j, j < k → slotAt r.items (w.itemIndexes.getD j 0)
        = some (spanAt dimension.sizes dimension.originItemSize (l.itemIndex + 1) l.end_ j)) ∧
      r.itemIndexes = w.itemIndexes.drop k ++ w.itemIndexes.take k ∧
      (∀ j, j < k →
        (spanAt dimension.sizes dimension.originItemSize (l.itemIndex + 1) l.end_ j).itemIndex
          = l.itemIndex + 1 + j ∧
        (spanAt dimension.sizes dimension.originItemSize (l.itemIndex + 1) l.end_ j).size
          = getItemSize (l.itemIndex + 1 + j) dimension.sizes dimension.originItemSize ∧
        (spanAt dimension.sizes dimension.originItemSize (l.itemIndex + 1) l.end_ j).end_
          = (spanAt dimension.sizes dimension.originItemSize (l.itemIndex + 1) l.end_ j).start
            + (spanAt dimension.sizes dimension.originItemSize (l.itemIndex + 1) l.end_ j).size ∧
        (spanAt dimension.sizes dimension.originItemSize (l.itemIndex + 1) l.end_ 0).start
          = l.end_ ∧
        (spanAt dimension.sizes dimension.originItemSize (l.itemIndex + 1) l.end_ (j + 1)).start
          = (spanAt dimension.sizes dimension.originItemSize (l.itemIndex + 1) l.end_ j).end_) := by
  obtain ⟨r, h1, h2, h3, h4, h5⟩ :=
    recombineByOffset_forward_contiguous dimension w l k hcont hlast hkn hreal
  refine ⟨r, h1, h2, h3, h4, h5, ?_⟩
  intro j _
  refine ⟨rfl, rfl, rfl, by simp [spanAt, sizeSum], by simp [spanAt, sizeSum, add_assoc]⟩

/-- Instance of `forward_recombination`: uniform size 20, the window of the items
0 to 5, offset 2. -/
theorem forward_recombination_witness :
    ∃ r, recombineByOffset ⟨uniformDimension 20 20000, true, 2⟩ (sixItems 0) = some (some r, r) ∧
      r.itemIndexes.length = (sixItems 0).itemIndexes.length ∧
      visual r = (visual (sixItems 0)).drop 2
        ++ spanList (uniformDimension 20 20000).sizes 20 (5 + 1) 120 2 ∧
      r.itemIndexes = [2, 3, 4, 5, 0, 1] :=
  match forward_recombination (uniformDimension 20 20000) (sixItems 0)
      { itemIndex := 5, start := 100, end_ := 120, size := 20 } 2
      (by decide) (by decide) (by decide) (by decide) with
  | ⟨r, h1, h2, h3, _, h5, _⟩ => ⟨r, h1, h2, h3, h5⟩

/-- Backward recombination of a contiguous window: the `k` new spans that end
where the first visible item starts, then the old visual items before position
`n - k`, in the order with the last `k` entries moved to the front. -/
theorem recombineByOffset_backward_contiguous (dimension : DimensionSettingsState) (w : ViewportStateItems)
    (f : VirtualPositionItem) (k : Nat)
    (hcont : Contiguous w) (hfirst : getFirstItem w = some f)
    (hk1 : 1 ≤ k) (hkn : k ≤ w.itemIndexes.length) :
    ∃ r, recombineByOffset ⟨dimension, false, k⟩ w = some (some r, r) ∧
      r.itemIndexes.length = w.itemIndexes.length ∧
      visual r
        = spanList dimension.sizes dimension.originItemSize (f.itemIndex - k)
            (f.start - sizeSum dimension.sizes dimension.originItemSize (f.itemIndex - k) k) k
          ++ (visual w).take (w.itemIndexes.length - k) ∧
      r.itemIndexes = w.itemIndexes.drop (w.itemIndexes.length - k)
        ++ w.itemIndexes.take (w.itemIndexes.length - k) := by
  have hnodup := nodup_of_contiguous w hcont
  obtain ⟨items', hloop, hnew, hold⟩ := backwardLoop_spec dimension w.itemIndexes
    (w.itemIndexes.length - k) (f.itemIndex - k)
    (f.start - sizeSum dimension.sizes dimension.originItemSize (f.itemIndex - k) k)
    k f w.items (by ring) (by ring)
    (fun j1 j2 h12 h2 => getD_ne_of_nodup _ hnodup _ _ (by omega) (by omega))
  refine ⟨⟨items', w.itemIndexes.drop (w.itemIndexes.length - k)
    ++ w.itemIndexes.take (w.itemIndexes.length - k)⟩, ?_, ?_, ?_, rfl⟩
  · have hgt : ¬ k > w.itemIndexes.length := by omega
    simp only [recombineByOffset, hgt, if_false, hfirst, Bool.false_eq_true, hloop]
    rw [rotate_back_eq _ _ hk1 hkn]
  · simp
  · show (w.itemIndexes.drop (w.itemIndexes.length - k)
      ++ w.itemIndexes.take (w.itemIndexes.length - k)).map (slotAt items') = _
    rw [List.map_append]
    congr 1
    · have := map_slotAt_eq_spanList dimension.sizes dimension.originItemSize
        (f.itemIndex - k)
        (f.start - sizeSum dimension.sizes dimension.originItemSize (f.itemIndex - k) k)
        items' w.itemIndexes (w.itemIndexes.length - k) k (by omega) hnew
      rwa [List.take_of_length_le (by rw [List.length_drop]; omega)] at this
    · rw [visual, ← List.map_take]
      apply List.map_congr_left
      intro s hs
      exact hold s (fun j hj => getD_not_mem_take _ hnodup _ j (by omega) s hs)

/-- Claim C17 (backward recombination): for a contiguous window with first
visible item `f`, `1 ≤ offset ≤ n` and the negative direction,
`recombineByOffset` returns a window with the same number of visible items whose
visual sequence is the `offset` new spans of the items `f.itemIndex - offset`,
..., `f.itemIndex - 1` (override or default sizes, each ending where the next
starts, the last ending at `f.start`) followed by the old visual items at the
positions before `n - offset`; the new order is the old one with its last
`offset` entries moved to the front, also when `offset = n`. -/
theorem backward_recombination (dimension : DimensionSettingsState) (w : ViewportStateItems)
    (f : VirtualPositionItem) (k : Nat)
    (hcont : Contiguous w) (hfirst : getFirstItem w = some f)
    (hk1 : 1 ≤ k) (hkn : k ≤ w.itemIndexes.length) :
    ∃ r, recombineByOffset ⟨dimension, false, k⟩ w = some (some r, r) ∧
      r.itemIndexes.length = w.itemIndexes.length ∧
      visual r
        = spanList dimension.sizes dimension.originItemSize (f.itemIndex - k)
            (f.start - sizeSum dimension.sizes dimension.originItemSize (f.itemIndex - k) k) k
          ++ (visual w).take (w.itemIndexes.length - k) ∧
      r.itemIndexes = w.itemIndexes.drop (w.itemIndexes.length - k)
        ++ w.itemIndexes.take (w.itemIndexes.length - k) ∧
      (∀ j, j < k →
        (spanAt dimension.sizes dimension.originItemSize (f.itemIndex - k)
          (f.start - sizeSum dimension.sizes dimension.originItemSize (f.itemIndex - k) k)
          j).itemIndex = f.itemIndex - k + j ∧
        (spanAt dimension.sizes dimension.originItemSize (f.itemIndex - k)
          (f.start - sizeSum dimension.sizes dimension.originItemSize (f.itemIndex - k) k)
          j).size = getItemSize (f.itemIndex - k + j) dimension.sizes dimension.originItemSize ∧
        (spanAt dimension.sizes dimension.originItemSize (f.itemIndex - k)
          (f.start - sizeSum dimension.sizes dimension.originItemSize (f.itemIndex - k) k)
          j).end_
          = (spanAt dimension.sizes dimension.originItemSize (f.itemIndex - k)
            (f.start - sizeSum dimension.sizes dimension.originItemSize (f.itemIndex - k) k)
            (j + 1)).start) ∧
      (spanAt dimension.sizes dimension.originItemSize (f.itemIndex - k)
        (f.start - sizeSum dimension.sizes dimension.originItemSize (f.itemIndex - k) k)
        k).start = f.start := by
  obtain ⟨r, h1, h2, h3, h4⟩ :=
    recombineByOffset_backward_contiguous dimension w f k hcont hfirst hk1 hkn
  refine ⟨r, h1, h2, h3, h4, ?_, ?_⟩
  · intro j _
    refine ⟨rfl, rfl, by simp [spanAt, sizeSum, add_assoc]⟩
  · simp [spanAt]

/-- Instance of `backward_recombination`: uniform size 20, the window of the
items 6 to 11, offset 6, the number of visible items. -/
theorem backward_recombination_witness :
    ∃ r, recombineByOffset ⟨uniformDimension 20 20000, false, 6⟩ (sixItems 6) = some (some r, r) ∧
      r.itemIndexes.length = (sixItems 6).itemIndexes.length ∧
      visual r
        = spanList (uniformDimension 20 20000).sizes 20 (6 - (6 : Nat))
            (120 - sizeSum (uniformDimension 20 20000).sizes 20 (6 - (6 : Nat)) 6) 6
          ++ (visual (sixItems 6)).take ((sixItems 6).itemIndexes.length - 6) ∧
      r.itemIndexes = [0, 1, 2, 3, 4, 5] :=
  match backward_recombination (uniformDimension 20 20000) (sixItems 6)
      { itemIndex := 6, start := 120, end_ := 140, size := 20 } 6
      (by decide) (by decide) (by decide) (by decide) with
  | ⟨r, h1, h2, h3, h4, _, _⟩ => ⟨r, h1, h2, h3, h4⟩


/-! ## The locator after an override item, and the budgets of the gap filler -/

theorem sizeSum_default (sizes : Int → Option Int) (origSize index : Int) (m : Nat)
    (h : ∀ j : Nat, j < m → getItemSize (index + j) sizes origSize = origSize) :
    sizeSum sizes origSize index m = m * origSize := by
  induction m with
  | zero => simp [sizeSum]
  | succ m ih =>
    rw [sizeSum, ih (fun j hj => h j (by omega)), h m (by omega)]
    push_cast; ring

/-- Claim C18 (locator, uniform run after an override): the dimension has
ascending boundaries, entry `i` is the override item `e`, which starts at boundary
`i` and has a positive size, the default size is positive, and the position `p`
is at or after the end of `e` and before the next boundary.  Then `getOffset`
returns the item `e.itemIndex + 1 + k` with `k = floor ((p - e.end) / size)`,
`start = e.end + k * size` and `end = start + size`, so that `start ≤ p < end`;
and when the items after `e` up to that item have the default size, this is the
true span of the item. -/
theorem getOffset_after_override (dimension : DimensionSettingsState) (p : Int) (i : Nat)
    (e : PositionItem) (hidx : dimension.indexes.length ≠ 0)
    (hsorted : ∀ a b, a ≤ b → b < dimension.positionIndexes.length →
      dimension.positionIndexes.getD a 0 ≤ dimension.positionIndexes.getD b 0)
    (hi : i < dimension.positionIndexes.length)
    (he : dimension.positionIndexToCoordinate[i]? = some e)
    (hstart : dimension.positionIndexes.getD i 0 = e.start)
    (hsize : e.start < e.end_)
    (hs : 0 < dimension.originItemSize)
    (hp : e.end_ ≤ p)
    (hnext : i + 1 < dimension.positionIndexes.length →
      p < dimension.positionIndexes.getD (i + 1) 0) :
    ∃ it, getOffset dimension p dimension.originItemSize = some it ∧
      it.itemIndex
        = e.itemIndex + 1 + ⌊((p - e.end_ : Int) : ℚ) / (dimension.originItemSize : ℚ)⌋ ∧
      it.start = e.end_
        + ⌊((p - e.end_ : Int) : ℚ) / (dimension.originItemSize : ℚ)⌋ * dimension.originItemSize ∧
      it.end_ = it.start + dimension.originItemSize ∧
      it.start ≤ p ∧ p < it.end_ ∧
      ((∀ j : Nat, (j : Int) ≤ (p - e.end_) / dimension.originItemSize →
          getItemSize (e.itemIndex + 1 + j) dimension.sizes dimension.originItemSize
            = dimension.originItemSize) →
        it.start = e.end_ + sizeSum dimension.sizes dimension.originItemSize (e.itemIndex + 1)
          ((p - e.end_) / dimension.originItemSize).toNat ∧
        it.end_ = it.start
          + getItemSize it.itemIndex dimension.sizes dimension.originItemSize) := by
  obtain ⟨hle, hlow, hhigh⟩ := sortedIndex_spec dimension.positionIndexes p hsorted
  have hplace : sortedIndex dimension.positionIndexes p = i + 1 := by
    rcases Nat.lt_trichotomy (sortedIndex dimension.positionIndexes p) (i + 1) with h | h | h
    · have := hhigh i (by omega) hi
      omega
    · exact h
    · have h3 := hlow (i + 1) h
      have h4 := hnext (by omega)
      omega
  have hdiv : Int.fdiv (p - e.end_) dimension.originItemSize
      = (p - e.end_) / dimension.originItemSize := Int.fdiv_eq_ediv _ hs.le
  have hfloor : ⌊((p - e.end_ : Int) : ℚ) / (dimension.originItemSize : ℚ)⌋
      = (p - e.end_) / dimension.originItemSize := by
    obtain ⟨n, hn⟩ := Int.eq_ofNat_of_zero_le hs.le
    rw [hn]
    exact Rat.floor_intCast_div_natCast (p - e.end_) n
  have h1 : (p - e.end_) / dimension.originItemSize * dimension.originItemSize ≤ p - e.end_ :=
    Int.ediv_mul_le _ (ne_of_gt hs)
  have h2 : p - e.end_ < ((p - e.end_) / dimension.originItemSize + 1) * dimension.originItemSize :=
    Int.lt_ediv_add_one_mul_self _ hs
  have h3 : 0 ≤ (p - e.end_) / dimension.originItemSize := Int.ediv_nonneg (by omega) hs.le
  have hnot : ¬ e.end_ > p := by omega
  refine ⟨{ itemIndex := e.itemIndex + 1 + (p - e.end_) / dimension.originItemSize
            start := e.end_ + (p - e.end_) / dimension.originItemSize * dimension.originItemSize
            end_ := e.end_ + (p - e.end_) / dimension.originItemSize * dimension.originItemSize
              + dimension.originItemSize }, ?_, ?_, ?_, rfl, ?_, ?_, ?_⟩
  · unfold getOffset
    simp only [hidx, ne_eq, not_false_eq_true, if_true, hplace, Nat.add_sub_cancel,
      Nat.add_one_ne_zero, if_false, he, hnot, hdiv]
  · rw [hfloor]
  · rw [hfloor]
  · show e.end_ + (p - e.end_) / dimension.originItemSize * dimension.originItemSize ≤ p
    linarith
  · show p < e.end_ + (p - e.end_) / dimension.originItemSize * dimension.originItemSize
      + dimension.originItemSize
    linarith
  · intro hdefault
    have hk : (((p - e.end_) / dimension.originItemSize).toNat : Int)
        = (p - e.end_) / dimension.originItemSize := Int.toNat_of_nonneg h3
    constructor
    · show e.end_ + (p - e.end_) / dimension.originItemSize * dimension.originItemSize = _
      rw [sizeSum_default _ _ _ _ (fun j hj => hdefault j (by omega)), hk]
    · show _ = _ + getItemSize (e.itemIndex + 1 + (p - e.end_) / dimension.originItemSize) _ _
      have := hdefault ((p - e.end_) / dimension.originItemSize).toNat (by omega)
      rw [hk] at this
      rw [this]

/-- Instance of `getOffset_after_override`: in `overrideDimension` (item 3 spans
`[60, 110)`) position 135 lies in item 5, which spans `[130, 150)`. -/
theorem getOffset_after_override_witness :
    getOffset overrideDimension 135 20 = some { itemIndex := 5, start := 130, end_ := 150 } ∧
    ∃ it, getOffset overrideDimension 135 overrideDimension.originItemSize = some it ∧
      it.itemIndex
        = 3 + 1 + ⌊((135 - 110 : Int) : ℚ) / (overrideDimension.originItemSize : ℚ)⌋ ∧
      it.start ≤ 135 ∧ 135 < it.end_ ∧
      it.start = 110 + sizeSum overrideDimension.sizes overrideDimension.originItemSize (3 + 1)
        ((135 - 110) / overrideDimension.originItemSize).toNat ∧
      it.end_ = it.start
        + getItemSize it.itemIndex overrideDimension.sizes overrideDimension.originItemSize :=
  ⟨by decide,
    match getOffset_after_override overrideDimension 135 0 ⟨3, 60, 110⟩ (by decide)
        (fun a b hab hb => by
          have hb0 : b = 0 := by
            have : b < 1 := hb
            omega
          have ha0 : a = 0 := by omega
          rw [ha0, hb0])
        (by decide) (by decide) (by decide) (by decide) (by decide) (by decide)
        (by decide) with
    | ⟨it, h1, h2, _, _, h5, h6, h7⟩ =>
      ⟨it, h1, h2, h5, h6, h7 (fun j _ => by
        have h : ¬ ((4 : Int) + (j : Int) = 3) := by omega
        simp [getItemSize, overrideDimension, h])⟩⟩


/-- Claim C19, as the code has it: the budgets of the gap filler.  For a window
with last visible item `l`, `addMissingItems` returns the run of `c` items that
starts right after `l` (item `l.itemIndex + 1` at pixel `l.end`), in the slots
`items.length, items.length + 1, ...`.  Every returned item starts within the
pixel budget `virtualSize - (l.end - firstItem.start)`, taken from the item
passed as `firstItem`.  The count budget comes from the axis, not from the number
of visible items: `c` is at most `realCount - l.itemIndex`, and when `c` is below
`realCount - 1 - l.itemIndex` the pixel budget is used up.  No item is returned
when the window extends beyond `virtualSize` or when `l.itemIndex ≥ realCount`. -/
theorem addMissingItems_budgets (firstItem : PositionItem) (realCount virtualSize : Int)
    (w : ViewportStateItems) (dimension : DimensionSettingsState) (l : VirtualPositionItem)
    (hlast : getLastItem w = some l) :
    ∃ c : Nat,
      addMissingItems firstItem realCount virtualSize w dimension
        = some { items := spanList dimension.sizes dimension.originItemSize
                   (l.itemIndex + 1) l.end_ c
                 itemIndexes := (List.range c).map (fun j => w.items.length + j) } ∧
      (c : Int) ≤ max (realCount - l.itemIndex) 0 ∧
      (∀ j, j < c →
        sizeSum dimension.sizes dimension.originItemSize (l.itemIndex + 1) j
          ≤ virtualSize - (l.end_ - firstItem.start)) ∧
      ((c : Int) < realCount - 1 - l.itemIndex →
        virtualSize - (l.end_ - firstItem.start)
          < sizeSum dimension.sizes dimension.originItemSize (l.itemIndex + 1) c) ∧
      (virtualSize < l.end_ - firstItem.start → c = 0) ∧
      (realCount ≤ l.itemIndex → c = 0) := by
  obtain ⟨hw, hle, hin, hout⟩ := getItems_spec
    { sizes := dimension.sizes
      start := l.end_
      startIndex := l.itemIndex + 1
      origSize := dimension.originItemSize
      maxSize := virtualSize - (l.end_ - firstItem.start)
      maxCount := realCount - l.itemIndex }
  simp only [] at hle hin hout
  refine ⟨itemCount
    { sizes := dimension.sizes
      start := l.end_
      startIndex := l.itemIndex + 1
      origSize := dimension.originItemSize
      maxSize := virtualSize - (l.end_ - firstItem.start)
      maxCount := realCount - l.itemIndex }, ?_, by omega, hin, fun h => hout (by omega), ?_, ?_⟩
  · unfold addMissingItems
    rw [hlast]
    simp only []
    rw [hw]
    simp only [spanList_length, range]
  · intro hv
    by_contra hc
    have := hin 0 (by omega)
    simp only [sizeSum] at this
    omega
  · intro hr
    have : (realCount - l.itemIndex).toNat = 0 := by omega
    omega

/-- Instance of `addMissingItems_budgets`: the recombined window `rotatedWindow`,
whose last visible item is item 6. -/
theorem addMissingItems_budgets_witness :
    ∃ c : Nat,
      addMissingItems ⟨1, 20, 40⟩ 1000 100 rotatedWindow (uniformDimension 20 20000)
        = some { items := spanList (uniformDimension 20 20000).sizes 20 (6 + 1) 140 c
                 itemIndexes := (List.range c).map (fun j => rotatedWindow.items.length + j) } ∧
      ((100 : Int) < 140 - 20 → c = 0) :=
  match addMissingItems_budgets ⟨1, 20, 40⟩ 1000 100 rotatedWindow (uniformDimension 20 20000)
      { itemIndex := 6, start := 120, end_ := 140, size := 20 } (by decide) with
  | ⟨c, h1, _, _, _, h5, _⟩ => ⟨c, h1, h5⟩

/-- Claim C19, as stated, fails.  For the window of the six items 10 to 15 with
`realCount = 20` and `virtualSize = 1000`, `addMissingItems` returns the five
items 16 to 20 (count budget `realCount - lastItem.itemIndex = 5`); the builder
with the count budget `realCount - v = 14` of the claim makes the fourteen items
16 to 29. -/
theorem addMissingItems_count_budget :
    addMissingItems ⟨10, 200, 220⟩ 20 1000 (sixItems 10) (uniformDimension 20 400)
      = some { items := spanList (uniformDimension 20 400).sizes 20 16 320 5
               itemIndexes := [6, 7, 8, 9, 10] } ∧
    (getItems ⟨(uniformDimension 20 400).sizes, 320, 16, 20, 1000 - (320 - 200), 20 - 6⟩ 0).items
      = spanList (uniformDimension 20 400).sizes 20 16 320 14 ∧
    spanList (uniformDimension 20 400).sizes 20 16 320 5
      ≠ spanList (uniformDimension 20 400).sizes 20 16 320 14 := by
  decide


/-! ## Item indexes are not negative -/

theorem slotAt_mem (items : List (Option VirtualPositionItem)) (k : Nat)
    (it : VirtualPositionItem) (h : slotAt items k = some it) : some it ∈ items := by
  unfold slotAt at h
  rw [List.getD_eq_getElem?_getD] at h
  cases hk : items[k]? with
  | none => rw [hk] at h; simp at h
  | some o =>
    rw [hk] at h
    simp only [Option.getD_some] at h
    rw [← h]
    exact List.getElem?_mem hk

theorem getFirstItem_mem (w : ViewportStateItems) (it : VirtualPositionItem)
    (h : getFirstItem w = some it) : some it ∈ w.items := by
  unfold getFirstItem at h
  cases hk : w.itemIndexes.head? with
  | none => rw [hk] at h; simp at h
  | some k => rw [hk] at h; exact slotAt_mem _ _ _ h

theorem getLastItem_mem (w : ViewportStateItems) (it : VirtualPositionItem)
    (h : getLastItem w = some it) : some it ∈ w.items := by
  unfold getLastItem at h
  cases hk : w.itemIndexes.getLast? with
  | none => rw [hk] at h; simp at h
  | some k => rw [hk] at h; exact slotAt_mem _ _ _ h

theorem itemIndex_of_mem_spanList (sizes : Int → Option Int) (origSize index start : Int)
    (n : Nat) (it : VirtualPositionItem) (h : some it ∈ spanList sizes origSize index start n) :
    index ≤ it.itemIndex := by
  simp only [spanList, List.mem_map, List.mem_range, Option.some.injEq] at h
  obtain ⟨j, -, rfl⟩ := h
  simp only [spanAt]
  omega

/-- For a position that is not negative, a positive default size and override
entries with non-negative item indexes, the located item has a non-negative item
index. -/
theorem getOffset_itemIndex_nonneg (dimension : DimensionSettingsState) (pos : Int)
    (target : PositionItem) (hpos : 0 ≤ pos) (hs : 0 < dimension.originItemSize)
    (hdim : ∀ e, e ∈ dimension.positionIndexToCoordinate → 0 ≤ e.itemIndex)
    (h : getOffset dimension pos dimension.originItemSize = some target) :
    0 ≤ target.itemIndex := by
  unfold getOffset at h
  simp only [] at h
  generalize (if dimension.indexes.length ≠ 0 then sortedIndex dimension.positionIndexes pos
    else 0) = place at h
  by_cases hplace : place = 0
  · rw [if_pos hplace] at h
    cases h
    exact Int.fdiv_nonneg hpos hs.le
  · rw [if_neg hplace] at h
    cases he : dimension.positionIndexToCoordinate[place - 1]? with
    | none => rw [he] at h; simp at h
    | some e =>
      rw [he] at h
      simp only [] at h
      have hmem := hdim e (List.getElem?_mem he)
      by_cases hin : e.end_ > pos
      · rw [if_pos hin] at h
        cases h; exact hmem
      · rw [if_neg hin] at h
        cases h
        have := @Int.fdiv_nonneg (pos - e.end_) dimension.originItemSize (by omega) hs.le
        show 0 ≤ e.itemIndex + 1 + Int.fdiv (pos - e.end_) dimension.originItemSize
        omega

/-- Claim C20 (no negative item index through the orchestrator): for a position
that is not negative, a positive default size, override entries with non-negative
item indexes and a previous window whose items all have a non-negative item
index, every item of the window that `getUpdatedItemsByPosition` returns has a
non-negative item index; the located item has one, and a backward recombination
is invoked with an offset that is at most the item index of the first visible
item, so that its lowest new index is the index of the located item. -/
theorem itemIndex_nonneg (pos realCount virtualSize : Int)
    (dimension : DimensionSettingsState) (w r st : ViewportStateItems)
    (hpos : 0 ≤ pos) (hs : 0 < dimension.originItemSize)
    (hdim : ∀ e, e ∈ dimension.positionIndexToCoordinate → 0 ≤ e.itemIndex)
    (hw : ∀ it, some it ∈ w.items → 0 ≤ it.itemIndex)
    (h : getUpdatedItemsByPosition pos w realCount virtualSize dimension = some (r, st)) :
    (∀ it, some it ∈ r.items → 0 ≤ it.itemIndex) ∧
    ∃ target, getOffset dimension pos dimension.originItemSize = some target ∧
      0 ≤ target.itemIndex ∧
      ∀ f, getFirstItem w = some f → target.itemIndex < f.itemIndex →
        ((target.itemIndex - f.itemIndex).natAbs : Int) ≤ f.itemIndex ∧
        f.itemIndex - ((target.itemIndex - f.itemIndex).natAbs : Int) = target.itemIndex := by
  obtain ⟨target, hoff, hcase⟩ := getUpdatedItemsByPosition_cases _ _ _ _ _ _ _ h
  have ht := getOffset_itemIndex_nonneg dimension pos target hpos hs hdim hoff
  refine ⟨?_, target, hoff, ht, fun f _ hlt => ⟨by omega, by omega⟩⟩
  rcases hcase with ⟨hr, -⟩ | ⟨f, extra, hfirst, hshift, hrec, hadd, hr⟩
  · intro it hit
    rw [hr, rebuild] at hit
    obtain ⟨hspec, -, -, -⟩ := getItems_spec
      { sizes := dimension.sizes
        start := target.start
        startIndex := target.itemIndex
        origSize := dimension.originItemSize
        maxSize := virtualSize
        maxCount := realCount }
    rw [hspec] at hit
    have := itemIndex_of_mem_spanList _ _ _ _ _ _ hit
    simp only [] at this
    omega
  · have hf := hw f (getFirstItem_mem w f hfirst)
    have hst : ∀ it, some it ∈ st.items → 0 ≤ it.itemIndex := by
      rcases recombineByOffset_cases _ _ _ _ hrec with ⟨-, hres, -⟩ | ⟨hle, -, hdir⟩
      · cases hres
      · simp only [] at hle hdir
        have hk1 : 0 < (target.itemIndex - f.itemIndex).natAbs := Int.natAbs_pos.2 hshift
        rcases hdir with ⟨-, hloop, -⟩ | ⟨hneg, hloop, -⟩
        · cases hlast : getLastItem w with
          | none =>
            rw [hlast] at hloop
            obtain ⟨m, hm⟩ : ∃ m, (target.itemIndex - f.itemIndex).natAbs = m + 1 :=
              ⟨(target.itemIndex - f.itemIndex).natAbs - 1, by omega⟩
            rw [hm, forwardLoop] at hloop
            cases hloop
          | some l =>
            rw [hlast] at hloop
            exact forwardLoop_nonneg _ _ _ _ l _ _ (hw l (getLastItem_mem w l hlast)) hw hloop
        · rw [hfirst] at hloop
          have hdec : ¬ (target.itemIndex - f.itemIndex > -1) := by
            simpa using hneg
          exact backwardLoop_nonneg _ _ _ _ f _ _ (by omega) hw hloop
    intro it hit
    rw [hr] at hit
    split at hit
    · simp only [List.mem_append] at hit
      rcases hit with hit | hit
      · exact hst it hit
      · unfold addMissingItems at hadd
        cases hlast : getLastItem st with
        | none => rw [hlast] at hadd; simp at hadd
        | some l =>
          rw [hlast] at hadd
          cases hadd
          obtain ⟨hspec, -, -, -⟩ := getItems_spec
            { sizes := dimension.sizes
              start := l.end_
              startIndex := l.itemIndex + 1
              origSize := dimension.originItemSize
              maxSize := virtualSize - (l.end_ - target.start)
              maxCount := realCount - l.itemIndex }
          simp only [] at hit
          rw [hspec] at hit
          have h1 := itemIndex_of_mem_spanList _ _ _ _ _ _ hit
          have h2 := hst l (getLastItem_mem st l hlast)
          simp only [] at h1
          omega
    · exact hst it hit

/-- Instance of `itemIndex_nonneg`: the backward recombination at position 5 with
the window of the items 1 to 6. -/
theorem itemIndex_nonneg_witness :
    (∀ it, some it ∈ backwardWindow.items → 0 ≤ it.itemIndex) ∧
    ∃ target, getOffset (uniformDimension 20 20000) 5 20 = some target ∧
      0 ≤ target.itemIndex ∧
      ∀ f, getFirstItem (sixItems 1) = some f → target.itemIndex < f.itemIndex →
        ((target.itemIndex - f.itemIndex).natAbs : Int) ≤ f.itemIndex ∧
        f.itemIndex - ((target.itemIndex - f.itemIndex).natAbs : Int) = target.itemIndex :=
  itemIndex_nonneg 5 1000 100 (uniformDimension 20 20000) (sixItems 1) backwardWindow
    backwardWindow (by decide) (by decide) (fun e he => by simp [uniformDimension] at he)
    (fun it hit =>
      (by decide : ∀ o ∈ (sixItems 1).items, ∀ it ∈ o, (0 : Int) ≤ it.itemIndex) _ hit it rfl)
    (by decide)


/-! ## The first visible item after a recombination -/

theorem getFirstItem_eq_slot (w : ViewportStateItems) (hn : 0 < w.itemIndexes.length) :
    getFirstItem w = slotAt w.items (w.itemIndexes.getD 0 0) := by
  unfold getFirstItem
  rw [List.head?_eq_getElem?, getElem?_getD_of_lt _ _ hn]

theorem getLastItem_eq_slot (w : ViewportStateItems) (hn : 0 < w.itemIndexes.length) :
    getLastItem w = slotAt w.items (w.itemIndexes.getD (w.itemIndexes.length - 1) 0) := by
  unfold getLastItem
  rw [List.getLast?_eq_getElem?, getElem?_getD_of_lt _ _ (by omega)]

/-- In a contiguous window every visible item is present, and the item at visual
position `j` has the item index of the first visible item plus `j`. -/
theorem contiguous_from_first (w : ViewportStateItems) (f : VirtualPositionItem)
    (hcont : Contiguous w) (hfirst : getFirstItem w = some f) :
    ∀ j, j < w.itemIndexes.length →
      ∃ it, slotAt w.items (w.itemIndexes.getD j 0) = some it ∧ it.itemIndex = f.itemIndex + j := by
  have hn : 0 < w.itemIndexes.length := by
    by_contra h0
    have : w.itemIndexes = [] := List.length_eq_zero.1 (by omega)
    rw [getFirstItem, this] at hfirst
    simp at hfirst
  rw [getFirstItem_eq_slot w hn] at hfirst
  by_cases h2 : 2 ≤ w.itemIndexes.length
  · obtain ⟨base, hb⟩ := contiguous_itemIndex w hcont h2
    obtain ⟨it0, h0, hi0⟩ := hb 0 hn
    rw [hfirst] at h0
    cases h0
    intro j hj
    obtain ⟨it, h1, h2⟩ := hb j hj
    exact ⟨it, h1, by simp at hi0; omega⟩
  · intro j hj
    have : j = 0 := by omega
    subst this
    exact ⟨f, hfirst, by simp⟩

theorem getFirstItem_append (r0 : ViewportStateItems) (it : VirtualPositionItem)
    (xs : List (Option VirtualPositionItem)) (ys : List Nat)
    (h : getFirstItem r0 = some it) :
    getFirstItem { items := r0.items ++ xs, itemIndexes := r0.itemIndexes ++ ys } = some it := by
  unfold getFirstItem at h ⊢
  cases hk : r0.itemIndexes.head? with
  | none => rw [hk] at h; simp at h
  | some k0 =>
    rw [hk] at h
    simp only [] at h
    have hne : r0.itemIndexes ≠ [] := by
      intro hnil; rw [hnil] at hk; simp at hk
    have hhead : (r0.itemIndexes ++ ys).head? = some k0 := by
      rw [List.head?_append_of_ne_nil _ hne, hk]
    simp only [hhead]
    have hin : k0 < r0.items.length := by
      by_contra hge
      simp only [slotAt, List.getD_eq_getElem?_getD] at h
      rw [List.getElem?_eq_none (by omega)] at h
      simp at h
    rw [← h]
    simp only [slotAt, List.getD_eq_getElem?_getD]
    rw [List.getElem?_append_left hin]


/-! ## The slots a recombination writes -/

/-- Forward loop of `recombineByOffset` in general, when the slots it may write
are pairwise distinct: it writes the first `c` spans of the run that continues
the last item, where `c` counts the iterations before the loop ends or breaks
(it breaks when span `c` would end beyond `realSize`), and no other slot
changes. -/
theorem forwardLoop_prefix (dimension : DimensionSettingsState) (idxs : List Nat) (bi bs : Int) :
    ∀ (left i : Nat) (last : VirtualPositionItem) (items : List (Option VirtualPositionItem)),
      last.itemIndex + 1 = bi + i →
      last.end_ = bs + sizeSum dimension.sizes dimension.originItemSize bi i →
      (∀ j1 j2, i ≤ j1 → j1 < j2 → j2 < i + left → idxs.getD j1 0 ≠ idxs.getD j2 0) →
      ∃ c items', c ≤ left ∧
        forwardLoop dimension idxs left i (some last) items = some items' ∧
        (∀ j, i ≤ j → j < i + c →
          bs + sizeSum dimension.sizes dimension.originItemSize bi (j + 1)
            ≤ dimension.realSize) ∧
        (c < left →
          dimension.realSize
            < bs + sizeSum dimension.sizes dimension.originItemSize bi (i + c + 1)) ∧
        (∀ j, i ≤ j → j < i + c →
          slotAt items' (idxs.getD j 0)
            = some (spanAt dimension.sizes dimension.originItemSize bi bs j)) ∧
        (∀ k, (∀ j, i ≤ j → j < i + c → idxs.getD j 0 ≠ k) →
          slotAt items' k = slotAt items k) := by
  intro left
  induction left with
  | zero =>
    intro i last items _ _ _
    exact ⟨0, items, le_refl _, rfl, by intro j h1 h2; omega, by intro h; omega,
      by intro j h1 h2; omega, fun _ _ => rfl⟩
  | succ left ih =>
    intro i last items hidx hend hdist
    have hsz : getItemSize (last.itemIndex + 1) dimension.sizes dimension.originItemSize
        = getItemSize (bi + i) dimension.sizes dimension.originItemSize := by rw [hidx]
    by_cases hb : last.end_ + getItemSize (last.itemIndex + 1) dimension.sizes
        dimension.originItemSize > dimension.realSize
    · refine ⟨0, items, Nat.zero_le _, ?_, by intro j h1 h2; omega, ?_,
        by intro j h1 h2; omega, fun _ _ => rfl⟩
      · rw [forwardLoop]
        simp only [hb, if_true]
      · intro _
        rw [Nat.add_zero, sizeSum]
        rw [hsz, hend] at hb
        omega
    · have hitem : VirtualPositionItem.mk (last.itemIndex + 1) last.end_
          (last.end_ + getItemSize (last.itemIndex + 1) dimension.sizes dimension.originItemSize)
          (getItemSize (last.itemIndex + 1) dimension.sizes dimension.originItemSize)
          = spanAt dimension.sizes dimension.originItemSize bi bs i := by
        simp only [spanAt, hsz, hend, hidx]
      obtain ⟨c, items', hc, hrun, hfit, hstop, hnew, hold⟩ := ih (i + 1)
        (spanAt dimension.sizes dimension.originItemSize bi bs i)
        (setSlot items (idxs.getD i 0) (spanAt dimension.sizes dimension.originItemSize bi bs i))
        (by simp only [spanAt]; push_cast; ring)
        (by simp only [spanAt, sizeSum]; ring)
        (fun j1 j2 h1 h2 h3 => hdist j1 j2 (by omega) h2 (by omega))
      refine ⟨c + 1, items', by omega, ?_, ?_, ?_, ?_, ?_⟩
      · rw [forwardLoop]
        simp only [hb, if_false]
        rw [hitem]
        exact hrun
      · intro j h1 h2
        rcases Nat.eq_or_lt_of_le h1 with h | h
        · subst h
          rw [sizeSum]
          rw [hsz, hend] at hb
          omega
        · exact hfit j (by omega) (by omega)
      · intro hlt
        have := hstop (by omega)
        rwa [show i + (c + 1) + 1 = i + 1 + c + 1 by omega]
      · intro j h1 h2
        rcases Nat.eq_or_lt_of_le h1 with h | h
        · subst h
          rw [hold _ (fun j' h1' h2' => (hdist i j' (le_refl _) (by omega) (by omega)).symm)]
          rw [slotAt_setSlot]; simp
        · exact hnew j (by omega) (by omega)
      · intro k hk
        rw [hold k (fun j h1 h2 => hk j (by omega) (by omega))]
        rw [slotAt_setSlot]
        have := hk i (le_refl _) (by omega)
        rw [if_neg (fun h => this h.symm)]

/-- Forward recombination of a window whose order has no repeated slot: the
order is rotated by the full offset `k`, the first `c ≤ k` new spans that
continue the last visible item are written into the slots of the first `c`
visual positions, where `c < k` only when span `c` would end beyond `realSize`,
and every other slot holds what it held before. -/
theorem recombineByOffset_forward_slots (dimension : DimensionSettingsState)
    (w : ViewportStateItems) (l : VirtualPositionItem) (k : Nat)
    (hnodup : w.itemIndexes.Nodup) (hlast : getLastItem w = some l)
    (hkn : k ≤ w.itemIndexes.length) :
    ∃ c st, c ≤ k ∧ recombineByOffset ⟨dimension, true, k⟩ w = some (some st, st) ∧
      st.itemIndexes = w.itemIndexes.drop k ++ w.itemIndexes.take k ∧
      (∀ j, j < c →
        l.end_ + sizeSum dimension.sizes dimension.originItemSize (l.itemIndex + 1) (j + 1)
          ≤ dimension.realSize) ∧
      (c < k →
        dimension.realSize
          < l.end_ + sizeSum dimension.sizes dimension.originItemSize (l.itemIndex + 1) (c + 1)) ∧
      (∀ j, j < c → slotAt st.items (w.itemIndexes.getD j 0)
        = some (spanAt dimension.sizes dimension.originItemSize (l.itemIndex + 1) l.end_ j)) ∧
      (∀ s, (∀ j, j < c → w.itemIndexes.getD j 0 ≠ s) →
        slotAt st.items s = slotAt w.items s) := by
  obtain ⟨c, items', hc, hloop, hfit, hstop, hnew, hold⟩ := forwardLoop_prefix dimension
    w.itemIndexes (l.itemIndex + 1) l.end_ k 0 l w.items (by simp) (by simp [sizeSum])
    (fun j1 j2 _ h12 h2 => getD_ne_of_nodup _ hnodup j1 j2 h12 (by omega))
  refine ⟨c, ⟨items', w.itemIndexes.drop k ++ w.itemIndexes.take k⟩, hc, ?_, rfl, ?_, ?_, ?_, ?_⟩
  · have hgt : ¬ k > w.itemIndexes.length := by omega
    simp only [recombineByOffset, hgt, if_false, if_true, hlast, hloop]
  · intro j hj
    exact hfit j (Nat.zero_le _) (by omega)
  · intro hck
    have := hstop hck
    rwa [Nat.zero_add] at this
  · intro j hj
    exact hnew j (Nat.zero_le _) (by omega)
  · intro s hs
    exact hold s (fun j _ hj => hs j (by omega))

/-- Backward recombination of a window whose order has no repeated slot: the last
`k` entries of the order move to the front, the `k` spans that precede the first
visible item are written into the slots of the last `k` visual positions, and
every other slot holds what it held before. -/
theorem recombineByOffset_backward_slots (dimension : DimensionSettingsState)
    (w : ViewportStateItems) (f : VirtualPositionItem) (k : Nat)
    (hnodup : w.itemIndexes.Nodup) (hfirst : getFirstItem w = some f)
    (hk1 : 1 ≤ k) (hkn : k ≤ w.itemIndexes.length) :
    ∃ st, recombineByOffset ⟨dimension, false, k⟩ w = some (some st, st) ∧
      st.itemIndexes = w.itemIndexes.drop (w.itemIndexes.length - k)
        ++ w.itemIndexes.take (w.itemIndexes.length - k) ∧
      (∀ j, j < k → slotAt st.items (w.itemIndexes.getD (w.itemIndexes.length - k + j) 0)
        = some (spanAt dimension.sizes dimension.originItemSize (f.itemIndex - k)
            (f.start - sizeSum dimension.sizes dimension.originItemSize (f.itemIndex - k) k) j)) ∧
      (∀ s, (∀ j, j < k → w.itemIndexes.getD (w.itemIndexes.length - k + j) 0 ≠ s) →
        slotAt st.items s = slotAt w.items s) := by
  obtain ⟨items', hloop, hnew, hold⟩ := backwardLoop_spec dimension w.itemIndexes
    (w.itemIndexes.length - k) (f.itemIndex - k)
    (f.start - sizeSum dimension.sizes dimension.originItemSize (f.itemIndex - k) k)
    k f w.items (by ring) (by ring)
    (fun j1 j2 h12 h2 => getD_ne_of_nodup _ hnodup _ _ (by omega) (by omega))
  refine ⟨⟨items', w.itemIndexes.drop (w.itemIndexes.length - k)
    ++ w.itemIndexes.take (w.itemIndexes.length - k)⟩, ?_, rfl, hnew, hold⟩
  have hgt : ¬ k > w.itemIndexes.length := by omega
  simp only [recombineByOffset, hgt, if_false, hfirst, Bool.false_eq_true, hloop]
  rw [rotate_back_eq _ _ hk1 hkn]

/-! ## The window starts at the located item -/

/-- Claim C15 (window starts at the target): for every contiguous previous window
with `n ≥ 1` visible items (first visible item `f`, last visible item `l`) and
every position whose located item has a non-zero index shift of magnitude at most
`n`, forward or backward, `getUpdatedItemsByPosition` returns a window through
the recombination path: `recombineByOffset` returns a window, to whose copy only
the items of the gap filler are appended, and the first visible item of the
returned window has the item index of the located item.  The located item is an
item of the axis: when it is the item right after `l` (a forward shift of `n`),
its span ends within `realSize`. -/
theorem first_visible_is_target (pos realCount virtualSize : Int)
    (dimension : DimensionSettingsState) (w : ViewportStateItems)
    (f l : VirtualPositionItem) (target : PositionItem)
    (hcont : Contiguous w) (hfirst : getFirstItem w = some f) (hlast : getLastItem w = some l)
    (hoff : getOffset dimension pos dimension.originItemSize = some target)
    (hshift : target.itemIndex - f.itemIndex ≠ 0)
    (hmag : (target.itemIndex - f.itemIndex).natAbs ≤ w.itemIndexes.length)
    (hreal : target.itemIndex = l.itemIndex + 1 →
      l.end_ + getItemSize (l.itemIndex + 1) dimension.sizes dimension.originItemSize
        ≤ dimension.realSize) :
    ∃ r st it, getUpdatedItemsByPosition pos w realCount virtualSize dimension = some (r, st) ∧
      recombineByOffset ⟨dimension, decide (target.itemIndex - f.itemIndex > -1),
        (target.itemIndex - f.itemIndex).natAbs⟩ w = some (some st, st) ∧
      st.items <+: r.items ∧ st.itemIndexes <+: r.itemIndexes ∧
      getFirstItem r = some it ∧ it.itemIndex = target.itemIndex := by
  have hk1 : 0 < (target.itemIndex - f.itemIndex).natAbs := Int.natAbs_pos.2 hshift
  have hn : 0 < w.itemIndexes.length := by omega
  have hnodup := nodup_of_contiguous w hcont
  have hpres := contiguous_from_first w f hcont hfirst
  have hlidx : l.itemIndex = f.itemIndex + ((w.itemIndexes.length - 1 : Nat) : Int) := by
    obtain ⟨it, h1, h2⟩ := hpres (w.itemIndexes.length - 1) (by omega)
    rw [getLastItem_eq_slot w hn, h1] at hlast
    cases hlast
    exact h2
  -- the recombined window, its first and its last visible item
  have hrec : ∃ r0 it0 l0, recombineByOffset ⟨dimension,
        decide (target.itemIndex - f.itemIndex > -1),
        (target.itemIndex - f.itemIndex).natAbs⟩ w = some (some r0, r0) ∧
      getFirstItem r0 = some it0 ∧ it0.itemIndex = target.itemIndex ∧
      getLastItem r0 = some l0 := by
    by_cases hdir : f.itemIndex < target.itemIndex
    · have hpos : decide (target.itemIndex - f.itemIndex > -1) = true := by
        simp only [decide_eq_true_eq]; omega
      obtain ⟨c, r0, hck, h1, h2, -, hstop, hnew, hold⟩ := recombineByOffset_forward_slots
        dimension w l (target.itemIndex - f.itemIndex).natAbs hnodup hlast hmag
      have hlen0 : r0.itemIndexes.length = w.itemIndexes.length := by
        rw [h2]; simp; omega
      have hfirst0 : getFirstItem r0 = slotAt r0.items (r0.itemIndexes.getD 0 0) :=
        getFirstItem_eq_slot r0 (by omega)
      have hlast0 : getLastItem r0
          = slotAt r0.items (r0.itemIndexes.getD (w.itemIndexes.length - 1) 0) := by
        rw [getLastItem_eq_slot r0 (by omega), hlen0]
      have hl0 : ∃ l0, getLastItem r0 = some l0 := by
        rw [hlast0, h2, getD_rotate _ _ _ hmag (by omega), if_neg (by omega)]
        by_cases hw : (target.itemIndex - f.itemIndex).natAbs - 1 < c
        · have e : w.itemIndexes.length - 1
              - (w.itemIndexes.length - (target.itemIndex - f.itemIndex).natAbs)
              = (target.itemIndex - f.itemIndex).natAbs - 1 := by omega
          rw [e, hnew _ hw]
          exact ⟨_, rfl⟩
        · have e : w.itemIndexes.length - 1
              - (w.itemIndexes.length - (target.itemIndex - f.itemIndex).natAbs)
              = (target.itemIndex - f.itemIndex).natAbs - 1 := by omega
          rw [e, hold _ (fun j hj => getD_ne_of_nodup _ hnodup j _ (by omega) (by omega))]
          obtain ⟨it, hit, -⟩ := hpres ((target.itemIndex - f.itemIndex).natAbs - 1) (by omega)
          exact ⟨it, hit⟩
      obtain ⟨l0, hl0⟩ := hl0
      by_cases hkn : (target.itemIndex - f.itemIndex).natAbs < w.itemIndexes.length
      · obtain ⟨it, hit1, hit2⟩ := hpres _ hkn
        refine ⟨r0, it, l0, by rw [hpos]; exact h1, ?_, by omega, hl0⟩
        rw [hfirst0, h2, getD_rotate _ _ _ hmag hn, if_pos (by omega), Nat.add_zero,
          hold _ (fun j hj => getD_ne_of_nodup _ hnodup j _ (by omega) hkn), hit1]
      · have hc1 : 0 < c := by
          by_contra hc0
          have hc : c = 0 := by omega
          have h3 := hstop (by omega)
          rw [hc, Nat.zero_add, sizeSum, sizeSum] at h3
          have h4 := hreal (by omega)
          simp only [Nat.cast_zero, add_zero] at h3
          omega
        refine ⟨r0, spanAt dimension.sizes dimension.originItemSize (l.itemIndex + 1) l.end_ 0,
          l0, by rw [hpos]; exact h1, ?_, ?_, hl0⟩
        · rw [hfirst0, h2, getD_rotate _ _ _ hmag hn, if_neg (by omega)]
          have h0 : 0 - (w.itemIndexes.length - (target.itemIndex - f.itemIndex).natAbs) = 0 := by
            omega
          rw [h0, hnew 0 hc1]
        · simp only [spanAt]
          omega
    · have hneg : decide (target.itemIndex - f.itemIndex > -1) = false := by
        simp only [decide_eq_false_iff_not]; omega
      obtain ⟨r0, h1, h2, hnew, hold⟩ := recombineByOffset_backward_slots dimension w f
        (target.itemIndex - f.itemIndex).natAbs hnodup hfirst hk1 hmag
      have hlen0 : r0.itemIndexes.length = w.itemIndexes.length := by
        rw [h2]; simp
      have hfirst0 : getFirstItem r0 = slotAt r0.items (r0.itemIndexes.getD 0 0) :=
        getFirstItem_eq_slot r0 (by omega)
      have hlast0 : getLastItem r0
          = slotAt r0.items (r0.itemIndexes.getD (w.itemIndexes.length - 1) 0) := by
        rw [getLastItem_eq_slot r0 (by omega), hlen0]
      have hl0 : ∃ l0, getLastItem r0 = some l0 := by
        rw [hlast0, h2, getD_rotate _ _ _ (by omega) (by omega)]
        by_cases hall : (target.itemIndex - f.itemIndex).natAbs = w.itemIndexes.length
        · rw [if_pos (by omega)]
          have e : w.itemIndexes.length - (target.itemIndex - f.itemIndex).natAbs
              + (w.itemIndexes.length - 1)
              = w.itemIndexes.length - (target.itemIndex - f.itemIndex).natAbs
                + ((target.itemIndex - f.itemIndex).natAbs - 1) := by omega
          rw [e, hnew _ (by omega)]
          exact ⟨_, rfl⟩
        · rw [if_neg (by omega)]
          have e : w.itemIndexes.length - 1 - (w.itemIndexes.length
              - (w.itemIndexes.length - (target.itemIndex - f.itemIndex).natAbs))
              = w.itemIndexes.length - 1 - (target.itemIndex - f.itemIndex).natAbs := by omega
          rw [e, hold _ (fun j hj =>
            (getD_ne_of_nodup _ hnodup _ _ (by omega) (by omega)).symm)]
          obtain ⟨it, hit1, -⟩ := hpres (w.itemIndexes.length - 1
            - (target.itemIndex - f.itemIndex).natAbs) (by omega)
          exact ⟨it, hit1⟩
      obtain ⟨l0, hl0⟩ := hl0
      refine ⟨r0, spanAt dimension.sizes dimension.originItemSize
        (f.itemIndex - ((target.itemIndex - f.itemIndex).natAbs : Nat))
        (f.start - sizeSum dimension.sizes dimension.originItemSize
          (f.itemIndex - ((target.itemIndex - f.itemIndex).natAbs : Nat))
          (target.itemIndex - f.itemIndex).natAbs) 0,
        l0, by rw [hneg]; exact h1, ?_, ?_, hl0⟩
      · rw [hfirst0, h2, getD_rotate _ _ _ (by omega) hn, if_pos (by omega), hnew 0 hk1]
      · simp only [spanAt]
        omega
  obtain ⟨r0, it0, l0, hrec, hfirst0, hidx0, hlast0⟩ := hrec
  have hadd : ∃ extra, addMissingItems target realCount virtualSize r0 dimension = some extra := by
    unfold addMissingItems
    rw [hlast0]
    exact ⟨_, rfl⟩
  obtain ⟨extra, hadd⟩ := hadd
  by_cases hlen : extra.items.length ≠ 0
  · refine ⟨{ items := r0.items ++ extra.items
              itemIndexes := r0.itemIndexes ++ extra.itemIndexes }, r0, it0, ?_, hrec,
      List.prefix_append _ _, List.prefix_append _ _,
      getFirstItem_append r0 it0 _ _ hfirst0, hidx0⟩
    unfold getUpdatedItemsByPosition
    simp only [hoff, hfirst, ne_eq, hshift, not_false_eq_true, if_true, hrec, hadd, hlen]
  · refine ⟨r0, r0, it0, ?_, hrec, List.prefix_refl _, List.prefix_refl _, hfirst0, hidx0⟩
    unfold getUpdatedItemsByPosition
    simp only [hoff, hfirst, ne_eq, hshift, not_false_eq_true, if_true, hrec, hadd, hlen,
      if_false]

/-- Instance of `first_visible_is_target`, the example of the claim: uniform size
20, 1000 items, viewport 100, the window of the items 0 to 5 built at position
0, and the new position 25.  The first visible item of the returned window is
item 1 with the span from 20 to 40. -/
theorem first_visible_is_target_witness :
    (∃ r st it,
      getUpdatedItemsByPosition 25 (sixItems 0) 1000 100 (uniformDimension 20 20000)
        = some (r, st) ∧
      recombineByOffset ⟨uniformDimension 20 20000, decide ((1 : Int) - 0 > -1),
        ((1 : Int) - 0).natAbs⟩ (sixItems 0) = some (some st, st) ∧
      st.items <+: r.items ∧ st.itemIndexes <+: r.itemIndexes ∧
      getFirstItem r = some it ∧ it.itemIndex = 1) ∧
    (getUpdatedItemsByPosition 25 (sixItems 0) 1000 100 (uniformDimension 20 20000)).map
        (fun p => getFirstItem p.1)
      = some (some { itemIndex := 1, start := 20, end_ := 40, size := 20 }) :=
  ⟨first_visible_is_target 25 1000 100 (uniformDimension 20 20000) (sixItems 0)
      { itemIndex := 0, start := 0, end_ := 20, size := 20 }
      { itemIndex := 5, start := 100, end_ := 120, size := 20 }
      { itemIndex := 1, start := 20, end_ := 40 }
      (by decide) (by decide) (by decide) (by decide) (by decide) (by decide) (by decide),
    by decide⟩

/-- Beyond the end of the axis the located item is not an item of the axis, and
the first visible item is not the located item.  Six items of size 20 make an
axis of 120 pixels; the previous window holds the items 0 to 5.  Position 120,
the first pixel after the axis, locates an item 6, a shift of 6, the number of
visible items, so the recombination path is taken.  The forward loop breaks at
once (item 6 would end at 140 > 120), the rotation by 6 leaves the order as it
was, and the first visible item of the returned window is item 0.  At position
25 of the long axis the first visible item is item 1 with the span `[20, 40)`. -/
theorem first_visible_not_target_at_axis_end :
    getOffset (uniformDimension 20 120) 120 20
      = some { itemIndex := 6, start := 120, end_ := 140 } ∧
    getFirstItem (sixItems 0) = some { itemIndex := 0, start := 0, end_ := 20, size := 20 } ∧
    recombineByOffset ⟨uniformDimension 20 120, true, 6⟩ (sixItems 0)
      = some (some (sixItems 0), sixItems 0) ∧
    (getUpdatedItemsByPosition 120 (sixItems 0) 6 100 (uniformDimension 20 120)).map
        (fun p => getFirstItem p.1)
      = some (some { itemIndex := 0, start := 0, end_ := 20, size := 20 }) ∧
    (getUpdatedItemsByPosition 25 (sixItems 0) 1000 100 (uniformDimension 20 20000)).map
        (fun p => getFirstItem p.1)
      = some (some { itemIndex := 1, start := 20, end_ := 40, size := 20 }) := by
  decide


/-! ## When a window is returned -/

theorem forwardLoop_isSome (dimension : DimensionSettingsState) (idxs : List Nat) :
    ∀ (left i : Nat) (last : VirtualPositionItem) (items : List (Option VirtualPositionItem)),
      ∃ items', forwardLoop dimension idxs left i (some last) items = some items' := by
  intro left
  induction left with
  | zero => intro i last items; exact ⟨items, rfl⟩
  | succ left ih =>
    intro i last items
    rw [forwardLoop]
    simp only []
    split
    · exact ⟨items, rfl⟩
    · exact ih _ _ _

theorem backwardLoop_isSome (dimension : DimensionSettingsState) (idxs : List Nat)
    (changed : Nat) :
    ∀ (left : Nat) (first : VirtualPositionItem) (items : List (Option VirtualPositionItem)),
      ∃ items', backwardLoop dimension idxs changed left (some first) items = some items' := by
  intro left
  induction left with
  | zero => intro first items; exact ⟨items, rfl⟩
  | succ left ih =>
    intro first items
    rw [backwardLoop]
    exact ih _ _

theorem none_mem_setSlot (items : List (Option VirtualPositionItem)) (k : Nat)
    (v : VirtualPositionItem) (hk : k < items.length) (h : none ∈ setSlot items k v) :
    none ∈ items := by
  unfold setSlot at h
  rw [if_pos hk] at h
  rcases List.mem_or_eq_of_mem_set h with h | h
  · exact h
  · cases h

/-- The forward loop leaves no hole in an items array without holes when the
slots it writes are inside the array. -/
theorem forwardLoop_full (dimension : DimensionSettingsState) (idxs : List Nat) :
    ∀ (left i : Nat) (last : Option VirtualPositionItem)
      (items items' : List (Option VirtualPositionItem)),
      (∀ j, i ≤ j → j < i + left → idxs.getD j 0 < items.length) →
      none ∉ items →
      forwardLoop dimension idxs left i last items = some items' →
      none ∉ items' := by
  intro left
  induction left with
  | zero =>
    intro i last items items' _ hfull h
    rw [forwardLoop] at h
    cases h; exact hfull
  | succ left ih =>
    intro i last items items' hin hfull h
    cases last with
    | none => rw [forwardLoop] at h; simp at h
    | some lastItem =>
      rw [forwardLoop] at h
      simp only [] at h
      split at h
      · cases h; exact hfull
      · have hk := hin i (le_refl _) (by omega)
        exact ih (i + 1) _ _ items'
          (fun j h1 h2 => by
            rw [setSlot_length_of_lt _ _ _ hk]; exact hin j (by omega) (by omega))
          (fun hmem => hfull (none_mem_setSlot _ _ _ hk hmem)) h

/-- The backward loop leaves no hole in an items array without holes when the
slots it writes are inside the array. -/
theorem backwardLoop_full (dimension : DimensionSettingsState) (idxs : List Nat)
    (changed : Nat) :
    ∀ (left : Nat) (first : Option VirtualPositionItem)
      (items items' : List (Option VirtualPositionItem)),
      (∀ j, j < left → idxs.getD (changed + j) 0 < items.length) →
      none ∉ items →
      backwardLoop dimension idxs changed left first items = some items' →
      none ∉ items' := by
  intro left
  induction left with
  | zero =>
    intro first items items' _ hfull h
    rw [backwardLoop] at h
    cases h; exact hfull
  | succ left ih =>
    intro first items items' hin hfull h
    cases first with
    | none => rw [backwardLoop] at h; simp at h
    | some firstItem =>
      rw [backwardLoop] at h
      have hk := hin left (by omega)
      exact ih _ _ items'
        (fun j h1 => by
          rw [setSlot_length_of_lt _ _ _ hk]; exact hin j (by omega))
        (fun hmem => hfull (none_mem_setSlot _ _ _ hk hmem)) h

theorem slotAt_isSome_of_full (items : List (Option VirtualPositionItem)) (k : Nat)
    (hk : k < items.length) (hfull : none ∉ items) : ∃ it, slotAt items k = some it := by
  unfold slotAt
  rw [List.getD_eq_getElem _ _ hk]
  cases h : items[k] with
  | none => exact absurd (h ▸ List.getElem_mem hk) hfull
  | some it => exact ⟨it, rfl⟩

theorem getLastItem_isSome (w : ViewportStateItems) (hne : w.itemIndexes ≠ [])
    (hperm : w.itemIndexes.Perm (List.range w.items.length)) (hfull : none ∉ w.items) :
    ∃ l, getLastItem w = some l := by
  unfold getLastItem
  rw [List.getLast?_eq_getLast _ hne]
  simp only []
  exact slotAt_isSome_of_full _ _
    (List.mem_range.1 (hperm.subset (List.getLast_mem hne))) hfull

/-- A window is returned, not a `TypeError` thrown, whenever the locator returns
an item and the previous window has an order that is a permutation of its slots
and no hole in its items array. -/
theorem getUpdatedItemsByPosition_returns (pos realCount virtualSize : Int)
    (dimension : DimensionSettingsState) (w : ViewportStateItems) (target : PositionItem)
    (hoff : getOffset dimension pos dimension.originItemSize = some target)
    (hperm : w.itemIndexes.Perm (List.range w.items.length)) (hfull : none ∉ w.items) :
    ∃ r st, getUpdatedItemsByPosition pos w realCount virtualSize dimension = some (r, st) := by
  unfold getUpdatedItemsByPosition
  rw [hoff]
  cases hfirst : getFirstItem w with
  | none => exact ⟨_, _, rfl⟩
  | some f =>
    simp only []
    by_cases hshift : target.itemIndex - f.itemIndex ≠ 0
    · rw [if_pos hshift]
      have hne : w.itemIndexes ≠ [] := by
        intro hnil
        rw [getFirstItem, hnil] at hfirst
        simp at hfirst
      have hrec : (∃ st, recombineByOffset ⟨dimension, decide (target.itemIndex - f.itemIndex > -1),
          (target.itemIndex - f.itemIndex).natAbs⟩ w = some (none, st)) ∨
          (∃ st, recombineByOffset ⟨dimension, decide (target.itemIndex - f.itemIndex > -1),
          (target.itemIndex - f.itemIndex).natAbs⟩ w = some (some st, st)) := by
        by_cases hgt : (target.itemIndex - f.itemIndex).natAbs > w.itemIndexes.length
        · exact Or.inl ⟨w, recombineByOffset_of_gt _ w hgt⟩
        · right
          unfold recombineByOffset
          simp only [hgt, if_false]
          by_cases hdir : decide (target.itemIndex - f.itemIndex > -1) = true
          · rw [if_pos hdir]
            obtain ⟨l, hl⟩ := getLastItem_isSome w hne hperm hfull
            rw [hl]
            obtain ⟨items', hloop⟩ := forwardLoop_isSome dimension w.itemIndexes
              (target.itemIndex - f.itemIndex).natAbs 0 l w.items
            rw [hloop]
            exact ⟨_, rfl⟩
          · rw [if_neg hdir, hfirst]
            obtain ⟨items', hloop⟩ := backwardLoop_isSome dimension w.itemIndexes
              (w.itemIndexes.length - (target.itemIndex - f.itemIndex).natAbs)
              (target.itemIndex - f.itemIndex).natAbs f w.items
            rw [hloop]
            exact ⟨_, rfl⟩
      rcases hrec with ⟨st, hst⟩ | ⟨st, hst⟩
      · rw [hst]; exact ⟨_, _, rfl⟩
      · rw [hst]
        simp only []
        obtain ⟨hp1, hp2⟩ := recombineByOffset_perm _ _ _ hst
        have hstperm : st.itemIndexes.Perm (List.range st.items.length) := by
          rw [hp2 hperm]; exact hp1.trans hperm
        have hstne : st.itemIndexes ≠ [] := by
          intro hnil
          rw [hnil] at hp1
          exact hne (List.Perm.eq_nil hp1.symm)
        have hstfull : none ∉ st.items := by
          rcases recombineByOffset_cases _ _ _ _ hst with ⟨-, hres, -⟩ | ⟨hle, -, hdir⟩
          · cases hres
          · rcases hdir with ⟨-, hloop, -⟩ | ⟨-, hloop, -⟩
            · exact forwardLoop_full _ _ _ _ _ _ _
                (fun j _ hj => getD_lt_of_perm _ _ _ hperm (by omega)) hfull hloop
            · exact backwardLoop_full _ _ _ _ _ _ _
                (fun j hj => getD_lt_of_perm _ _ _ hperm (by omega)) hfull hloop
        obtain ⟨l, hl⟩ := getLastItem_isSome st hstne hstperm hstfull
        unfold addMissingItems
        rw [hl]
        simp only []
        split
        · exact ⟨_, _, rfl⟩
        · exact ⟨_, _, rfl⟩
    · rw [if_neg hshift]; exact ⟨_, _, rfl⟩


/-! ## The previous window after a call -/

/-- Rebuild path of `getUpdatedItemsByPosition`: without a first visible item,
with a shift of zero, or with a shift larger than the number of visible items
the call returns the full rebuild at the located item and leaves the previous
window as it was. -/
theorem getUpdatedItemsByPosition_rebuild_path (pos realCount virtualSize : Int)
    (dimension : DimensionSettingsState) (w : ViewportStateItems) (target : PositionItem)
    (hoff : getOffset dimension pos dimension.originItemSize = some target)
    (hpath : getFirstItem w = none ∨ ∃ f, getFirstItem w = some f ∧
      (target.itemIndex = f.itemIndex ∨
        w.itemIndexes.length < (target.itemIndex - f.itemIndex).natAbs)) :
    getUpdatedItemsByPosition pos w realCount virtualSize dimension
      = some (rebuild target realCount virtualSize dimension, w) := by
  unfold getUpdatedItemsByPosition
  rw [hoff]
  rcases hpath with hnone | ⟨f, hfirst, hcase⟩
  · rw [hnone]
  · rw [hfirst]
    simp only []
    rcases hcase with heq | hgt
    · have h0 : ¬ (target.itemIndex - f.itemIndex ≠ 0) := by omega
      rw [if_neg h0]
    · have hshift : target.itemIndex - f.itemIndex ≠ 0 := by omega
      rw [if_pos hshift, recombineByOffset_of_gt _ w (by exact hgt)]

/-- Recombination path of `getUpdatedItemsByPosition`: with a first visible item
and a non-zero shift of magnitude at most the number of visible items, a call
that returns went through `recombineByOffset`, which left the previous window as
the recombined window, and returned a copy of it with the items and slots of the
gap filler appended. -/
theorem getUpdatedItemsByPosition_recombine_path (pos realCount virtualSize : Int)
    (dimension : DimensionSettingsState) (w r st : ViewportStateItems)
    (target : PositionItem) (f : VirtualPositionItem)
    (hoff : getOffset dimension pos dimension.originItemSize = some target)
    (hfirst : getFirstItem w = some f) (hne : target.itemIndex ≠ f.itemIndex)
    (hle : (target.itemIndex - f.itemIndex).natAbs ≤ w.itemIndexes.length)
    (h : getUpdatedItemsByPosition pos w realCount virtualSize dimension = some (r, st)) :
    recombineByOffset ⟨dimension, decide (target.itemIndex - f.itemIndex > -1),
      (target.itemIndex - f.itemIndex).natAbs⟩ w = some (some st, st) ∧
    ∃ extra, addMissingItems target realCount virtualSize st dimension = some extra ∧
      r.items = st.items ++ extra.items ∧
      r.itemIndexes = st.itemIndexes ++ extra.itemIndexes := by
  have hshift : target.itemIndex - f.itemIndex ≠ 0 := by omega
  unfold getUpdatedItemsByPosition at h
  rw [hoff, hfirst] at h
  simp only [hshift, ne_eq, not_false_eq_true, if_true] at h
  cases hrec : recombineByOffset ⟨dimension, decide (target.itemIndex - f.itemIndex > -1),
      (target.itemIndex - f.itemIndex).natAbs⟩ w with
  | none => rw [hrec] at h; simp at h
  | some pr =>
    obtain ⟨res, st0⟩ := pr
    rw [hrec] at h
    rcases recombineByOffset_cases _ _ _ _ hrec with ⟨hgt, -, -⟩ | ⟨-, hres, -⟩
    · simp only [] at hgt
      omega
    · subst hres
      simp only [] at h
      cases hadd : addMissingItems target realCount virtualSize st0 dimension with
      | none => rw [hadd] at h; simp at h
      | some extra =>
        rw [hadd] at h
        simp only [] at h
        by_cases hlen : extra.items.length ≠ 0
        · rw [if_pos hlen] at h
          cases h
          exact ⟨rfl, extra, hadd, rfl, rfl⟩
        · rw [if_neg hlen] at h
          cases h
          have hitems : extra.items = [] := List.length_eq_zero.1 (by omega)
          have hidx : extra.itemIndexes = [] := by
            rw [addMissingItems_itemIndexes _ _ _ _ _ _ hadd, hitems]
            rfl
          exact ⟨rfl, extra, hadd, by rw [hitems, List.append_nil],
            by rw [hidx, List.append_nil]⟩

/-- A forward recombination by at least one item that does not throw read a last
visible item. -/
theorem recombineByOffset_forward_last (dimension : DimensionSettingsState)
    (w : ViewportStateItems) (k : Nat) (res : Option ViewportStateItems)
    (st : ViewportStateItems) (hk1 : 0 < k) (hkn : k ≤ w.itemIndexes.length)
    (h : recombineByOffset ⟨dimension, true, k⟩ w = some (res, st)) :
    ∃ l, getLastItem w = some l := by
  cases hlast : getLastItem w with
  | some l => exact ⟨l, rfl⟩
  | none =>
    obtain ⟨k', rfl⟩ : ∃ k', k = k' + 1 := ⟨k - 1, by omega⟩
    have hgt : ¬ k' + 1 > w.itemIndexes.length := by omega
    simp [recombineByOffset, hgt, hlast, forwardLoop] at h

/-- Claim C12, as the code has it: the previous window after a call of
`getUpdatedItemsByPosition` that returns.

On the rebuild path (no first visible item, a shift of zero, or a shift larger
than the number `n` of visible items) the previous window is the same after the
call, and the returned window is the full rebuild.

On the recombination path (a first visible item `f` and a non-zero shift of
magnitude `k ≤ n`) the previous window is overwritten in place: after the call
it is the window `recombineByOffset` returns, and the returned window is a copy
of it to which alone the items and slots of the gap filler are appended.  Its
order is the order before with the first `k` entries moved to the back (forward)
or the last `k` entries moved to the front (backward).  When the order before has
no repeated slot, its slots are as follows.  Forward: the slots of the first `c`
visual positions hold the first `c ≤ k` spans that continue the last visible
item, where `c < k` only when span `c` would end beyond `realSize`.  Backward:
the slots of the last `k` visual positions hold the `k` spans that precede `f`.
Every other slot holds what it held before.  For a contiguous previous window the
window after the call differs from the window before, unless the shift is a
forward shift of `n` whose first new span would end beyond `realSize`. -/
theorem previous_window_after_call (pos realCount virtualSize : Int)
    (dimension : DimensionSettingsState) (w r st : ViewportStateItems) (target : PositionItem)
    (hoff : getOffset dimension pos dimension.originItemSize = some target)
    (h : getUpdatedItemsByPosition pos w realCount virtualSize dimension = some (r, st)) :
    (getFirstItem w = none → st = w ∧ r = rebuild target realCount virtualSize dimension) ∧
    (∀ f, getFirstItem w = some f →
      ((target.itemIndex = f.itemIndex ∨
          w.itemIndexes.length < (target.itemIndex - f.itemIndex).natAbs) →
        st = w ∧ r = rebuild target realCount virtualSize dimension) ∧
      (target.itemIndex ≠ f.itemIndex →
          (target.itemIndex - f.itemIndex).natAbs ≤ w.itemIndexes.length →
        recombineByOffset ⟨dimension, decide (target.itemIndex - f.itemIndex > -1),
          (target.itemIndex - f.itemIndex).natAbs⟩ w = some (some st, st) ∧
        (∃ extra, addMissingItems target realCount virtualSize st dimension = some extra ∧
          r.items = st.items ++ extra.items ∧
          r.itemIndexes = st.itemIndexes ++ extra.itemIndexes) ∧
        (f.itemIndex < target.itemIndex →
          st.itemIndexes = w.itemIndexes.drop (target.itemIndex - f.itemIndex).natAbs
            ++ w.itemIndexes.take (target.itemIndex - f.itemIndex).natAbs ∧
          (w.itemIndexes.Nodup → ∃ l c, getLastItem w = some l ∧
            c ≤ (target.itemIndex - f.itemIndex).natAbs ∧
            (c < (target.itemIndex - f.itemIndex).natAbs →
              dimension.realSize < l.end_
                + sizeSum dimension.sizes dimension.originItemSize (l.itemIndex + 1) (c + 1)) ∧
            (∀ j, j < c → slotAt st.items (w.itemIndexes.getD j 0)
              = some (spanAt dimension.sizes dimension.originItemSize
                  (l.itemIndex + 1) l.end_ j)) ∧
            (∀ s, (∀ j, j < c → w.itemIndexes.getD j 0 ≠ s) →
              slotAt st.items s = slotAt w.items s))) ∧
        (target.itemIndex < f.itemIndex →
          st.itemIndexes
            = w.itemIndexes.drop
                (w.itemIndexes.length - (target.itemIndex - f.itemIndex).natAbs)
              ++ w.itemIndexes.take
                (w.itemIndexes.length - (target.itemIndex - f.itemIndex).natAbs) ∧
          (w.itemIndexes.Nodup →
            (∀ j, j < (target.itemIndex - f.itemIndex).natAbs →
              slotAt st.items (w.itemIndexes.getD
                (w.itemIndexes.length - (target.itemIndex - f.itemIndex).natAbs + j) 0)
              = some (spanAt dimension.sizes dimension.originItemSize
                  (f.itemIndex - (target.itemIndex - f.itemIndex).natAbs)
                  (f.start - sizeSum dimension.sizes dimension.originItemSize
                    (f.itemIndex - (target.itemIndex - f.itemIndex).natAbs)
                    (target.itemIndex - f.itemIndex).natAbs) j)) ∧
            (∀ s, (∀ j, j < (target.itemIndex - f.itemIndex).natAbs →
                w.itemIndexes.getD
                  (w.itemIndexes.length - (target.itemIndex - f.itemIndex).natAbs + j) 0 ≠ s) →
              slotAt st.items s = slotAt w.items s))) ∧
        (Contiguous w →
          (target.itemIndex < f.itemIndex ∨
            (target.itemIndex - f.itemIndex).natAbs < w.itemIndexes.length ∨
            ∃ l, getLastItem w = some l ∧
              l.end_ + getItemSize (l.itemIndex + 1) dimension.sizes dimension.originItemSize
                ≤ dimension.realSize) →
          st ≠ w))) := by
  refine ⟨fun hnone => ?_, fun f hfirst => ⟨fun hcase => ?_, fun hne hle => ?_⟩⟩
  · rw [getUpdatedItemsByPosition_rebuild_path pos realCount virtualSize dimension w target hoff
      (Or.inl hnone)] at h
    cases h
    exact ⟨rfl, rfl⟩
  · rw [getUpdatedItemsByPosition_rebuild_path pos realCount virtualSize dimension w target hoff
      (Or.inr ⟨f, hfirst, hcase⟩)] at h
    cases h
    exact ⟨rfl, rfl⟩
  · obtain ⟨hrec, hextra⟩ := getUpdatedItemsByPosition_recombine_path pos realCount virtualSize
      dimension w r st target f hoff hfirst hne hle h
    have hk1 : 0 < (target.itemIndex - f.itemIndex).natAbs := Int.natAbs_pos.2 (by omega)
    have hn : 0 < w.itemIndexes.length := by omega
    -- the forward and the backward description of the window after the call
    have hfwd : f.itemIndex < target.itemIndex →
        recombineByOffset ⟨dimension, true, (target.itemIndex - f.itemIndex).natAbs⟩ w
          = some (some st, st) := by
      intro hdir
      have hpos : decide (target.itemIndex - f.itemIndex > -1) = true := by
        simp only [decide_eq_true_eq]; omega
      rw [← hpos]; exact hrec
    have hbwd : target.itemIndex < f.itemIndex →
        recombineByOffset ⟨dimension, false, (target.itemIndex - f.itemIndex).natAbs⟩ w
          = some (some st, st) := by
      intro hdir
      have hneg : decide (target.itemIndex - f.itemIndex > -1) = false := by
        simp only [decide_eq_false_iff_not]; omega
      rw [← hneg]; exact hrec
    have hfslots : f.itemIndex < target.itemIndex → w.itemIndexes.Nodup →
        ∃ l c, getLastItem w = some l ∧
          c ≤ (target.itemIndex - f.itemIndex).natAbs ∧
          (c < (target.itemIndex - f.itemIndex).natAbs →
            dimension.realSize < l.end_
              + sizeSum dimension.sizes dimension.originItemSize (l.itemIndex + 1) (c + 1)) ∧
          (∀ j, j < c → slotAt st.items (w.itemIndexes.getD j 0)
            = some (spanAt dimension.sizes dimension.originItemSize
                (l.itemIndex + 1) l.end_ j)) ∧
          (∀ s, (∀ j, j < c → w.itemIndexes.getD j 0 ≠ s) →
            slotAt st.items s = slotAt w.items s) := by
      intro hdir hnodup
      obtain ⟨l, hlast⟩ := recombineByOffset_forward_last dimension w _ _ _ hk1 hle (hfwd hdir)
      obtain ⟨c, st', hck, h1, -, -, hstop, hnew, hold⟩ := recombineByOffset_forward_slots
        dimension w l (target.itemIndex - f.itemIndex).natAbs hnodup hlast hle
      rw [hfwd hdir] at h1
      cases h1
      exact ⟨l, c, hlast, hck, hstop, hnew, hold⟩
    have hbslots : target.itemIndex < f.itemIndex → w.itemIndexes.Nodup →
        (∀ j, j < (target.itemIndex - f.itemIndex).natAbs →
          slotAt st.items (w.itemIndexes.getD
            (w.itemIndexes.length - (target.itemIndex - f.itemIndex).natAbs + j) 0)
          = some (spanAt dimension.sizes dimension.originItemSize
              (f.itemIndex - (target.itemIndex - f.itemIndex).natAbs)
              (f.start - sizeSum dimension.sizes dimension.originItemSize
                (f.itemIndex - (target.itemIndex - f.itemIndex).natAbs)
                (target.itemIndex - f.itemIndex).natAbs) j)) ∧
        (∀ s, (∀ j, j < (target.itemIndex - f.itemIndex).natAbs →
            w.itemIndexes.getD
              (w.itemIndexes.length - (target.itemIndex - f.itemIndex).natAbs + j) 0 ≠ s) →
          slotAt st.items s = slotAt w.items s) := by
      intro hdir hnodup
      obtain ⟨st', h1, -, hnew, hold⟩ := recombineByOffset_backward_slots
        dimension w f (target.itemIndex - f.itemIndex).natAbs hnodup hfirst hk1 hle
      rw [hbwd hdir] at h1
      cases h1
      exact ⟨hnew, hold⟩
    have hforder : f.itemIndex < target.itemIndex →
        st.itemIndexes = w.itemIndexes.drop (target.itemIndex - f.itemIndex).natAbs
          ++ w.itemIndexes.take (target.itemIndex - f.itemIndex).natAbs := by
      intro hdir
      rcases recombineByOffset_cases _ _ _ _ (hfwd hdir) with ⟨-, hres, -⟩ | ⟨-, -, hd⟩
      · cases hres
      · rcases hd with ⟨-, -, hidx⟩ | ⟨hfalse, -, -⟩
        · exact hidx
        · cases hfalse
    have hborder : target.itemIndex < f.itemIndex →
        st.itemIndexes
          = w.itemIndexes.drop (w.itemIndexes.length - (target.itemIndex - f.itemIndex).natAbs)
            ++ w.itemIndexes.take
              (w.itemIndexes.length - (target.itemIndex - f.itemIndex).natAbs) := by
      intro hdir
      rcases recombineByOffset_cases _ _ _ _ (hbwd hdir) with ⟨-, hres, -⟩ | ⟨-, -, hd⟩
      · cases hres
      · rcases hd with ⟨htrue, -, -⟩ | ⟨-, -, hidx⟩
        · cases htrue
        · rw [hidx]
          exact rotate_back_eq _ _ hk1 hle
    refine ⟨hrec, hextra, fun hdir => ⟨hforder hdir, hfslots hdir⟩,
      fun hdir => ⟨hborder hdir, hbslots hdir⟩, ?_⟩
    intro hcont hcond hst
    have hnodup := nodup_of_contiguous w hcont
    have hpres := contiguous_from_first w f hcont hfirst
    by_cases hkn : (target.itemIndex - f.itemIndex).natAbs < w.itemIndexes.length
    · -- the order changes: its first entry moves
      have hord : st.itemIndexes.getD 0 0 ≠ w.itemIndexes.getD 0 0 := by
        by_cases hdir : f.itemIndex < target.itemIndex
        · rw [hforder hdir, getD_rotate _ _ _ hle hn, if_pos (by omega), Nat.add_zero]
          exact (getD_ne_of_nodup _ hnodup 0 _ hk1 hkn).symm
        · rw [hborder (by omega), getD_rotate _ _ _ (by omega) hn, if_pos (by omega),
            Nat.add_zero]
          exact (getD_ne_of_nodup _ hnodup 0 _ (by omega) (by omega)).symm
      exact hord (by rw [hst])
    · by_cases hdir : f.itemIndex < target.itemIndex
      · -- forward shift of `n`: slot `itemIndexes[0]` holds the item after the last
        rcases hcond with hlt | hlt | ⟨l', hlast', hreal⟩
        · omega
        · omega
        · obtain ⟨l, c, hlast, -, hstop, hnew, -⟩ := hfslots hdir hnodup
          have hl : l' = l := by
            rw [hlast] at hlast'
            exact (Option.some.inj hlast').symm
          rw [hl] at hreal
          have hlidx : l.itemIndex = f.itemIndex + ((w.itemIndexes.length - 1 : Nat) : Int) := by
            obtain ⟨it, h1, h2⟩ := hpres (w.itemIndexes.length - 1) (by omega)
            rw [getLastItem_eq_slot w hn, h1] at hlast
            cases hlast
            exact h2
          have hc1 : 0 < c := by
            by_contra hc0
            have hc : c = 0 := by omega
            have h3 := hstop (by omega)
            rw [hc, Nat.zero_add, sizeSum, sizeSum] at h3
            simp only [Nat.cast_zero, add_zero] at h3
            omega
          have h0 := hnew 0 hc1
          obtain ⟨it, hit, hidx⟩ := hpres 0 hn
          rw [hst, hit] at h0
          cases h0
          simp only [spanAt] at hidx
          omega
      · -- backward shift of `n`: slot `itemIndexes[n - 1]` holds the item before `f`
        have hb := (hbslots (by omega) hnodup).1
          ((target.itemIndex - f.itemIndex).natAbs - 1) (by omega)
        obtain ⟨it, hit, hidx⟩ := hpres (w.itemIndexes.length - 1) (by omega)
        have e : w.itemIndexes.length - (target.itemIndex - f.itemIndex).natAbs
            + ((target.itemIndex - f.itemIndex).natAbs - 1) = w.itemIndexes.length - 1 := by
          omega
        rw [e, hst, hit] at hb
        cases hb
        simp only [spanAt] at hidx
        omega

/-- Instance of `previous_window_after_call`: the call at position 25 with the
window of the items 0 to 5 (forward shift 1) goes through `recombineByOffset` and
leaves that window as `rotatedWindow`, with the order rotated by one entry. -/
theorem previous_window_after_call_witness :
    recombineByOffset ⟨uniformDimension 20 20000, decide ((1 : Int) - 0 > -1),
      ((1 : Int) - 0).natAbs⟩ (sixItems 0) = some (some rotatedWindow, rotatedWindow) ∧
    rotatedWindow.itemIndexes
      = (sixItems 0).itemIndexes.drop ((1 : Int) - 0).natAbs
        ++ (sixItems 0).itemIndexes.take ((1 : Int) - 0).natAbs ∧
    rotatedWindow ≠ sixItems 0 :=
  match (previous_window_after_call 25 1000 100 (uniformDimension 20 20000) (sixItems 0)
      rotatedWindow rotatedWindow { itemIndex := 1, start := 20, end_ := 40 }
      (by decide) (by decide)).2
      { itemIndex := 0, start := 0, end_ := 20, size := 20 } (by decide) with
  | ⟨_, hpath⟩ =>
    match hpath (by decide) (by decide) with
    | ⟨h1, _, h3, _, h5⟩ =>
      ⟨h1, (h3 (by decide)).1, h5 (by decide) (Or.inr (Or.inl (by decide)))⟩

/-- Claim C12, as stated, fails.  The call at position 5 with the window of the
items 1 to 6 (backward shift 1) writes item 0 into slot 5 of that window and
moves slot 5 to the front of its order: the previous window is not the same after
the call. -/
theorem previous_window_is_overwritten :
    getUpdatedItemsByPosition 5 (sixItems 1) 1000 100 (uniformDimension 20 20000)
      = some (backwardWindow, backwardWindow) ∧
    backwardWindow ≠ sixItems 1 ∧
    backwardWindow.items ≠ (sixItems 1).items ∧
    backwardWindow.itemIndexes ≠ (sixItems 1).itemIndexes := by
  decide

end Viewport
